import Mathlib

/-!
# function2: message fan-out, lifecycle, timers, construction and error paths

A shallow embedding of `src/src/function2.js` (the `function2` node of
node-red-contrib-function) and theorems about it.

Modelling conventions
* A message object is a cell of a heap, named by its address; two values name
  the same JavaScript object exactly when they carry the same address.
* Arrays are modelled by value (a list of their elements). The arrays of one
  results value are taken to be pairwise distinct objects.
* JavaScript numbers are modelled by integers (`NaN` is not modelled).
* Host capabilities (`send`, `done`) and timer handles are named by natural
  numbers; calls made on the host are recorded in an effect log.
* A rejection value of the body promise is given by what the error path reads
  of it: its stack, its string form and the result of `JSON.stringify`.
* A user callback or fragment is given by one run of it: the sandbox calls it
  makes, in order, and the exception it ends with, if any.
* The script compiler and the module loader are given by their results: a
  compiled script or a syntax error, a loaded module or the error of the
  import.
-/

namespace Function2

/-! ## JavaScript values -/

/-- Immutable content of a message field. -/
inductive Data where
  | undefined
  | null
  | bool (b : Bool)
  | num (n : Int)
  | str (s : String)
  deriving DecidableEq, Repr

/-- A message object: its own properties in insertion order. Field values are
immutable data, so copying the property list yields a deep copy. -/
abbrev JSObject := List (String × Data)

/-- The heap of message objects; an address is an index in the list. -/
abbrev Heap := List JSObject

/-- A JavaScript value as it can appear in a results structure. -/
inductive JSVal where
  | undefined
  | null
  | bool (b : Bool)
  | num (n : Int)
  | str (s : String)
  | buffer (bytes : List Nat)
  | obj (ref : Nat)
  | date (ref : Nat)
  | arr (items : List JSVal)
  deriving Repr

/-- Result of the JavaScript `typeof` operator. -/
inductive JSType where
  | tUndefined
  | tObject
  | tBool
  | tNumber
  | tString
  deriving DecidableEq, Repr

/-- The string `typeof` evaluates to. -/
def JSType.name : JSType → String
  | .tUndefined => "undefined"
  | .tObject => "object"
  | .tBool => "boolean"
  | .tNumber => "number"
  | .tString => "string"

/-- The operator `typeof v`; note that `typeof null` is `object`. -/
def typeOf : JSVal → JSType
  | .undefined => .tUndefined
  | .null => .tObject
  | .bool _ => .tBool
  | .num _ => .tNumber
  | .str _ => .tString
  | .buffer _ => .tObject
  | .obj _ => .tObject
  | .date _ => .tObject
  | .arr _ => .tObject

/-- The test `Buffer.isBuffer(v)`. -/
def isBuffer : JSVal → Bool
  | .buffer _ => true
  | _ => false

/-- The test `util.isArray(v)`. -/
def isArray : JSVal → Bool
  | .arr _ => true
  | _ => false

/-- The test `v == null`, true of `null` and `undefined` only. -/
def isNullish : JSVal → Bool
  | .undefined => true
  | .null => true
  | _ => false

/-- JavaScript truthiness, as used by `if (v)`. -/
def truthy : JSVal → Bool
  | .undefined => false
  | .null => false
  | .bool b => b
  | .num n => n != 0
  | .str s => s != ""
  | .buffer _ => true
  | .obj _ => true
  | .date _ => true
  | .arr _ => true

/-- The elements of an array value (no elements for any other value). -/
def elems : JSVal → List JSVal
  | .arr xs => xs
  | _ => []

/-- The test `v !== false`. -/
def notFalse : JSVal → Bool
  | .bool false => false
  | _ => true

/-! ## Heap operations -/

/-- Property read `o[k]`; a missing property reads as `undefined`. -/
def getField : JSObject → String → Data
  | [], _ => .undefined
  | (k', v) :: rest, k => if k' = k then v else getField rest k

/-- Property write `o[k] = v`: an existing property keeps its place, a new one
is appended. -/
def setField : JSObject → String → Data → JSObject
  | [], k, v => [(k, v)]
  | (k', v') :: rest, k, v =>
    if k' = k then (k', v) :: rest else (k', v') :: setField rest k v

/-- The object stored at an address (the empty object for a dangling one). -/
def Heap.read (h : Heap) (r : Nat) : JSObject := h.getD r []

/-- Replace the object stored at an address. -/
def Heap.write (h : Heap) (r : Nat) (o : JSObject) : Heap := h.set r o

/-- The address held by a value that names a heap object. -/
def refOf : JSVal → Option Nat
  | .obj r => some r
  | .date r => some r
  | _ => none

/-- Modelled from the spec: `RED.util.cloneMessage` is a host utility that is
not part of this repository; the spec calls its result a deep clone. The clone
is a freshly allocated object carrying a copy of every field. -/
def cloneMessage (h : Heap) : JSVal → JSVal × Heap
  | .obj r => (.obj h.length, h ++ [h.read r])
  | .date r => (.date h.length, h ++ [h.read r])
  | v => (v, h)

/-- The assignment `msg._msgid = _msgid` on the object a value names. -/
def stampMsgid (h : Heap) (msg : JSVal) (_msgid : Data) : Heap :=
  match refOf msg with
  | some r => h.write r (setField (h.read r) "_msgid" _msgid)
  | none => h

/-! ## Effects on the host -/

/-- What is passed to `node.error`: the message `non-message-returned` with the
type name it mentions, a value (an exception caught, or the argument of a
call made by user code), an `Error` object caught by the constructor, given by
its message, or one of the three messages on external modules, with the
values they mention. -/
inductive Report where
  | nonMessageReturned (type : String)
  | value (err : JSVal)
  | exception (message : String)
  | moduleNameError (name : String)
  | moduleLoadError (module : Option String) (error : String)
  | externalModuleLoadError
  deriving Repr

/-- The `send` argument of a call of `sendResults` made through `node._send`:
the `__send__` function of the setup wrapper, or the send capability that the
host delivered with a message. -/
inductive SendCap where
  | setupSend
  | cap (send : Nat)
  deriving DecidableEq, Repr

/-- The `_msgid` argument of a call of `sendResults` made through `node._send`:
a fresh `RED.util.generateId()`, or `msg._msgid` read from a message object. -/
inductive IdSource where
  | generated
  | ofMessage (msg : Nat)
  deriving DecidableEq, Repr

/-- A call made on the host or the platform. -/
inductive Effect where
  | send (cap : Nat) (msgs : JSVal)
  | error (r : Report)
  | done (cap : Nat) (err : Option String)
  | status (text : Option String)
  | metric (msg : Nat)
  | sendResultsCall (send : SendCap) (id : IdSource) (msgs : JSVal) (cloneMsg : JSVal)
  | platformClearTimeout (h : Nat)
  | platformClearInterval (h : Nat)
  | runTeardown
  | on (args : List JSVal)
  deriving Repr

/-! ## sendResults -/

/-- The local variables of `sendResults` that change while it runs, with the
heap and the effect log. -/
structure SendState where
  heap : Heap
  msgCount : Nat
  log : List Effect
  deriving Repr

/-- The body of the inner loop of `sendResults` for one element `msgs[m][n]`
(function2.js, lines 38 to 54): returns the element left in the array and the
new state. -/
def sendEntry (_msgid : Data) (cloneFirstMessage : JSVal) (st : SendState) (msg : JSVal) :
    JSVal × SendState :=
  if !isNullish msg then
    if typeOf msg = .tObject && !isBuffer msg && !isArray msg then
      let cloned : JSVal × Heap :=
        if st.msgCount = 0 && notFalse cloneFirstMessage then cloneMessage st.heap msg
        else (msg, st.heap)
      (cloned.1, { heap := stampMsgid cloned.2 cloned.1 _msgid,
                   msgCount := st.msgCount + 1,
                   log := st.log })
    else
      let type : String :=
        if typeOf msg = .tObject then
          (if isBuffer msg then "Buffer" else (if isArray msg then "Array" else "Date"))
        else (typeOf msg).name
      (msg, { st with log := st.log ++ [.error (.nonMessageReturned type)] })
  else (msg, st)

/-- The inner loop `for (n = 0; n < msgs[m].length; n++)` (function2.js, line
37). -/
def sendInner (_msgid : Data) (cloneFirstMessage : JSVal) :
    List JSVal → SendState → List JSVal × SendState
  | [], st => ([], st)
  | msg :: rest, st =>
    let r := sendEntry _msgid cloneFirstMessage st msg
    let rs := sendInner _msgid cloneFirstMessage rest r.2
    (r.1 :: rs.1, rs.2)

/-- The outer loop `for (m = 0; m < msgs.length; m++)` (function2.js, lines 32
to 36): a falsy position is skipped, a position that is not an array is
wrapped in one. -/
def sendOuter (_msgid : Data) (cloneFirstMessage : JSVal) :
    List JSVal → SendState → List JSVal × SendState
  | [], st => ([], st)
  | p :: rest, st =>
    if truthy p then
      let entries : List JSVal := if !isArray p then [p] else elems p
      let r := sendInner _msgid cloneFirstMessage entries st
      let rs := sendOuter _msgid cloneFirstMessage rest r.2
      (.arr r.1 :: rs.1, rs.2)
    else
      let rs := sendOuter _msgid cloneFirstMessage rest st
      (p :: rs.1, rs.2)

/-- The function `sendResults(node, send, _msgid, msgs, cloneFirstMessage)`
(function2.js, lines 25 to 61); `send` names the capability it is given. -/
def sendResults (heap : Heap) (send : Nat) (_msgid : Data) (msgs : JSVal)
    (cloneFirstMessage : JSVal) : SendState :=
  if isNullish msgs then { heap := heap, msgCount := 0, log := [] }
  else
    let msgs1 : List JSVal := if !isArray msgs then [msgs] else elems msgs
    let r := sendOuter _msgid cloneFirstMessage msgs1 { heap := heap, msgCount := 0, log := [] }
    if r.2.msgCount > 0 then { r.2 with log := r.2.log ++ [.send send (.arr r.1)] }
    else r.2

/-! ## The node instance: lifecycle, sandbox and close sequence -/

/-- A pending work item `{ msg, send, done }`: the address of the message
object and the two capabilities delivered with it. -/
structure WorkItem where
  msg : Nat
  send : Nat
  done : Nat
  deriving DecidableEq, Repr

/-- The variable `state` of `FunctionNode`. -/
inductive Lifecycle where
  | RESOLVING
  | RESOLVED
  | ERROR
  deriving DecidableEq, Repr

/-- State of the setup promise (`promise` in `FunctionNode`). -/
inductive Settlement where
  | pending
  | fulfilled
  | rejected
  deriving DecidableEq, Repr

/-- The function currently stored in the property `send` of the sandbox `node`
object: none, the one installed by the setup wrapper, or the one installed by
the body wrapper when it was invoked for a work item, which captures that
invocation's `msg` and `send`. -/
inductive SendBinding where
  | unbound
  | setup
  | body (w : WorkItem)
  deriving DecidableEq, Repr

/-- A call that user code makes on the sandbox. For the two timer creators the
argument is the handle the platform returns. -/
inductive SandboxOp where
  | setTimeout (timerId : Nat)
  | clearTimeout (id : Nat)
  | setInterval (timerId : Nat)
  | clearInterval (id : Nat)
  | status (text : Option String)
  | error (err : JSVal)
  | nodeSend (msgs : JSVal) (cloneMsg : JSVal)
  deriving Repr

/-- One run of the teardown fragment: the sandbox calls it makes, in order, and
the exception it ends with, if any. -/
structure Fragment where
  calls : List SandboxOp
  throws : Option JSVal
  deriving Repr

/-- The closure variables of one `FunctionNode` instance, the state of its
setup promise, and what it has done so far: `bodyCalls` lists the invocations
of the compiled body function in order, `passes` counts the iterations of the
drain loop, `log` lists the calls made on the host. -/
structure Node where
  state : Lifecycle
  messages : List WorkItem
  finScript : Option Fragment
  outstandingTimers : List Nat
  outstandingIntervals : List Nat
  clearStatus : Bool
  sendSlot : SendBinding
  doneSlot : Option Nat
  setup : Settlement
  bodyCalls : List WorkItem
  passes : Nat
  log : List Effect
  deriving Repr

/-- The instance as the constructor leaves it: `hasIni` tells whether a setup
fragment is configured (its wrapper installs `node.send` when it is started),
`fin` is the compiled teardown fragment. -/
def Node.init (hasIni : Bool) (fin : Option Fragment) : Node :=
  { state := .RESOLVING
    messages := []
    finScript := fin
    outstandingTimers := []
    outstandingIntervals := []
    clearStatus := false
    sendSlot := if hasIni then .setup else .unbound
    doneSlot := none
    setup := .pending
    bodyCalls := []
    passes := 0
    log := [] }

/-- The method `Array.prototype.indexOf`: the first index of `id`, or `-1`. -/
def indexOf : List Nat → Nat → Int
  | [], _ => -1
  | x :: rest, id =>
    if x = id then 0
    else
      let i := indexOf rest id
      if i > -1 then i + 1 else -1

/-- The call `arr.splice(index, 1)`. -/
def splice1 (arr : List Nat) (index : Int) : List Nat := arr.eraseIdx index.toNat

/-- The call `node.send(msgs, cloneMsg)` made by user code: the function found
in the property at the time of the call runs, and calls `node._send`, hence
`sendResults`, with what it captured (function2.js, lines 108, 167 and 329).
With no function installed the call fails in user code and reaches no host
function. -/
def nodeSend (s : Node) (msgs cloneMsg : JSVal) : Node :=
  match s.sendSlot with
  | .unbound => s
  | .setup => { s with log := s.log ++ [.sendResultsCall .setupSend .generated msgs cloneMsg] }
  | .body w =>
    { s with log := s.log ++ [.sendResultsCall (.cap w.send) (.ofMessage w.msg) msgs cloneMsg] }

/-- The sandbox functions `setTimeout`, `clearTimeout`, `setInterval`,
`clearInterval` (function2.js, lines 225 to 267), `node.status`, `node.error`
and `node.send` (lines 155 to 179). -/
def applyOp (s : Node) : SandboxOp → Node
  | .setTimeout timerId => { s with outstandingTimers := s.outstandingTimers ++ [timerId] }
  | .clearTimeout id =>
    let index := indexOf s.outstandingTimers id
    { s with
      log := s.log ++ [.platformClearTimeout id]
      outstandingTimers :=
        if index > -1 then splice1 s.outstandingTimers index else s.outstandingTimers }
  | .setInterval timerId => { s with outstandingIntervals := s.outstandingIntervals ++ [timerId] }
  | .clearInterval id =>
    let index := indexOf s.outstandingIntervals id
    { s with
      log := s.log ++ [.platformClearInterval id]
      outstandingIntervals :=
        if index > -1 then splice1 s.outstandingIntervals index else s.outstandingIntervals }
  | .status text => { s with clearStatus := true, log := s.log ++ [.status text] }
  | .error err => { s with log := s.log ++ [.error (.value err)] }
  | .nodeSend msgs cloneMsg => nodeSend s msgs cloneMsg

/-- The synchronous start of `processMessage(msg, send, done)` (function2.js,
line 358): the compiled body function is invoked, and its first two statements
(lines 108 and 109) store a new `node.send`, capturing this invocation's `msg`
and `send`, and `node.done`. -/
def processMessage (s : Node) (w : WorkItem) : Node :=
  { s with sendSlot := .body w, doneSlot := some w.done, bodyCalls := s.bodyCalls ++ [w] }

/-- The handler of the `input` event (function2.js, lines 313 to 320). -/
def onInput (s : Node) (w : WorkItem) : Node :=
  if s.state = .RESOLVING then { s with messages := s.messages ++ [w] }
  else if s.state = .RESOLVED then processMessage s w
  else s

/-- What the synchronous part of a body invocation can do before control
returns to its caller: call the sandbox, or cause an `input` event to be
delivered re-entrantly. -/
inductive SyncAct where
  | call (op : SandboxOp)
  | input (w : WorkItem)
  deriving Repr

/-- One action of the synchronous part of a body invocation. -/
def syncStep (s : Node) : SyncAct → Node
  | .call op => applyOp s op
  | .input w => onInput s w

/-- The pass `msgs.forEach(s => processMessage(s.msg, s.send, s.done))` of the
drain loop. `sched` gives, for each body invocation to come, the actions of its
synchronous part (none once the list is used up). -/
def forEachMsg : List WorkItem → List (List SyncAct) → Node → List (List SyncAct) × Node
  | [], sched, s => (sched, s)
  | w :: rest, sched, s =>
    forEachMsg rest sched.tail ((sched.headD []).foldl syncStep (processMessage s w))

/-- The loop `while (msgs.length > 0) ...` of the setup continuation
(function2.js, lines 413 to 419), with the local variable `msgs`; `none` when
the iteration bound is used up. -/
def drainLoop : Nat → List WorkItem → List (List SyncAct) → Node → Option Node
  | 0, _, _, _ => none
  | fuel + 1, msgs, sched, s =>
    if msgs.length > 0 then
      let r := forEachMsg msgs sched { s with passes := s.passes + 1 }
      drainLoop fuel r.2.messages r.1 { r.2 with messages := [] }
    else some s

/-- The continuation `promise.then(function (v) ...)` (function2.js, lines 410
to 420). The iteration bound `sched.length + 2` is never reached
(`onSetupResolved_spec`). -/
def onSetupResolved (sched : List (List SyncAct)) (s : Node) : Option Node :=
  match drainLoop (sched.length + 2) s.messages sched { s with messages := [] } with
  | some s1 => some { s1 with state := .RESOLVED }
  | none => none

/-- The continuation `.catch((error) => ...)` of the setup promise
(function2.js, lines 421 to 425). -/
def onSetupRejected (error : JSVal) (s : Node) : Node :=
  { s with messages := [], state := .ERROR, log := s.log ++ [.error (.value error)] }

/-- The loop `while (arr.length > 0) cancel(arr.pop())` (function2.js, lines
399 to 404); the bound is the length of the array at loop entry. Returns what
is left of the array and the log. -/
def popLoop (cancel : Nat → Effect) : Nat → List Nat → List Effect → List Nat × List Effect
  | 0, arr, log => (arr, log)
  | n + 1, arr, log =>
    match arr.getLast? with
    | none => (arr, log)
    | some h => popLoop cancel n arr.dropLast (log ++ [cancel h])

/-- The `try` block of the close handler (function2.js, lines 391 to 398): run
the teardown fragment when there is one, and report its exception. -/
def runTeardown (s : Node) : Node :=
  match s.finScript with
  | none => s
  | some f =>
    let s1 := f.calls.foldl applyOp { s with log := s.log ++ [.runTeardown] }
    match f.throws with
    | none => s1
    | some err => { s1 with log := s1.log ++ [.error (.value err)] }

/-- The handler of the `close` event (function2.js, lines 390 to 408). -/
def onClose (s : Node) : Node :=
  let s1 := runTeardown s
  let t := popLoop .platformClearTimeout s1.outstandingTimers.length s1.outstandingTimers s1.log
  let i := popLoop .platformClearInterval s1.outstandingIntervals.length s1.outstandingIntervals t.2
  let s2 := { s1 with outstandingTimers := t.1, outstandingIntervals := i.1, log := i.2 }
  if s2.clearStatus then { s2 with log := s2.log ++ [.status none] } else s2

/-- What can happen to an instance: an `input` event, the settlement of the
setup promise (with the synchronous behaviour of the body invocations of the
drain), the `close` event, and a sandbox call made by user code that runs
outside the drain (a continuation, a timer callback). -/
inductive Event where
  | input (w : WorkItem)
  | setupResolved (sched : List (List SyncAct))
  | setupRejected (error : JSVal)
  | close
  | call (op : SandboxOp)
  deriving Repr

/-- One event. A promise settles once: a settlement that follows another one
has no effect. -/
def step (s : Node) : Event → Option Node
  | .input w => some (onInput s w)
  | .setupResolved sched =>
    if s.setup = .pending then onSetupResolved sched { s with setup := .fulfilled } else some s
  | .setupRejected error =>
    if s.setup = .pending then some (onSetupRejected error { s with setup := .rejected })
    else some s
  | .close => some (onClose s)
  | .call op => some (applyOp s op)

/-- A sequence of events. -/
def run (s : Node) : List Event → Option Node
  | [] => some s
  | e :: es =>
    match step s e with
    | some s1 => run s1 es
    | none => none

/-! ## Reading a results structure -/

/-- The address of a valid message object: a non-null object that is neither
a byte buffer nor an array. -/
def messageRef : JSVal → Option Nat
  | .obj r => some r
  | .date r => some r
  | _ => none

/-- The message objects one output position holds, in order: the position
itself when it is a single object, its elements when it is a sequence. -/
def positionRefs : JSVal → List Nat
  | .arr es => es.filterMap messageRef
  | v => (messageRef v).toList

/-- The positions of a results value: its elements when it is a sequence, the
value itself as only position otherwise, none for `null` and `undefined`. -/
def positions : JSVal → List JSVal
  | .undefined => []
  | .null => []
  | .arr ps => ps
  | v => [v]

/-- The valid message objects of a results value in iteration order. -/
def messageRefs (msgs : JSVal) : List Nat := (positions msgs).flatMap positionRefs

/-- The work items of the `input` events of a trace, in order. -/
def inputsOf : List Event → List WorkItem
  | [] => []
  | .input w :: es => w :: inputsOf es
  | _ :: es => inputsOf es

/-- The work items delivered re-entrantly by a list of synchronous actions. -/
def arrivalsOf : List SyncAct → List WorkItem
  | [] => []
  | .input w :: as => w :: arrivalsOf as
  | _ :: as => arrivalsOf as

/-- How the lifecycle state follows the state of the setup promise. -/
def Coherent (s : Node) : Prop :=
  (s.setup = .pending → s.state = .RESOLVING ∧ s.bodyCalls = []) ∧
  (s.setup = .fulfilled → s.state = .RESOLVED) ∧
  (s.setup = .rejected → s.state = .ERROR ∧ s.bodyCalls = [])

/-! ## Reading what sendResults did -/

/-- An object after the assignment `_msgid = id`. -/
def stamp (id : Data) (o : JSObject) : JSObject := setField o "_msgid" id

/-- A value that names a heap object, redirected to another address. -/
def withRef : JSVal → Nat → JSVal
  | .obj _, n => .obj n
  | .date _, n => .date n
  | v, _ => v

/-- The error report `sendResults` makes for an element that is not a message
object: none for `null`, `undefined` and message objects. -/
def entryReport : JSVal → Option Effect
  | .bool _ => some (.error (.nonMessageReturned "boolean"))
  | .num _ => some (.error (.nonMessageReturned "number"))
  | .str _ => some (.error (.nonMessageReturned "string"))
  | .buffer _ => some (.error (.nonMessageReturned "Buffer"))
  | .arr _ => some (.error (.nonMessageReturned "Array"))
  | _ => none

/-- The elements the inner loop visits for one output position. -/
def entriesOf : JSVal → List JSVal
  | .arr es => es
  | v => [v]

/-- The error reports for one output position: none for a falsy position. -/
def positionReports (p : JSVal) : List Effect :=
  if truthy p then (entriesOf p).filterMap entryReport else []

/-- The heap `h1` is the heap `h` after some allocations and some assignments
of `_msgid = id`. -/
def Extends (id : Data) (h h1 : Heap) : Prop :=
  h.length ≤ h1.length ∧
  ∀ a, a < h.length → h1.read a = h.read a ∨ h1.read a = stamp id (h.read a)

/-- Position `q` of the dispatched structure carries the message objects of
position `p` of the caller's structure: `q` is `p` itself when `p` is falsy and
a sequence of as many elements as `p` has otherwise, and the message objects of
`q`, read in heap `h1`, are in order those of `p`, read in heap `h0`, with the
correlation id assigned. -/
def Carries (id : Data) (h0 h1 : Heap) (p q : JSVal) : Prop :=
  (if truthy p then ∃ es, q = .arr es ∧ es.length = (entriesOf p).length else q = p) ∧
  (positionRefs q).map h1.read = (positionRefs p).map (fun r => stamp id (h0.read r)) ∧
  ∀ a ∈ positionRefs q, a < h1.length

/-- An output position as the claim on null entries describes it: `null`, a
message object, or a sequence of message objects and nulls. -/
def plainPosition : JSVal → Bool
  | .null => true
  | .obj _ => true
  | .date _ => true
  | .arr es => es.all fun e =>
      match e with
      | .null => true
      | .obj _ => true
      | .date _ => true
      | _ => false
  | _ => false

/-- A list of addresses with its first element replaced. -/
def replaceHead : List Nat → Nat → List Nat
  | [], _ => []
  | _ :: rest, n => n :: rest

/-- The condition under which `sendResults` clones the next message object. -/
def ClonesNext (c : JSVal) (st : SendState) : Prop := st.msgCount = 0 ∧ notFalse c = true

instance (c : JSVal) (st : SendState) : Decidable (ClonesNext c st) := by
  unfold ClonesNext
  exact inferInstance

/-- The calls of host send capabilities recorded in a log: capability and
structure passed, in order. -/
def sends : List Effect → List (Nat × JSVal)
  | [] => []
  | .send cap msgs :: rest => (cap, msgs) :: sends rest
  | _ :: rest => sends rest

/-- The type name the claim on scalar results gives for a top-level string,
number, boolean or byte buffer; none for any other value. -/
def scalarTypeName : JSVal → Option String
  | .str _ => some "string"
  | .num _ => some "number"
  | .bool _ => some "boolean"
  | .buffer _ => some "Buffer"
  | _ => none

/-- The values `processMessage` reads from its environment: the variable
`handleNodeDoneCall`, whether `NODE_RED_FUNCTION_TIME` is set, and the result
of `node.metric()`. -/
structure Settings where
  handleNodeDoneCall : Bool
  needTime : Bool
  hasMetrics : Bool
  deriving Repr

/-- The continuation `.then(function (results) ...)` of `processMessage`
(function2.js, lines 358 to 372) for
the work item `w`: the results are handed to `sendResults` with the `_msgid`
the message has at that moment and cloning disabled, then `done` is called and
the duration (`converted`, as text) is displayed or reported. Returns the heap
and the calls made on the host. -/
def onBodyResolved (cfg : Settings) (heap : Heap) (w : WorkItem) (results : JSVal)
    (converted : String) : Heap × List Effect :=
  let st := sendResults heap w.send (getField (heap.read w.msg) "_msgid") results (.bool false)
  let log1 := if cfg.handleNodeDoneCall then st.log ++ [.done w.done none] else st.log
  let log2 :=
    if cfg.needTime || cfg.hasMetrics then
      (if cfg.needTime then log1 ++ [.status (some converted)] else log1 ++ [.metric w.msg])
    else log1
  (st.heap, log2)

/-- Whether an effect is a run of the teardown fragment. -/
def isRunTeardown : Effect → Bool
  | .runTeardown => true
  | _ => false

/-- The function stored in `node.send` is the one installed by the body
invocation started last, when there has been one. -/
def SlotTracks (s : Node) : Prop :=
  ∀ w, s.bodyCalls.getLast? = some w → s.sendSlot = .body w

/-! ## Strings: the methods the error path uses

JavaScript strings are modelled by Lean strings; the methods below work on
the list of characters. -/

/-- The scan of `String.prototype.split` for a non-empty separator: `skip`
counts the characters of a separator just matched that are still to be passed
over, `acc` holds the current piece in reverse. -/
def splitGo (sep : List Char) : List Char → Nat → List Char → List (List Char)
  | [], _, acc => [acc.reverse]
  | _ :: cs, skip + 1, acc => splitGo sep cs skip acc
  | c :: cs, 0, acc =>
    if sep.isPrefixOf (c :: cs) then acc.reverse :: splitGo sep cs (sep.length - 1) []
    else splitGo sep cs 0 (c :: acc)

/-- The method `s.split(sep)` with a string separator and no limit: the pieces
between the occurrences of `sep`, found from left to right without overlap; an
empty separator splits into single characters. -/
def jsSplit (s sep : String) : List String :=
  if sep.data.isEmpty then s.data.map fun c => String.mk [c]
  else (splitGo sep.data s.data 0 []).map String.mk

/-- Element access `xs[i]`; `none` stands for `undefined`. -/
def jsIndex (xs : List String) (i : Int) : Option String :=
  if i < 0 then none else xs[i.toNat]?

/-- The value of a non-empty list of decimal digits. -/
def digitsValue : List Char → Option Nat
  | [] => none
  | c :: cs =>
    (c :: cs).foldl
      (fun acc d => acc.bind fun n => if d.isDigit then some (10 * n + (d.toNat - 48)) else none)
      (some 0)

/-- Leading and trailing white space removed. -/
def trimChars (cs : List Char) : List Char :=
  ((cs.dropWhile Char.isWhitespace).reverse.dropWhile Char.isWhitespace).reverse

/-- The conversion of a string to a number, as the operator `-` applies it;
`none` stands for `NaN`. A string of white space converts to `0`, an optionally
signed string of decimal digits to its value. The other numeric forms
(fractions, exponents, `0x` literals, `Infinity`) are treated as `NaN`. -/
def toNumber (s : String) : Option Int :=
  match trimChars s.data with
  | [] => some 0
  | '-' :: ds => (digitsValue ds).map fun n => -(n : Int)
  | '+' :: ds => (digitsValue ds).map fun n => (n : Int)
  | ds => (digitsValue ds).map fun n => (n : Int)

/-- The text of a number in a template literal. -/
def showNumber : Option Int → String
  | none => "NaN"
  | some n => toString n

/-! ## The compiled body wrapper -/

/-- The part of `functionText` that precedes the user's body fragment
(function2.js, lines 107 to 110): three full lines, then the four spaces that
indent the line holding the fragment. -/
def wrapperHead : String :=
  "var results = async (msg,send,done) => \x7b\n" ++
  "    node.send = function(msgs,cloneMsg)\x7b node._send(send,msg._msgid,msgs,cloneMsg);\x7d;\n" ++
  "    node.done = done;\n" ++
  "    "

/-- The template `functionText` (function2.js, lines 107 to 111) for a body
fragment `func`. -/
def functionText (func : String) : String := wrapperHead ++ func ++ "\n\x7d"

/-- The option `filename` of `createVMOpt(node, kind)` (function2.js, line 65);
an empty `name` stands for a node without name. -/
def vmFilename (kind id name : String) : String :=
  "Function node" ++ kind ++ ":" ++ id ++ (if name != "" then " [" ++ name ++ "]" else "")

/-- A source position one character further. -/
def advance (p : Nat × Nat) (c : Char) : Nat × Nat :=
  if c = '\n' then (p.1 + 1, 1) else (p.1, p.2 + 1)

/-- The line and the column, both counted from 1, of the character at `offset`
in `text`, lines being separated by the line feed character. -/
def positionOf (text : String) (offset : Nat) : Nat × Nat :=
  (text.data.take offset).foldl advance (1, 1)

/-- The line of a stack trace for a frame of the function `results`, as the
platform prints it. -/
def resultsFrame (file : String) (line col : Nat) : String :=
  "    at results (" ++ file ++ ":" ++ toString line ++ ":" ++ toString col ++ ")"

/-! ## The rejection path of processMessage -/

/-- Result of `JSON.stringify(err)`: a text, `undefined`, or an exception (as
for a cyclic structure). -/
inductive Stringified where
  | text (s : String)
  | undefined
  | raises
  deriving DecidableEq, Repr

/-- A rejection value of the body promise, as the error path sees it: a
primitive value, or an object given by its property `stack`, by what
`toString()` returns and by what `JSON.stringify` makes of it. -/
inductive Thrown where
  | undefined
  | null
  | bool (b : Bool)
  | num (n : Int)
  | str (s : String)
  | object (stack : JSVal) (toStr : String) (json : Stringified)
  deriving Repr

/-- JavaScript truthiness of a rejection value. -/
def Thrown.truthy : Thrown → Bool
  | .undefined => false
  | .null => false
  | .bool b => b
  | .num n => n != 0
  | .str s => s != ""
  | .object _ _ _ => true

/-- The property read `err.stack`; a primitive value has no such property. -/
def Thrown.stack : Thrown → JSVal
  | .object stack _ _ => stack
  | _ => .undefined

/-- The test `typeof err === "string"`. -/
def Thrown.isString : Thrown → Bool
  | .str _ => true
  | _ => false

/-- The call `err.toString()`, for a value on which it can be made. -/
def Thrown.toStr : Thrown → String
  | .undefined => "undefined"
  | .null => "null"
  | .bool b => if b then "true" else "false"
  | .num n => toString n
  | .str s => s
  | .object _ toStr _ => toStr

/-- A character of a JSON string literal, escaped where JSON requires it. -/
def jsonEscape (c : Char) : List Char :=
  if c = '"' then ['\\', '"']
  else if c = '\\' then ['\\', '\\']
  else if c = '\n' then ['\\', 'n']
  else if c = '\r' then ['\\', 'r']
  else if c = '\t' then ['\\', 't']
  else if c.toNat = 8 then ['\\', 'b']
  else if c.toNat = 12 then ['\\', 'f']
  else if c.toNat < 32 then
    ['\\', 'u', '0', '0', (Nat.toDigits 16 (c.toNat / 16)).headD '0',
      (Nat.toDigits 16 (c.toNat % 16)).headD '0']
  else [c]

/-- The call `JSON.stringify(err)`. -/
def jsonStringify : Thrown → Stringified
  | .undefined => .undefined
  | .null => .text "null"
  | .bool b => .text (if b then "true" else "false")
  | .num n => .text (toString n)
  | .str s => .text (String.mk (['"'] ++ s.data.flatMap jsonEscape ++ ['"']))
  | .object _ _ json => json

/-- The continuation `.catch(err => ...)` of `processMessage` (function2.js,
lines 373 to 387) for the work item `w`: the calls made on the host, or `none`
when the continuation itself raises an exception: `split` called on
`undefined` or on a stack that is not a string, or `JSON.stringify` raising.
A call `done(undefined)` is recorded like a call without argument. -/
def onBodyRejected (w : WorkItem) (err : Thrown) : Option (List Effect) :=
  if err.truthy && truthy err.stack then
    match err.stack with
    | .str stack =>
      match (jsSplit stack "at results")[1]? with
      | none => none
      | some frame =>
        let errorData := jsSplit ((jsSplit frame ")").headD "") ":"
        let lineNumber : Option Int :=
          ((jsIndex errorData ((errorData.length : Int) - 2)).bind toNumber).map fun n => n - 3
        let charNumber : String := (jsIndex errorData ((errorData.length : Int) - 1)).getD "undefined"
        some [.done w.done
          (some (err.toStr ++ " (line " ++ showNumber lineNumber ++ ", col " ++ charNumber ++ ")"))]
    | _ => none
  else if err.isString then some [.done w.done (some err.toStr)]
  else
    match jsonStringify err with
    | .text t => some [.done w.done (some t)]
    | .undefined => some [.done w.done none]
    | .raises => none

/-- The value the variable `handleNodeDoneCall` ends with (function2.js, lines
113 to 130): it starts `true` and is cleared only inside a branch guarded by
`false && ...`. `mentionsDone` tells whether the text matches the expression
`node.done()`, `callsDone` whether the syntax tree holds such a call. -/
def handleNodeDoneCall (mentionsDone callsDone : Bool) : Bool :=
  if false && mentionsDone then (if callsDone then false else true) else true

/-- The values `processMessage` reads in an instance of function2. -/
def settingsOf (mentionsDone callsDone needTime hasMetrics : Bool) : Settings :=
  { handleNodeDoneCall := handleNodeDoneCall mentionsDone callsDone
    needTime := needTime
    hasMetrics := hasMetrics }

/-- The settlement of the body promise of the work item `w`, on an instance:
the calls of the continuation are added to the log; nothing else of the
instance is read or written. `none` when the continuation raises. -/
def bodyRejected (s : Node) (w : WorkItem) (err : Thrown) : Option Node :=
  (onBodyRejected w err).map fun effects => { s with log := s.log ++ effects }

/-- The calls of done capabilities recorded in a log: capability and
argument, in order. -/
def dones : List Effect → List (Nat × Option String)
  | [] => []
  | .done cap err :: rest => (cap, err) :: dones rest
  | _ :: rest => dones rest

/-! ## The sandbox function node.on -/

/-- The test `arguments[0] === "input"`. -/
def isInputName : Option JSVal → Bool
  | some (.str s) => s == "input"
  | _ => false

/-- The sandbox function `node.on` (function2.js, lines 170 to 175), called
with the list `args` of its arguments: an exception carrying the message
`function.error.inputListener`, or the call forwarded to `node.on` of the host
with the same arguments. -/
def sandboxOn (s : Node) (args : List JSVal) : Except String Node :=
  if isInputName args.head? then .error "function.error.inputListener"
  else .ok { s with log := s.log ++ [.on args] }

/-! ## What the lifecycle handlers leave alone -/

/-- The instance `s1` has the outstanding sets, the status flag and the
teardown script of the instance `s`. -/
def Kept (s s1 : Node) : Prop :=
  s1.outstandingTimers = s.outstandingTimers ∧
  s1.outstandingIntervals = s.outstandingIntervals ∧
  s1.clearStatus = s.clearStatus ∧
  s1.finScript = s.finScript

/-- A property of an instance that only depends on its outstanding sets, its
status flag and its teardown script. -/
def Respects (P : Node → Prop) : Prop := ∀ s s1 : Node, Kept s s1 → P s → P s1

/-- The sandbox calls among the synchronous actions of a body invocation. -/
def callsOf : List SyncAct → List SandboxOp
  | [] => []
  | .call op :: as => op :: callsOf as
  | .input _ :: as => callsOf as

/-! ## Timer callbacks -/

/-- Where a piece of code ends: the instance it leaves, and the exception it
raises, if any. -/
structure Outcome where
  node : Node
  raised : Option JSVal
  deriving Repr

/-- The first argument of a call of the sandbox `setTimeout` or `setInterval`:
a function, given by one run of it (the sandbox calls it makes and the
exception it ends with), or a value that is not a function, on which
`func.apply` raises the given `TypeError`. -/
inductive Callback where
  | function (run : Fragment)
  | notCallable (typeError : JSVal)
  deriving Repr

/-- The statement `func.apply(node, arguments)` of the two timer wrappers
(function2.js, lines 231 and 252). -/
def applyCallback (s : Node) : Callback → Outcome
  | .function run => { node := run.calls.foldl applyOp s, raised := run.throws }
  | .notCallable typeError => { node := s, raised := some typeError }

/-- The statement `try ... catch (err) { node.error(err, {}); }` around the
call of the user callback (function2.js, lines 230 to 234 and 251 to 255). -/
def reportCaught (o : Outcome) : Outcome :=
  match o.raised with
  | none => o
  | some err => { node := { o.node with log := o.node.log ++ [.error (.value err)] }, raised := none }

/-- The instance in which the user callback of a one-shot timer starts: the
wrapper has called `sandbox.clearTimeout(timerId)` (function2.js, line 229). -/
def timeoutCallbackEntry (s : Node) (timerId : Nat) : Node := applyOp s (.clearTimeout timerId)

/-- The function handed to the platform by the sandbox `setTimeout`
(function2.js, lines 228 to 235), called when the timer `timerId` fires. -/
def timeoutCallback (s : Node) (timerId : Nat) (func : Callback) : Outcome :=
  reportCaught (applyCallback (timeoutCallbackEntry s timerId) func)

/-- The function handed to the platform by the sandbox `setInterval`
(function2.js, lines 250 to 256), called each time the interval fires. -/
def intervalCallback (s : Node) (func : Callback) : Outcome :=
  reportCaught (applyCallback s func)

/-- The reports made through `node.error` recorded in a log, in order. -/
def errors : List Effect → List Report
  | [] => []
  | .error r :: rest => r :: errors rest
  | _ :: rest => errors rest

/-- Whether a sandbox call registers a new timer handle. -/
def SandboxOp.createsTimer : SandboxOp → Bool
  | .setTimeout _ => true
  | .setInterval _ => true
  | _ => false

/-- Whether a sandbox call is a call of the status setter `node.status`. -/
def SandboxOp.isStatus : SandboxOp → Bool
  | .status _ => true
  | _ => false

/-- The sandbox calls of an event: the call itself, or the calls of the
synchronous parts of the body invocations of a drain. -/
def Event.calls : Event → List SandboxOp
  | .call op => [op]
  | .setupResolved sched => sched.flatMap callsOf
  | _ => []

/-- The sandbox calls `ops`, made in this order from the instance `s`, register
only new handles: a timer creator never returns a handle that is outstanding
at the time of the call. -/
def FreshCalls : Node → List SandboxOp → Prop
  | _, [] => True
  | s, op :: ops =>
    (∀ t, op = .setTimeout t → t ∉ s.outstandingTimers) ∧
    (∀ t, op = .setInterval t → t ∉ s.outstandingIntervals) ∧
    FreshCalls (applyOp s op) ops

/-! ## Settlement of the body promise on an instance -/

/-- The settlement of the body promise of the work item `w` with `results`:
the calls of the continuation `.then` are added to the log; nothing else of
the instance is written. -/
def bodyResolved (cfg : Settings) (heap : Heap) (s : Node) (w : WorkItem) (results : JSVal)
    (converted : String) : Node :=
  { s with log := s.log ++ (onBodyResolved cfg heap w results converted).2 }

/-- What can happen to an instance, the settlements of body promises
included. -/
inductive Occurrence where
  | event (e : Event)
  | resolved (heap : Heap) (w : WorkItem) (results : JSVal) (converted : String)
  | rejected (w : WorkItem) (err : Thrown)
  deriving Repr

/-- One occurrence. A continuation `.catch` that raises leaves the instance as
it is. -/
def occur (cfg : Settings) (s : Node) : Occurrence → Option Node
  | .event e => step s e
  | .resolved heap w results converted => some (bodyResolved cfg heap s w results converted)
  | .rejected w err => some ((bodyRejected s w err).getD s)

/-- A sequence of occurrences. -/
def occurAll (cfg : Settings) (s : Node) : List Occurrence → Option Node
  | [] => some s
  | o :: os =>
    match occur cfg s o with
    | some s1 => occurAll cfg s1 os
    | none => none

/-- The sandbox calls of an occurrence. -/
def Occurrence.calls : Occurrence → List SandboxOp
  | .event e => e.calls
  | _ => []

/-! ## Compile-time errors -/

/-- An `Error` object as `updateErrorInfo` and `node.error` read it: its
property `stack` (`none` when it has none) and its message. -/
structure JSError where
  stack : Option String
  message : String
  deriving DecidableEq, Repr

/-- Whether the characters `sub` occur in `s` as a contiguous run. -/
def containsChars (sub : List Char) : List Char → Bool
  | [] => sub.isEmpty
  | c :: cs => sub.isPrefixOf (c :: cs) || containsChars sub cs

/-- The call `/^([^:]+):([^:]+):(\d+).*/.exec(stack)` (function2.js, line 78):
the three groups, or `none` when the expression does not match. The first two
groups are the longest runs of characters other than a colon, each non-empty
and followed by a colon; the third is the longest run of digits after the
second colon, non-empty. -/
def execPosition (stack : String) : Option (String × String × String) :=
  let m1 := stack.data.takeWhile (fun c => c != ':')
  match stack.data.dropWhile (fun c => c != ':') with
  | [] => none
  | _ :: rest1 =>
    let m2 := rest1.takeWhile (fun c => c != ':')
    match rest1.dropWhile (fun c => c != ':') with
    | [] => none
    | _ :: rest2 =>
      let m3 := rest2.takeWhile Char.isDigit
      if m1.isEmpty || m2.isEmpty || m3.isEmpty then none
      else some (String.mk m1, String.mk m2, String.mk m3)

/-- The function `updateErrorInfo(err)` (function2.js, lines 75 to 91): the
error with its message as the function leaves it. -/
def updateErrorInfo (err : JSError) : JSError :=
  match err.stack with
  | none => err
  | some stack =>
    if stack = "" then err
    else
      match execPosition stack with
      | none => err
      | some (m1, _, m3) =>
        let line : Int := ((digitsValue m3.data).getD 0 : Nat) - 1
        let kind0 := "body:"
        let kind1 := if containsChars "setup".data m1.data then "setup:" else kind0
        let kind := if containsChars "cleanup".data m1.data then "cleanup:" else kind1
        { err with message := err.message ++ " (" ++ kind ++ "line " ++ toString line ++ ")" }

/-- The part of `iniText` that precedes the user's setup fragment
(function2.js, lines 327 to 330). -/
def iniHead : String :=
  "\n                        (async function() \x7b\n" ++
  "                            node.send = function(msgs,cloneMsg)\x7b node._send(__send__, RED.util.generateId(), msgs, cloneMsg); \x7d;\n" ++
  "                            "

/-- The text `iniText` (function2.js, lines 327 to 331) for a setup fragment
`ini`. -/
def iniText (ini : String) : String := iniHead ++ ini ++ "\n                        \x7d)();"

/-- The part of `finText` that precedes the user's teardown fragment
(function2.js, line 340). -/
def finHead : String := "(function () \x7b\n"

/-- The text `finText` (function2.js, lines 340 to 342) for a teardown fragment
`fin`. -/
def finText (fin : String) : String := finHead ++ fin ++ "\n\x7d)();"

/-- The first line of the stack of a syntax error found at `line` of a script
compiled with the file name `file`, as the platform decorates it. -/
def syntaxErrorStack (file : String) (line : Nat) (rest : String) : String :=
  file ++ ":" ++ toString line ++ "\n" ++ rest

/-! ## Construction of an instance -/

/-- The three fragments as the script compiler takes them: for the setup and
the teardown fragment `none` when the fragment is not configured, and for each
fragment either the compiled script or the syntax error raised by
`new vm.Script` / `vm.createScript`. The compiled teardown script is given by
the run it makes when it is called. -/
structure Fragments where
  ini : Option (Except JSError Unit)
  func : Except JSError Unit
  fin : Option (Except JSError Fragment)

/-- An instance under construction: the closure variables, whether a handler
of the `close` event is registered, how many calls of the script compiler were
made, and whether the setup phase was started. -/
structure Instance where
  node : Node
  closeHandler : Bool
  compileCalls : Nat
  setupStarted : Bool
  deriving Repr

/-- The instance when the synchronous part of the constructor has run
(function2.js, lines 93 to 320): the handler of the `input` event is
registered, nothing is compiled yet. -/
def Instance.fresh : Instance :=
  { node := Node.init false none, closeHandler := false, compileCalls := 0, setupStarted := false }

/-- The compilations of the `try` block (function2.js, lines 324 to 345), in
order, up to the first syntax error: the number of calls of the compiler, and
either the error or whether a setup script exists together with the compiled
teardown script. -/
def compileScripts (f : Fragments) : Nat × Except JSError (Bool × Option Fragment) :=
  match f.ini with
  | some (.error e) => (1, .error e)
  | ini =>
    let n := if ini.isSome then 1 else 0
    match f.func with
    | .error e => (n + 1, .error e)
    | .ok _ =>
      match f.fin with
      | some (.error e) => (n + 2, .error e)
      | some (.ok fin) => (n + 2, .ok (ini.isSome, some fin))
      | none => (n + 1, .ok (ini.isSome, none))

/-- The continuation `Promise.all(moduleLoadPromises).then(() => ...)`
(function2.js, lines 321 to 433). When the three compilations succeed, the
setup phase is started (the wrapper of a setup fragment installs `node.send`),
`processMessage` is defined and the handler of `close` is registered. A syntax
error leaves the `try` block at once and is handled by its `catch` block:
`updateErrorInfo(err); node.error(err)`. -/
def onModulesLoaded (f : Fragments) (i : Instance) : Instance :=
  match (compileScripts f).2 with
  | .ok (hasIni, fin) =>
    { node := { i.node with
                finScript := fin
                sendSlot := if hasIni then .setup else i.node.sendSlot }
      closeHandler := true
      compileCalls := i.compileCalls + (compileScripts f).1
      setupStarted := true }
  | .error err =>
    { i with
      node := { i.node with
                log := i.node.log ++ [.error (.exception (updateErrorInfo err).message)] }
      compileCalls := i.compileCalls + (compileScripts f).1 }

/-- An event that the host delivers to an instance. -/
inductive HostEvent where
  | input (w : WorkItem)
  | close
  deriving Repr

/-- The delivery of a host event: the handler of `input` is registered by the
constructor, the handler of `close` only at the end of the `try` block. -/
def hostStep (i : Instance) : HostEvent → Instance
  | .input w => { i with node := onInput i.node w }
  | .close => if i.closeHandler then { i with node := onClose i.node } else i

/-- The inputs among a list of host events. -/
def hostInputs : List HostEvent → List WorkItem
  | [] => []
  | .input w :: es => w :: hostInputs es
  | .close :: es => hostInputs es

/-! ## External modules -/

/-- An entry of `node.libs`: its properties `var` and `module`, `none` for a
property that the entry does not have. -/
structure Lib where
  var : Option String
  module : Option String
  deriving Repr

/-- The own properties of the sandbox object when the modules are registered
(function2.js, lines 139 to 276). -/
def sandboxNames : List String :=
  ["console", "util", "Buffer", "Date", "RED", "node", "context", "flow", "global", "env",
    "setTimeout", "clearTimeout", "setInterval", "clearInterval", "promisify"]

/-- The variables of the loop over `node.libs`: the own properties of the
sandbox, the module names of the imports started (`moduleLoadPromises`), the
calls made on the host, and the flag `moduleErrors`. -/
structure LibState where
  names : List String
  loading : List String
  log : List Effect
  moduleErrors : Bool
  deriving Repr

/-- The body of `modules.forEach` (function2.js, lines 282 to 301) for one
entry. -/
def registerLib (st : LibState) (m : Lib) : LibState :=
  match m.var with
  | none => st
  | some vname =>
    if vname != "" then
      if st.names.contains vname || vname == "node" then
        { st with log := st.log ++ [.error (.moduleNameError vname)], moduleErrors := true }
      else
        let st1 := { st with names := st.names ++ [vname] }
        match m.module with
        | none => st1
        | some spec => if spec != "" then { st1 with loading := st1.loading ++ [spec] } else st1
    else st

/-- The registration of the external modules by the constructor (function2.js,
lines 103 to 105 and 279 to 305): the state after the loop, or the message of
the error thrown out of the constructor. `allowed` is the setting
`function2ExternalModules`. -/
def registerLibs (allowed : Bool) (libs : List Lib) : Except String LibState :=
  if !allowed && libs.length > 0 then .error "function.error.externalModuleNotAllowed"
  else
    let st := libs.foldl registerLib
      { names := sandboxNames, loading := [], log := [], moduleErrors := false }
    if st.moduleErrors then .error "function.error.externalModuleLoadError" else .ok st

/-- The settlement of the imports started, taken in the order in which they
were started; `imp` gives for a module name the text of the error with which
its import rejects, `none` when it loads. A failed import is reported by its
own `catch` and rethrown (function2.js, lines 295 to 298); the first failure
rejects `Promise.all`, whose `catch` reports once more (lines 434 to 436).
`rejected` tells whether `Promise.all` has rejected already. -/
def settleImports (imp : String → Option String) : List String → Bool → List Effect
  | [], _ => []
  | spec :: rest, rejected =>
    match imp spec with
    | none => settleImports imp rest rejected
    | some error =>
      [.error (.moduleLoadError none error)]
        ++ (if rejected then [] else [.error .externalModuleLoadError])
        ++ settleImports imp rest true

/-- The settlement of `Promise.all(moduleLoadPromises)` (function2.js, lines
321 to 436): its continuation runs when every import has loaded; when one
fails, the continuation is skipped. -/
def afterLoad (imp : String → Option String) (f : Fragments) (specs : List String)
    (i : Instance) : Instance :=
  if specs.all (fun spec => (imp spec).isNone) then onModulesLoaded f i
  else { i with node := { i.node with log := i.node.log ++ settleImports imp specs false } }

/-- Whether a report is the message `externalModuleLoadError`. -/
def Report.isExternalModuleLoadError : Report → Bool
  | .externalModuleLoadError => true
  | _ => false

/-! # Theorems -/

/-! ## Lifecycle: what the sandbox functions leave alone -/

theorem nodeSend_frame (s : Node) (msgs cloneMsg : JSVal) :
    (nodeSend s msgs cloneMsg).state = s.state ∧
    (nodeSend s msgs cloneMsg).messages = s.messages ∧
    (nodeSend s msgs cloneMsg).bodyCalls = s.bodyCalls ∧
    (nodeSend s msgs cloneMsg).setup = s.setup ∧
    (nodeSend s msgs cloneMsg).passes = s.passes ∧
    (nodeSend s msgs cloneMsg).sendSlot = s.sendSlot ∧
    (nodeSend s msgs cloneMsg).finScript = s.finScript := by
  unfold nodeSend
  split <;> simp

theorem applyOp_frame (s : Node) (op : SandboxOp) :
    (applyOp s op).state = s.state ∧
    (applyOp s op).messages = s.messages ∧
    (applyOp s op).bodyCalls = s.bodyCalls ∧
    (applyOp s op).setup = s.setup ∧
    (applyOp s op).passes = s.passes ∧
    (applyOp s op).sendSlot = s.sendSlot ∧
    (applyOp s op).finScript = s.finScript := by
  cases op <;> first | exact nodeSend_frame s _ _ | simp [applyOp]

theorem foldl_applyOp_frame (ops : List SandboxOp) (s : Node) :
    (ops.foldl applyOp s).state = s.state ∧
    (ops.foldl applyOp s).messages = s.messages ∧
    (ops.foldl applyOp s).bodyCalls = s.bodyCalls ∧
    (ops.foldl applyOp s).setup = s.setup ∧
    (ops.foldl applyOp s).passes = s.passes ∧
    (ops.foldl applyOp s).sendSlot = s.sendSlot ∧
    (ops.foldl applyOp s).finScript = s.finScript := by
  induction ops generalizing s with
  | nil => simp
  | cons op ops ih =>
    obtain ⟨h1, h2, h3, h4, h5, h6, h7⟩ := ih (applyOp s op)
    obtain ⟨g1, g2, g3, g4, g5, g6, g7⟩ := applyOp_frame s op
    simp only [List.foldl_cons]
    exact ⟨h1.trans g1, h2.trans g2, h3.trans g3, h4.trans g4, h5.trans g5, h6.trans g6,
      h7.trans g7⟩

theorem runTeardown_frame (s : Node) :
    (runTeardown s).state = s.state ∧
    (runTeardown s).messages = s.messages ∧
    (runTeardown s).bodyCalls = s.bodyCalls ∧
    (runTeardown s).setup = s.setup ∧
    (runTeardown s).passes = s.passes ∧
    (runTeardown s).sendSlot = s.sendSlot ∧
    (runTeardown s).finScript = s.finScript := by
  unfold runTeardown
  split
  · simp
  · rename_i f _
    obtain ⟨h1, h2, h3, h4, h5, h6, h7⟩ :=
      foldl_applyOp_frame f.calls { s with log := s.log ++ [.runTeardown] }
    split <;> simp_all

theorem onClose_frame (s : Node) :
    (onClose s).state = s.state ∧
    (onClose s).messages = s.messages ∧
    (onClose s).bodyCalls = s.bodyCalls ∧
    (onClose s).setup = s.setup ∧
    (onClose s).passes = s.passes ∧
    (onClose s).sendSlot = s.sendSlot ∧
    (onClose s).finScript = s.finScript := by
  obtain ⟨h1, h2, h3, h4, h5, h6, h7⟩ := runTeardown_frame s
  unfold onClose
  simp only
  split <;> simp_all

/-! ## Lifecycle: the drain loop -/

theorem foldl_syncStep_resolving (acts : List SyncAct) (s : Node)
    (hs : s.state = .RESOLVING) :
    (acts.foldl syncStep s).state = .RESOLVING ∧
    (acts.foldl syncStep s).messages = s.messages ++ arrivalsOf acts ∧
    (acts.foldl syncStep s).bodyCalls = s.bodyCalls ∧
    (acts.foldl syncStep s).setup = s.setup ∧
    (acts.foldl syncStep s).passes = s.passes := by
  induction acts generalizing s with
  | nil => simp [arrivalsOf, hs]
  | cons a acts ih =>
    cases a with
    | call op =>
      obtain ⟨g1, g2, g3, g4, g5, _, _⟩ := applyOp_frame s op
      obtain ⟨h1, h2, h3, h4, h5⟩ := ih (applyOp s op) (g1.trans hs)
      simp only [List.foldl_cons, syncStep, arrivalsOf]
      exact ⟨h1, h2.trans (by rw [g2]), h3.trans g3, h4.trans g4, h5.trans g5⟩
    | input w =>
      have hin : onInput s w = { s with messages := s.messages ++ [w] } := by
        simp [onInput, hs]
      obtain ⟨h1, h2, h3, h4, h5⟩ := ih (onInput s w) (by rw [hin]; exact hs)
      simp only [List.foldl_cons, syncStep, arrivalsOf]
      refine ⟨h1, ?_, ?_, ?_, ?_⟩
      · rw [h2, hin]; simp
      · rw [h3, hin]
      · rw [h4, hin]
      · rw [h5, hin]

theorem forEachMsg_resolving (msgs : List WorkItem) (sched : List (List SyncAct)) (s : Node)
    (hs : s.state = .RESOLVING) :
    (forEachMsg msgs sched s).1 = sched.drop msgs.length ∧
    (forEachMsg msgs sched s).2.state = .RESOLVING ∧
    (forEachMsg msgs sched s).2.messages
      = s.messages ++ (sched.take msgs.length).flatMap arrivalsOf ∧
    (forEachMsg msgs sched s).2.bodyCalls = s.bodyCalls ++ msgs ∧
    (forEachMsg msgs sched s).2.setup = s.setup ∧
    (forEachMsg msgs sched s).2.passes = s.passes := by
  induction msgs generalizing sched s with
  | nil => simp [forEachMsg, hs]
  | cons w rest ih =>
    have hp : (processMessage s w).state = .RESOLVING := by simp [processMessage, hs]
    obtain ⟨f1, f2, f3, f4, f5⟩ :=
      foldl_syncStep_resolving (sched.headD []) (processMessage s w) hp
    obtain ⟨h1, h2, h3, h4, h5, h6⟩ :=
      ih sched.tail ((sched.headD []).foldl syncStep (processMessage s w)) f1
    simp only [forEachMsg]
    refine ⟨?_, h2, ?_, ?_, ?_, ?_⟩
    · rw [h1]; cases sched <;> simp
    · rw [h3, f2]
      cases sched <;> simp [processMessage, arrivalsOf]
    · rw [h4, f3]; simp [processMessage]
    · rw [h5, f4]; simp [processMessage]
    · rw [h6, f5]; simp [processMessage]

theorem drainLoop_spec (fuel : Nat) (msgs : List WorkItem) (sched : List (List SyncAct))
    (s : Node) (hs : s.state = .RESOLVING) (hq : s.messages = [])
    (hfuel : (if msgs = [] then 1 else sched.length + 2) ≤ fuel) :
    ∃ s1 processed, drainLoop fuel msgs sched s = some s1 ∧
      s1.state = .RESOLVING ∧ s1.messages = [] ∧ s1.setup = s.setup ∧
      s1.bodyCalls = s.bodyCalls ++ processed ∧
      processed = msgs ++ (sched.take processed.length).flatMap arrivalsOf ∧
      ((∀ a ∈ sched, arrivalsOf a = []) →
        s1.passes = s.passes + (if msgs = [] then 0 else 1)) := by
  induction fuel generalizing msgs sched s with
  | zero =>
    exfalso
    split at hfuel <;> omega
  | succ fuel ih =>
    cases msgs with
    | nil =>
      refine ⟨s, [], ?_, hs, hq, rfl, ?_, ?_, ?_⟩ <;> simp [drainLoop]
    | cons w rest =>
      have hfuel1 : sched.length + 2 ≤ fuel + 1 := by simpa using hfuel
      obtain ⟨f1, f2, f3, f4, f5, f6⟩ :=
        forEachMsg_resolving (w :: rest) sched { s with passes := s.passes + 1 } hs
      have hstep : drainLoop (fuel + 1) (w :: rest) sched s
          = drainLoop fuel
              (forEachMsg (w :: rest) sched { s with passes := s.passes + 1 }).2.messages
              (forEachMsg (w :: rest) sched { s with passes := s.passes + 1 }).1
              { (forEachMsg (w :: rest) sched { s with passes := s.passes + 1 }).2 with
                messages := [] } := by
        simp [drainLoop]
      rw [hstep]
      generalize forEachMsg (w :: rest) sched { s with passes := s.passes + 1 } = r at *
      have f3a : r.2.messages = (sched.take (w :: rest).length).flatMap arrivalsOf := by
        rw [f3]
        show s.messages ++ _ = _
        rw [hq, List.nil_append]
      have f4a : r.2.bodyCalls = s.bodyCalls ++ (w :: rest) := f4
      have f5a : r.2.setup = s.setup := f5
      have f6a : r.2.passes = s.passes + 1 := f6
      have hbound : (if r.2.messages = [] then 1 else r.1.length + 2) ≤ fuel := by
        split
        · omega
        · rename_i hne
          rw [f1]
          have hsched : sched ≠ [] := by
            intro h
            apply hne
            rw [f3a, h]
            simp
          have : 0 < sched.length := List.length_pos.mpr hsched
          simp only [List.length_drop, List.length_cons]
          omega
      obtain ⟨s1, processed, h1, h2, h3, h4, h5, h6, h7⟩ :=
        ih r.2.messages r.1 { r.2 with messages := [] } f2 rfl hbound
      have h4a : s1.setup = r.2.setup := h4
      have h5a : s1.bodyCalls = r.2.bodyCalls ++ processed := h5
      refine ⟨s1, (w :: rest) ++ processed, h1, h2, h3, ?_, ?_, ?_, ?_⟩
      · rw [h4a, f5a]
      · rw [h5a, f4a, List.append_assoc]
      · rw [List.length_append, List.take_add, List.flatMap_append, ← f3a, ← f1, ← h6]
      · intro hno
        have hno1 : ∀ a ∈ r.1, arrivalsOf a = [] := by
          intro a ha
          rw [f1] at ha
          exact hno a (List.mem_of_mem_drop ha)
        have hempty : r.2.messages = [] := by
          rw [f3a]
          simp only [List.flatMap_eq_nil_iff]
          intro a ha
          exact hno a (List.mem_of_mem_take ha)
        have h7a : s1.passes = r.2.passes + (if r.2.messages = [] then 0 else 1) := h7 hno1
        rw [h7a, hempty, f6a]
        simp

theorem onSetupResolved_spec (sched : List (List SyncAct)) (s : Node)
    (hs : s.state = .RESOLVING) :
    ∃ s1 processed, onSetupResolved sched s = some s1 ∧
      s1.state = .RESOLVED ∧ s1.messages = [] ∧ s1.setup = s.setup ∧
      s1.bodyCalls = s.bodyCalls ++ processed ∧
      processed = s.messages ++ (sched.take processed.length).flatMap arrivalsOf ∧
      ((∀ a ∈ sched, arrivalsOf a = []) →
        s1.passes = s.passes + (if s.messages = [] then 0 else 1)) := by
  obtain ⟨s1, processed, h1, _, h3, h4, h5, h6, h7⟩ :=
    drainLoop_spec (sched.length + 2) s.messages sched { s with messages := [] } hs rfl
      (by split <;> omega)
  refine ⟨{ s1 with state := .RESOLVED }, processed, ?_, rfl, h3, h4, h5, h6, h7⟩
  simp [onSetupResolved, h1]

/-! ## Lifecycle: traces -/

theorem coherent_init (hasIni : Bool) (fin : Option Fragment) :
    Coherent (Node.init hasIni fin) := by
  simp [Coherent, Node.init]

theorem step_coherent (s : Node) (e : Event) (h : Coherent s) :
    ∃ s1, step s e = some s1 ∧ Coherent s1 ∧
      (s1.setup = .pending →
        s.setup = .pending ∧ s1.messages = s.messages ++ inputsOf [e]) := by
  obtain ⟨hp, hf, hr⟩ := h
  cases e with
  | input w =>
    refine ⟨onInput s w, rfl, ?_, ?_⟩
    · cases hsetup : s.setup with
      | pending =>
        obtain ⟨h1, h2⟩ := hp hsetup
        simp [Coherent, onInput, h1, h2, hsetup]
      | fulfilled =>
        have h1 := hf hsetup
        simp [Coherent, onInput, h1, hsetup, processMessage]
      | rejected =>
        obtain ⟨h1, h2⟩ := hr hsetup
        simp [Coherent, onInput, h1, h2, hsetup]
    · intro h1
      cases hsetup : s.setup with
      | pending =>
        obtain ⟨h2, _⟩ := hp hsetup
        simp [onInput, h2, inputsOf]
      | fulfilled =>
        have h2 := hf hsetup
        simp [onInput, h2, processMessage, hsetup] at h1
      | rejected =>
        obtain ⟨h2, _⟩ := hr hsetup
        simp [onInput, h2, hsetup] at h1
  | setupResolved sched =>
    cases hsetup : s.setup with
    | pending =>
      obtain ⟨h1, h2⟩ := hp hsetup
      obtain ⟨s1, processed, g1, g2, g3, g4, g5, g6, g7⟩ :=
        onSetupResolved_spec sched { s with setup := .fulfilled } h1
      have g4a : s1.setup = .fulfilled := g4
      refine ⟨s1, ?_, ?_, ?_⟩
      · simp [step, hsetup, g1]
      · simp [Coherent, g4a, g2]
      · intro h; rw [g4a] at h; cases h
    | fulfilled =>
      refine ⟨s, by simp [step, hsetup], ⟨hp, hf, hr⟩, ?_⟩
      intro h; rw [hsetup] at h; cases h
    | rejected =>
      refine ⟨s, by simp [step, hsetup], ⟨hp, hf, hr⟩, ?_⟩
      intro h; rw [hsetup] at h; cases h
  | setupRejected error =>
    cases hsetup : s.setup with
    | pending =>
      obtain ⟨h1, h2⟩ := hp hsetup
      refine ⟨onSetupRejected error { s with setup := .rejected }, by simp [step, hsetup], ?_, ?_⟩
      · simp [Coherent, onSetupRejected, h2]
      · intro h; simp [onSetupRejected] at h
    | fulfilled =>
      refine ⟨s, by simp [step, hsetup], ⟨hp, hf, hr⟩, ?_⟩
      intro h; rw [hsetup] at h; cases h
    | rejected =>
      refine ⟨s, by simp [step, hsetup], ⟨hp, hf, hr⟩, ?_⟩
      intro h; rw [hsetup] at h; cases h
  | close =>
    obtain ⟨g1, g2, g3, g4, _, _, _⟩ := onClose_frame s
    refine ⟨onClose s, rfl, ?_, ?_⟩
    · simp only [Coherent, g1, g3, g4]; exact ⟨hp, hf, hr⟩
    · intro h; rw [g4] at h
      exact ⟨h, by simp [g2, inputsOf]⟩
  | call op =>
    obtain ⟨g1, g2, g3, g4, _, _, _⟩ := applyOp_frame s op
    refine ⟨applyOp s op, rfl, ?_, ?_⟩
    · simp only [Coherent, g1, g3, g4]; exact ⟨hp, hf, hr⟩
    · intro h; rw [g4] at h
      exact ⟨h, by simp [g2, inputsOf]⟩

theorem inputsOf_cons (e : Event) (es : List Event) :
    inputsOf (e :: es) = inputsOf [e] ++ inputsOf es := by
  cases e <;> simp [inputsOf]

theorem run_coherent (es : List Event) (s : Node) (h : Coherent s) :
    ∃ s1, run s es = some s1 ∧ Coherent s1 ∧
      (s1.setup = .pending → s1.messages = s.messages ++ inputsOf es) := by
  induction es generalizing s with
  | nil => exact ⟨s, rfl, h, by simp [inputsOf]⟩
  | cons e es ih =>
    obtain ⟨s1, h1, h2, h3⟩ := step_coherent s e h
    obtain ⟨s2, g1, g2, g3⟩ := ih s1 h2
    refine ⟨s2, by simp [run, h1, g1], g2, ?_⟩
    intro hpend
    have hm := g3 hpend
    have hs1 : s1.setup = .pending := by
      cases es with
      | nil =>
        simp only [run, Option.some.injEq] at g1
        rw [g1]; exact hpend
      | cons e1 es1 =>
        -- the promise never returns to pending
        clear hm g3 ih
        have key : ∀ (es : List Event) (a b : Node), Coherent a → run a es = some b →
            b.setup = .pending → a.setup = .pending := by
          intro es
          induction es with
          | nil =>
            intro a b _ hab hb
            simp only [run, Option.some.injEq] at hab
            rw [hab]; exact hb
          | cons e es ihk =>
            intro a b ha hab hb
            obtain ⟨a1, k1, k2, k3⟩ := step_coherent a e ha
            simp only [run, k1] at hab
            exact (k3 (ihk a1 b k2 hab hb)).1
        exact key (e1 :: es1) s1 s2 h2 g1 hpend
    rw [hm, (h3 hs1).2, inputsOf_cons e es, List.append_assoc]

/-- C1. Whatever the interleaving of input events, setup settlement, close
events and sandbox calls on a fresh instance, the run is defined and, while
the setup promise is still pending, no body invocation has taken place: every
message delivered so far sits in the pending queue in arrival order, and a
further input only appends its work item to that queue. A body invocation on
record means that setup has resolved successfully. -/
theorem C1_no_body_call_while_setup_pending (hasIni : Bool) (fin : Option Fragment)
    (es : List Event) :
    ∃ s, run (Node.init hasIni fin) es = some s ∧
      (s.setup = .pending →
        s.bodyCalls = [] ∧ s.messages = inputsOf es ∧
        ∀ w, step s (.input w) = some { s with messages := s.messages ++ [w] }) ∧
      (s.bodyCalls ≠ [] → s.setup = .fulfilled) := by
  obtain ⟨s, h1, ⟨hp, hf, hr⟩, h3⟩ := run_coherent es (Node.init hasIni fin)
    (coherent_init hasIni fin)
  refine ⟨s, h1, ?_, ?_⟩
  · intro hpend
    obtain ⟨g1, g2⟩ := hp hpend
    refine ⟨g2, ?_, ?_⟩
    · rw [h3 hpend]; simp [Node.init]
    · intro w
      simp [step, onInput, g1]
  · intro hne
    cases hsetup : s.setup with
    | pending => exact absurd (hp hsetup).2 hne
    | fulfilled => rfl
    | rejected => exact absurd (hr hsetup).2 hne

/-- C2 as stated fails: when setup resolves with an empty pending queue and
nothing arrives, the drain loop makes no pass at all, not exactly one. -/
theorem C2_counterexample_empty_queue_no_pass :
    (step (Node.init false none) (.setupResolved [])).map Node.passes = some 0 ∧
    (step (Node.init false none) (.setupResolved [])).map Node.passes ≠ some 1 := by
  constructor
  · rfl
  · decide

/-- C2, amended. When setup resolves, the drain loop ends; it has passed every
queued work item to the body phase exactly once and in enqueue order, the
items enqueued while a pass was running included (the sequence processed is
the queue at settlement followed by the arrivals caused by the invocations
processed, in order); at the end the queue is empty and the state is Ready.
If no item arrives during the drain the loop makes one pass when the queue
was not empty at settlement, and none when it was empty. One pass over a
snapshot invokes the body for exactly the items of the snapshot, in order,
and leaves the items that arrive meanwhile in the queue, for a later pass. -/
theorem C2_drain_processes_queue_in_order (s : Node) (sched : List (List SyncAct))
    (hs : s.state = .RESOLVING) (hp : s.setup = .pending) :
    (∃ s1 processed, step s (.setupResolved sched) = some s1 ∧
      s1.state = .RESOLVED ∧ s1.messages = [] ∧
      s1.bodyCalls = s.bodyCalls ++ processed ∧
      processed = s.messages ++ (sched.take processed.length).flatMap arrivalsOf ∧
      ((∀ a ∈ sched, arrivalsOf a = []) →
        s1.passes = s.passes + (if s.messages = [] then 0 else 1))) ∧
    ∀ snapshot : List WorkItem,
      (forEachMsg snapshot sched s).2.bodyCalls = s.bodyCalls ++ snapshot ∧
      (forEachMsg snapshot sched s).2.messages
        = s.messages ++ (sched.take snapshot.length).flatMap arrivalsOf ∧
      (forEachMsg snapshot sched s).2.state = .RESOLVING := by
  refine ⟨?_, fun snapshot => ?_⟩
  · obtain ⟨s1, processed, g1, g2, g3, _, g5, g6, g7⟩ :=
      onSetupResolved_spec sched { s with setup := .fulfilled } hs
    exact ⟨s1, processed, by simp [step, hp, g1], g2, g3, g5, g6, g7⟩
  · obtain ⟨_, f2, f3, f4, _, _⟩ := forEachMsg_resolving snapshot sched s hs
    exact ⟨f4, f3, f2⟩

/-- C2, amended, at a queue of two items whose first invocation lets a third
item arrive: the three bodies run in arrival order, in two passes. -/
theorem C2_drain_processes_queue_in_order_witness :
    ∃ s1 processed,
      step { Node.init false none with messages := [⟨1, 1, 1⟩, ⟨2, 2, 2⟩] }
        (.setupResolved [[.input ⟨3, 3, 3⟩]]) = some s1 ∧
      s1.state = .RESOLVED ∧ s1.messages = [] ∧
      s1.bodyCalls = [] ++ processed ∧
      processed = [⟨1, 1, 1⟩, ⟨2, 2, 2⟩]
          ++ (([[.input ⟨3, 3, 3⟩]] : List (List SyncAct)).take processed.length).flatMap
            arrivalsOf :=
  match (C2_drain_processes_queue_in_order
    { Node.init false none with messages := [⟨1, 1, 1⟩, ⟨2, 2, 2⟩] }
    [[.input ⟨3, 3, 3⟩]] rfl rfl).1 with
  | ⟨s1, processed, h1, h2, h3, h4, h5, _⟩ => ⟨s1, processed, h1, h2, h3, h4, h5⟩

/-! ## Heap and field lemmas -/

theorem getField_setField_same (o : JSObject) (k : String) (v : Data) :
    getField (setField o k v) k = v := by
  induction o with
  | nil => simp [setField, getField]
  | cons kv rest ih =>
    obtain ⟨k1, v1⟩ := kv
    by_cases h : k1 = k
    · simp [setField, getField, h]
    · simp [setField, getField, h, ih]

theorem getField_setField_ne (o : JSObject) (k k1 : String) (v : Data) (h : k1 ≠ k) :
    getField (setField o k v) k1 = getField o k1 := by
  induction o with
  | nil => simp [setField, getField, Ne.symm h]
  | cons kv rest ih =>
    obtain ⟨k2, v2⟩ := kv
    by_cases h2 : k2 = k
    · subst h2
      simp [setField, getField, Ne.symm h]
    · by_cases h3 : k2 = k1
      · subst h3
        simp [setField, getField, h2]
      · simp [setField, getField, h2, h3, ih]

theorem setField_setField (o : JSObject) (k : String) (v : Data) :
    setField (setField o k v) k v = setField o k v := by
  induction o with
  | nil => simp [setField]
  | cons kv rest ih =>
    obtain ⟨k1, v1⟩ := kv
    by_cases h : k1 = k
    · simp [setField, h]
    · simp [setField, h, ih]

theorem stamp_stamp (id : Data) (o : JSObject) : stamp id (stamp id o) = stamp id o :=
  setField_setField o "_msgid" id

theorem read_write_same (h : Heap) (r : Nat) (o : JSObject) (hr : r < h.length) :
    (h.write r o).read r = o := by
  simp [Heap.read, Heap.write, List.getD_eq_getElem?_getD, hr]

theorem read_write_ne (h : Heap) (r a : Nat) (o : JSObject) (hne : r ≠ a) :
    (h.write r o).read a = h.read a := by
  simp [Heap.read, Heap.write, List.getD_eq_getElem?_getD, List.getElem?_set_ne hne]

theorem length_write (h : Heap) (r : Nat) (o : JSObject) : (h.write r o).length = h.length := by
  simp [Heap.write]

theorem read_append_lt (h : Heap) (o : JSObject) (a : Nat) (ha : a < h.length) :
    (h ++ [o]).read a = h.read a := by
  simp [Heap.read, List.getD_eq_getElem?_getD, List.getElem?_append_left ha]

theorem read_append_length (h : Heap) (o : JSObject) : (h ++ [o]).read h.length = o := by
  simp [Heap.read, List.getD_eq_getElem?_getD]

theorem extends_refl (id : Data) (h : Heap) : Extends id h h :=
  ⟨Nat.le_refl _, fun _ _ => Or.inl rfl⟩

theorem extends_trans (id : Data) (h h1 h2 : Heap) (h01 : Extends id h h1)
    (h12 : Extends id h1 h2) : Extends id h h2 := by
  refine ⟨Nat.le_trans h01.1 h12.1, ?_⟩
  intro a ha
  have ha1 : a < h1.length := Nat.lt_of_lt_of_le ha h01.1
  rcases h01.2 a ha with e1 | e1 <;> rcases h12.2 a ha1 with e2 | e2
  · left; rw [e2, e1]
  · right; rw [e2, e1]
  · right; rw [e2, e1]
  · right; rw [e2, e1, stamp_stamp]

/-- A cell that holds a stamped object keeps it. -/
theorem extends_stable (id : Data) (h h1 : Heap) (hext : Extends id h h1) (a : Nat)
    (ha : a < h.length) (o : JSObject) (hs : h.read a = stamp id o) :
    h1.read a = stamp id o := by
  rcases hext.2 a ha with e | e
  · rw [e, hs]
  · rw [e, hs, stamp_stamp]

/-- Stamping a cell of a later heap gives the stamped original. -/
theorem stamp_read_of_extends (id : Data) (h0 h : Heap) (hext : Extends id h0 h) (r : Nat)
    (hr : r < h0.length) : stamp id (h.read r) = stamp id (h0.read r) := by
  rcases hext.2 r hr with e | e
  · rw [e]
  · rw [e, stamp_stamp]

theorem extends_write (id : Data) (h : Heap) (r : Nat) :
    Extends id h (h.write r (stamp id (h.read r))) := by
  refine ⟨by rw [length_write], ?_⟩
  intro a ha
  by_cases hra : r = a
  · subst hra; right; exact read_write_same h r _ ha
  · left; exact read_write_ne h r a _ hra

theorem extends_append (id : Data) (h : Heap) (o : JSObject) : Extends id h (h ++ [o]) := by
  refine ⟨by simp, ?_⟩
  intro a ha
  left; exact read_append_lt h o a ha

/-! ## sendResults: one element -/

theorem sendEntry_message (id : Data) (c : JSVal) (st : SendState) (msg : JSVal) (r : Nat)
    (hm : messageRef msg = some r) :
    sendEntry id c st msg =
      if st.msgCount = 0 ∧ notFalse c = true then
        (withRef msg st.heap.length,
          { heap := st.heap ++ [stamp id (st.heap.read r)],
            msgCount := st.msgCount + 1, log := st.log })
      else
        (msg, { heap := st.heap.write r (stamp id (st.heap.read r)),
                msgCount := st.msgCount + 1, log := st.log }) := by
  have hw : ∀ (h : Heap) (o : JSObject), (h ++ [o]).write h.length
      (setField ((h ++ [o]).read h.length) "_msgid" id) = h ++ [setField o "_msgid" id] := by
    intro h o
    rw [read_append_length]
    simp [Heap.write]
  cases msg <;> simp [messageRef] at hm
  all_goals
    subst hm
    by_cases h1 : st.msgCount = 0 ∧ notFalse c = true
    · simp [sendEntry, isNullish, typeOf, isBuffer, isArray, h1, cloneMessage, stampMsgid,
        refOf, withRef, hw, stamp]
    · have h2 : ¬ (st.msgCount = 0 ∧ notFalse c = true) := h1
      simp only [not_and] at h1
      simp [sendEntry, isNullish, typeOf, isBuffer, isArray, h2, stampMsgid, refOf, stamp]

theorem sendEntry_other (id : Data) (c : JSVal) (st : SendState) (msg : JSVal)
    (hm : messageRef msg = none) :
    sendEntry id c st msg
      = (msg, { st with log := st.log ++ (entryReport msg).toList }) := by
  cases msg <;>
    simp [messageRef] at hm <;>
    simp [sendEntry, isNullish, typeOf, isBuffer, isArray, entryReport, JSType.name]

theorem messageRef_withRef (msg : JSVal) (r n : Nat) (hm : messageRef msg = some r) :
    messageRef (withRef msg n) = some n := by
  cases msg <;> simp [messageRef] at hm <;> simp [withRef, messageRef]

theorem entryReport_of_message (msg : JSVal) (r : Nat) (hm : messageRef msg = some r) :
    entryReport msg = none := by
  cases msg <;> simp [messageRef] at hm <;> simp [entryReport]

/-- What one element does to the counter, the log, the heap size and the cells
it does not name. -/
theorem sendEntry_message_frame (id : Data) (c : JSVal) (st : SendState) (msg : JSVal)
    (r : Nat) (hm : messageRef msg = some r) :
    (sendEntry id c st msg).2.msgCount = st.msgCount + 1 ∧
    (sendEntry id c st msg).2.log = st.log ∧
    Extends id st.heap (sendEntry id c st msg).2.heap ∧
    messageRef (sendEntry id c st msg).1
      = some (if ClonesNext c st then st.heap.length else r) ∧
    (sendEntry id c st msg).2.heap.length
      = st.heap.length + (if ClonesNext c st then 1 else 0) ∧
    (∀ a, a < st.heap.length → a ≠ (if ClonesNext c st then st.heap.length else r) →
      (sendEntry id c st msg).2.heap.read a = st.heap.read a) := by
  rw [sendEntry_message id c st msg r hm]
  by_cases h : ClonesNext c st
  · have h1 : st.msgCount = 0 ∧ notFalse c = true := h
    simp only [h1, and_self, ↓reduceIte, h]
    refine ⟨by simp, trivial, extends_append id _ _, messageRef_withRef msg r _ hm, by simp, ?_⟩
    intro a ha _
    exact read_append_lt _ _ a ha
  · have h1 : ¬ (st.msgCount = 0 ∧ notFalse c = true) := h
    simp only [h1, ↓reduceIte, h]
    refine ⟨trivial, trivial, extends_write id _ _, hm, by simp [length_write], ?_⟩
    intro a _ hne
    exact read_write_ne _ _ _ _ (Ne.symm hne)

/-- The cell named by the element left in the array holds the stamped
original. -/
theorem sendEntry_message_content (id : Data) (c : JSVal) (h0 : Heap) (st : SendState)
    (msg : JSVal) (r : Nat) (hm : messageRef msg = some r) (hext : Extends id h0 st.heap)
    (hr : r < h0.length) :
    ∃ r1, messageRef (sendEntry id c st msg).1 = some r1 ∧
      r1 < (sendEntry id c st msg).2.heap.length ∧
      (sendEntry id c st msg).2.heap.read r1 = stamp id (h0.read r) := by
  have hr1 : r < st.heap.length := Nat.lt_of_lt_of_le hr hext.1
  rw [sendEntry_message id c st msg r hm]
  by_cases h : st.msgCount = 0 ∧ notFalse c = true
  · simp only [h, and_self, ↓reduceIte]
    refine ⟨st.heap.length, messageRef_withRef msg r _ hm, by simp, ?_⟩
    rw [read_append_length, stamp_read_of_extends id h0 st.heap hext r hr]
  · simp only [h, ↓reduceIte]
    refine ⟨r, hm, by rw [length_write]; exact hr1, ?_⟩
    rw [read_write_same _ _ _ hr1, stamp_read_of_extends id h0 st.heap hext r hr]

/-! ## sendResults: the inner loop -/

theorem clonesNext_congr (c : JSVal) (st st1 : SendState) (h : st1.msgCount = st.msgCount) :
    ClonesNext c st1 ↔ ClonesNext c st := by
  simp [ClonesNext, h]

theorem not_clonesNext_of_pos (c : JSVal) (st : SendState) (h : 0 < st.msgCount) :
    ¬ ClonesNext c st := by
  intro hc
  have := hc.1
  omega

theorem sendInner_frame (id : Data) (c : JSVal) (es : List JSVal) (st : SendState) :
    (sendInner id c es st).2.msgCount = st.msgCount + (es.filterMap messageRef).length ∧
    (sendInner id c es st).2.log = st.log ++ es.filterMap entryReport ∧
    Extends id st.heap (sendInner id c es st).2.heap ∧
    (sendInner id c es st).1.length = es.length ∧
    (sendInner id c es st).1.filterMap messageRef
      = (if ClonesNext c st then replaceHead (es.filterMap messageRef) st.heap.length
         else es.filterMap messageRef) ∧
    (sendInner id c es st).2.heap.length
      = st.heap.length + (if ClonesNext c st ∧ es.filterMap messageRef ≠ [] then 1 else 0) ∧
    (∀ a, a < st.heap.length → a ∉ (sendInner id c es st).1.filterMap messageRef →
      (sendInner id c es st).2.heap.read a = st.heap.read a) := by
  induction es generalizing st with
  | nil =>
    simp only [sendInner, List.filterMap_nil, List.length_nil, Nat.add_zero, List.append_nil,
      replaceHead, ite_self, ne_eq, not_true_eq_false, and_false, ↓reduceIte]
    exact ⟨trivial, trivial, extends_refl id _, trivial, trivial, trivial, fun _ _ _ => trivial⟩
  | cons msg rest ih =>
    obtain ⟨i1, i2, i3, i4, i5, i6, i7⟩ := ih (sendEntry id c st msg).2
    simp only [sendInner]
    cases hm : messageRef msg with
    | none =>
      have he := sendEntry_other id c st msg hm
      have hst : (sendEntry id c st msg).2
          = { st with log := st.log ++ (entryReport msg).toList } := by rw [he]
      have h1 : (sendEntry id c st msg).1 = msg := by rw [he]
      have hcl : ClonesNext c (sendEntry id c st msg).2 ↔ ClonesNext c st :=
        clonesNext_congr c _ _ (by rw [hst])
      have hheap : (sendEntry id c st msg).2.heap = st.heap := by rw [hst]
      have hcount : (sendEntry id c st msg).2.msgCount = st.msgCount := by rw [hst]
      have hlog : (sendEntry id c st msg).2.log = st.log ++ (entryReport msg).toList := by
        rw [hst]
      refine ⟨?_, ?_, ?_, ?_, ?_, ?_, ?_⟩
      · rw [i1, hcount]; simp [List.filterMap_cons, hm]
      · rw [i2, hlog]
        cases hrep : entryReport msg <;> simp [List.filterMap_cons, hrep]
      · rw [← hheap]; exact i3
      · simp [i4]
      · simp only [List.filterMap_cons, h1, hm]
        rw [i5, hheap]
        by_cases hc : ClonesNext c st
        · simp [hc, hcl.mpr hc]
        · simp [hc, mt hcl.mp hc]
      · rw [i6, hheap]
        by_cases hc : ClonesNext c st
        · simp [hc, hcl.mpr hc, List.filterMap_cons, hm]
        · simp [hc, mt hcl.mp hc]
      · intro a ha hnot
        simp only [List.filterMap_cons, h1, hm] at hnot
        rw [i7 a (by rw [hheap]; exact ha) hnot, hheap]
    | some r =>
      obtain ⟨e1, e2, e3, e4, e5, e6⟩ := sendEntry_message_frame id c st msg r hm
      have hnc : ¬ ClonesNext c (sendEntry id c st msg).2 :=
        not_clonesNext_of_pos c _ (by rw [e1]; omega)
      simp only [hnc, ↓reduceIte, false_and, Nat.add_zero] at i5 i6
      refine ⟨?_, ?_, ?_, ?_, ?_, ?_, ?_⟩
      · rw [i1, e1]; simp [List.filterMap_cons, hm]; omega
      · rw [i2, e2]
        simp [List.filterMap_cons, entryReport_of_message msg r hm]
      · exact extends_trans id _ _ _ e3 i3
      · simp [i4]
      · simp only [List.filterMap_cons, e4, hm, i5]
        by_cases hc : ClonesNext c st <;> simp [hc, replaceHead]
      · rw [i6, e5]
        by_cases hc : ClonesNext c st <;> simp [hc, List.filterMap_cons, hm]
      · intro a ha hnot
        simp only [List.filterMap_cons, e4, List.mem_cons, not_or] at hnot
        have ha1 : a < (sendEntry id c st msg).2.heap.length := by rw [e5]; omega
        rw [i7 a ha1 hnot.2, e6 a ha hnot.1]

theorem sendInner_content (id : Data) (c : JSVal) (h0 : Heap) (es : List JSVal)
    (st : SendState) (hext : Extends id h0 st.heap)
    (hvalid : ∀ r ∈ es.filterMap messageRef, r < h0.length) :
    ((sendInner id c es st).1.filterMap messageRef).map (sendInner id c es st).2.heap.read
      = (es.filterMap messageRef).map (fun r => stamp id (h0.read r)) ∧
    (∀ a ∈ (sendInner id c es st).1.filterMap messageRef,
      a < (sendInner id c es st).2.heap.length) := by
  induction es generalizing st with
  | nil => simp [sendInner]
  | cons msg rest ih =>
    simp only [sendInner]
    cases hm : messageRef msg with
    | none =>
      have he := sendEntry_other id c st msg hm
      have h1 : (sendEntry id c st msg).1 = msg := by rw [he]
      have hheap : (sendEntry id c st msg).2.heap = st.heap := by rw [he]
      have hv : ∀ r ∈ rest.filterMap messageRef, r < h0.length := by
        intro r hr
        exact hvalid r (by simp only [List.filterMap_cons, hm]; exact hr)
      obtain ⟨i1, i2⟩ := ih (sendEntry id c st msg).2 (by rw [hheap]; exact hext) hv
      simp only [List.filterMap_cons, h1, hm]
      exact ⟨i1, i2⟩
    | some r =>
      have hr : r < h0.length := hvalid r (by simp [List.filterMap_cons, hm])
      have hv : ∀ r ∈ rest.filterMap messageRef, r < h0.length := by
        intro r1 hr1
        exact hvalid r1 (by simp only [List.filterMap_cons, hm]; exact List.mem_cons_of_mem _ hr1)
      obtain ⟨e1, e2, e3, e4, e5, e6⟩ := sendEntry_message_frame id c st msg r hm
      obtain ⟨r1, c1, c2, c3⟩ := sendEntry_message_content id c h0 st msg r hm hext hr
      obtain ⟨i1, i2⟩ := ih (sendEntry id c st msg).2 (extends_trans id _ _ _ hext e3) hv
      obtain ⟨_, _, f3, _⟩ := sendInner_frame id c rest (sendEntry id c st msg).2
      simp only [List.filterMap_cons, c1, hm, List.map_cons, List.mem_cons]
      refine ⟨?_, ?_⟩
      · rw [i1, extends_stable id _ _ f3 r1 c2 _ c3]
      · intro a ha
        rcases ha with ha | ha
        · rw [ha]; exact Nat.lt_of_lt_of_le c2 f3.1
        · exact i2 a ha

/-! ## sendResults: the outer loop -/

theorem positionRefs_eq (p : JSVal) : positionRefs p = (entriesOf p).filterMap messageRef := by
  cases p <;> simp [positionRefs, entriesOf, messageRef]

theorem positionRefs_arr (es : List JSVal) :
    positionRefs (.arr es) = es.filterMap messageRef := rfl

theorem positionRefs_of_falsy (p : JSVal) (h : truthy p = false) : positionRefs p = [] := by
  cases p <;> simp [truthy] at h <;> simp [positionRefs, messageRef]

theorem entries_eq (p : JSVal) : (if !isArray p then [p] else elems p) = entriesOf p := by
  cases p <;> simp [isArray, elems, entriesOf]

theorem replaceHead_append (a b : List Nat) (n : Nat) :
    replaceHead (a ++ b) n = if a = [] then replaceHead b n else replaceHead a n ++ b := by
  cases a <;> simp [replaceHead]

theorem clonesNext_after (c : JSVal) (st st1 : SendState) (k : Nat)
    (h : st1.msgCount = st.msgCount + k) :
    ClonesNext c st1 ↔ ClonesNext c st ∧ k = 0 := by
  simp only [ClonesNext, h]
  constructor
  · intro ⟨h1, h2⟩
    exact ⟨⟨by omega, h2⟩, by omega⟩
  · intro ⟨⟨h1, h2⟩, h3⟩
    exact ⟨by omega, h2⟩

theorem sendOuter_frame (id : Data) (c : JSVal) (ps : List JSVal) (st : SendState) :
    (sendOuter id c ps st).2.msgCount = st.msgCount + (ps.flatMap positionRefs).length ∧
    (sendOuter id c ps st).2.log = st.log ++ ps.flatMap positionReports ∧
    Extends id st.heap (sendOuter id c ps st).2.heap ∧
    (sendOuter id c ps st).1.length = ps.length ∧
    (sendOuter id c ps st).1.flatMap positionRefs
      = (if ClonesNext c st then replaceHead (ps.flatMap positionRefs) st.heap.length
         else ps.flatMap positionRefs) ∧
    (sendOuter id c ps st).2.heap.length
      = st.heap.length + (if ClonesNext c st ∧ ps.flatMap positionRefs ≠ [] then 1 else 0) ∧
    (∀ a, a < st.heap.length → a ∉ (sendOuter id c ps st).1.flatMap positionRefs →
      (sendOuter id c ps st).2.heap.read a = st.heap.read a) := by
  induction ps generalizing st with
  | nil =>
    simp only [sendOuter, List.flatMap_nil, List.length_nil, Nat.add_zero, List.append_nil,
      replaceHead, ite_self, ne_eq, not_true_eq_false, and_false, ↓reduceIte]
    exact ⟨trivial, trivial, extends_refl id _, trivial, trivial, trivial, fun _ _ _ => trivial⟩
  | cons p rest ih =>
    by_cases ht : truthy p = true
    · obtain ⟨e1, e2, e3, e4, e5, e6, e7⟩ := sendInner_frame id c (entriesOf p) st
      obtain ⟨i1, i2, i3, i4, i5, i6, i7⟩ := ih (sendInner id c (entriesOf p) st).2
      have hcl := clonesNext_after c st _ _ e1
      simp only [sendOuter, ht, ↓reduceIte, entries_eq]
      rw [← positionRefs_eq] at e1 e5 e6 hcl
      refine ⟨?_, ?_, ?_, ?_, ?_, ?_, ?_⟩
      · rw [i1, e1]; simp [List.flatMap_cons]; omega
      · rw [i2, e2]; simp [List.flatMap_cons, positionReports, ht]
      · exact extends_trans id _ _ _ e3 i3
      · simp [i4]
      · simp only [List.flatMap_cons, positionRefs_arr, i5, e5]
        by_cases hc : ClonesNext c st
        · by_cases hk : positionRefs p = []
          · have hc1 : ClonesNext c (sendInner id c (entriesOf p) st).2 :=
              hcl.mpr ⟨hc, by simp [hk]⟩
            have hlen : (sendInner id c (entriesOf p) st).2.heap.length = st.heap.length := by
              rw [e6]; simp [hk]
            simp [hc, hc1, hk, replaceHead, hlen]
          · have hc1 : ¬ ClonesNext c (sendInner id c (entriesOf p) st).2 := by
              intro h
              exact hk (List.length_eq_zero.mp (hcl.mp h).2)
            simp [hc, hc1, replaceHead_append, hk]
        · have hc1 : ¬ ClonesNext c (sendInner id c (entriesOf p) st).2 :=
            fun h => hc (hcl.mp h).1
          simp [hc, hc1]
      · rw [i6, e6]
        by_cases hc : ClonesNext c st
        · by_cases hk : positionRefs p = []
          · have hc1 : ClonesNext c (sendInner id c (entriesOf p) st).2 :=
              hcl.mpr ⟨hc, by simp [hk]⟩
            simp [hc, hc1, hk, List.flatMap_cons]
          · have hc1 : ¬ ClonesNext c (sendInner id c (entriesOf p) st).2 := by
              intro h
              exact hk (List.length_eq_zero.mp (hcl.mp h).2)
            simp [hc, hc1, hk, List.flatMap_cons]
        · have hc1 : ¬ ClonesNext c (sendInner id c (entriesOf p) st).2 :=
            fun h => hc (hcl.mp h).1
          simp [hc, hc1]
      · intro a ha hnot
        simp only [List.flatMap_cons, positionRefs_arr, List.mem_append, not_or] at hnot
        have ha1 : a < (sendInner id c (entriesOf p) st).2.heap.length :=
          Nat.lt_of_lt_of_le ha e3.1
        rw [i7 a ha1 hnot.2, e7 a ha hnot.1]
    · have hf : truthy p = false := by simpa using ht
      obtain ⟨i1, i2, i3, i4, i5, i6, i7⟩ := ih st
      have hk := positionRefs_of_falsy p hf
      simp only [sendOuter, hf, Bool.false_eq_true, ↓reduceIte]
      refine ⟨?_, ?_, i3, ?_, ?_, ?_, ?_⟩
      · rw [i1]; simp [List.flatMap_cons, hk]
      · rw [i2]; simp [List.flatMap_cons, positionReports, hf]
      · simp [i4]
      · simp only [List.flatMap_cons, hk, List.nil_append]; exact i5
      · simp only [List.flatMap_cons, hk, List.nil_append]; exact i6
      · intro a ha hnot
        simp only [List.flatMap_cons, hk, List.nil_append] at hnot
        exact i7 a ha hnot

theorem map_read_stable (id : Data) (h h1 : Heap) (hext : Extends id h h1) (f : Nat → JSObject)
    (l m : List Nat) (hb : ∀ a ∈ l, a < h.length)
    (hmap : l.map h.read = m.map (fun r => stamp id (f r))) :
    l.map h1.read = m.map (fun r => stamp id (f r)) := by
  induction l generalizing m with
  | nil => simpa using hmap
  | cons a l ih =>
    cases m with
    | nil => simp at hmap
    | cons b m =>
      simp only [List.map_cons, List.cons.injEq] at hmap ⊢
      refine ⟨extends_stable id h h1 hext a (hb a (List.mem_cons_self _ _)) _ hmap.1, ?_⟩
      exact ih m (fun x hx => hb x (List.mem_cons_of_mem _ hx)) hmap.2

theorem carries_stable (id : Data) (h0 h h1 : Heap) (hext : Extends id h h1) (p q : JSVal)
    (hc : Carries id h0 h p q) : Carries id h0 h1 p q := by
  obtain ⟨c1, c2, c3⟩ := hc
  exact ⟨c1, map_read_stable id h h1 hext _ _ _ c3 c2,
    fun a ha => Nat.lt_of_lt_of_le (c3 a ha) hext.1⟩

theorem sendOuter_carries (id : Data) (c : JSVal) (h0 : Heap) (ps : List JSVal)
    (st : SendState) (hext : Extends id h0 st.heap)
    (hvalid : ∀ r ∈ ps.flatMap positionRefs, r < h0.length) :
    List.Forall₂ (Carries id h0 (sendOuter id c ps st).2.heap) ps (sendOuter id c ps st).1 := by
  induction ps generalizing st with
  | nil => simp [sendOuter]
  | cons p rest ih =>
    have hv : ∀ r ∈ rest.flatMap positionRefs, r < h0.length := by
      intro r hr
      exact hvalid r (by simp only [List.flatMap_cons, List.mem_append]; exact Or.inr hr)
    by_cases ht : truthy p = true
    · obtain ⟨e1, e2, e3, e4, e5, e6, e7⟩ := sendInner_frame id c (entriesOf p) st
      have hvp : ∀ r ∈ (entriesOf p).filterMap messageRef, r < h0.length := by
        intro r hr
        rw [← positionRefs_eq] at hr
        exact hvalid r (by simp only [List.flatMap_cons, List.mem_append]; exact Or.inl hr)
      obtain ⟨c1, c2⟩ := sendInner_content id c h0 (entriesOf p) st hext hvp
      obtain ⟨_, _, f3, _⟩ := sendOuter_frame id c rest (sendInner id c (entriesOf p) st).2
      have ihr := ih (sendInner id c (entriesOf p) st).2 (extends_trans id _ _ _ hext e3) hv
      simp only [sendOuter, ht, ↓reduceIte, entries_eq]
      refine List.Forall₂.cons ?_ ihr
      refine carries_stable id h0 _ _ f3 p _ ⟨?_, ?_, ?_⟩
      · simp only [ht, ↓reduceIte]
        exact ⟨_, rfl, e4⟩
      · rw [positionRefs_eq p]
        exact c1
      · exact c2
    · have hf : truthy p = false := by simpa using ht
      have ihr := ih st hext hv
      simp only [sendOuter, hf, Bool.false_eq_true, ↓reduceIte]
      refine List.Forall₂.cons ⟨?_, ?_, ?_⟩ ihr
      · simp [hf]
      · simp [positionRefs_of_falsy p hf]
      · simp [positionRefs_of_falsy p hf]

/-- The message objects of two lists of positions, taken position by position,
correspond in order. -/
theorem carries_flat (id : Data) (h0 h1 : Heap) (ps out : List JSVal)
    (h : List.Forall₂ (Carries id h0 h1) ps out) :
    (out.flatMap positionRefs).map h1.read
      = (ps.flatMap positionRefs).map (fun r => stamp id (h0.read r)) := by
  induction h with
  | nil => simp
  | cons hc _ ih =>
    simp only [List.flatMap_cons, List.map_append, ih, hc.2.1]

/-! ## sendResults as a whole -/

theorem positions_of_not_nullish (msgs : JSVal) (h : isNullish msgs = false) :
    (if !isArray msgs then [msgs] else elems msgs) = positions msgs := by
  cases msgs <;> simp [isNullish] at h <;> simp [isArray, elems, positions]

theorem positions_of_nullish (msgs : JSVal) (h : isNullish msgs = true) : positions msgs = [] := by
  cases msgs <;> simp [isNullish] at h <;> simp [positions]

/-- The function `sendResults` is the outer loop over the positions of the
results value, followed by the conditional call of `send`. -/
theorem sendResults_eq (heap : Heap) (send : Nat) (id : Data) (msgs c : JSVal) :
    sendResults heap send id msgs c =
      if 0 < (sendOuter id c (positions msgs) { heap := heap, msgCount := 0, log := [] }).2.msgCount
      then
        { (sendOuter id c (positions msgs) { heap := heap, msgCount := 0, log := [] }).2 with
          log := (sendOuter id c (positions msgs) { heap := heap, msgCount := 0, log := [] }).2.log
            ++ [.send send
                (.arr (sendOuter id c (positions msgs)
                  { heap := heap, msgCount := 0, log := [] }).1)] }
      else (sendOuter id c (positions msgs) { heap := heap, msgCount := 0, log := [] }).2 := by
  by_cases h : isNullish msgs = true
  · simp [sendResults, h, positions_of_nullish msgs h, sendOuter]
  · have h1 : isNullish msgs = false := by simpa using h
    simp only [sendResults, h1, Bool.false_eq_true, ↓reduceIte, positions_of_not_nullish msgs h1,
      gt_iff_lt]

theorem sends_append (l m : List Effect) : sends (l ++ m) = sends l ++ sends m := by
  induction l with
  | nil => simp [sends]
  | cons e l ih => cases e <;> simp [sends, ih]

theorem sends_filterMap_entryReport (es : List JSVal) : sends (es.filterMap entryReport) = [] := by
  induction es with
  | nil => simp [sends]
  | cons e es ih =>
    cases e <;> simp [List.filterMap_cons, entryReport, sends, ih]

theorem sends_positionReports (ps : List JSVal) : sends (ps.flatMap positionReports) = [] := by
  induction ps with
  | nil => simp [sends]
  | cons p ps ih =>
    simp only [List.flatMap_cons, sends_append, ih, List.append_nil, positionReports]
    split
    · exact sends_filterMap_entryReport _
    · simp [sends]

/-- Everything the proofs below use about one call of `sendResults`. -/
theorem sendResults_spec (heap : Heap) (send : Nat) (id : Data) (msgs c : JSVal) :
    ∃ out : List JSVal,
      (sendResults heap send id msgs c).msgCount = (messageRefs msgs).length ∧
      (sendResults heap send id msgs c).log
        = (positions msgs).flatMap positionReports
          ++ (if messageRefs msgs = [] then [] else [.send send (.arr out)]) ∧
      out.length = (positions msgs).length ∧
      messageRefs (.arr out)
        = (if notFalse c = true then replaceHead (messageRefs msgs) heap.length
           else messageRefs msgs) ∧
      (sendResults heap send id msgs c).heap.length
        = heap.length + (if notFalse c = true ∧ messageRefs msgs ≠ [] then 1 else 0) ∧
      Extends id heap (sendResults heap send id msgs c).heap ∧
      (∀ a, a < heap.length → a ∉ messageRefs (.arr out) →
        (sendResults heap send id msgs c).heap.read a = heap.read a) ∧
      ((∀ r ∈ messageRefs msgs, r < heap.length) →
        List.Forall₂ (Carries id heap (sendResults heap send id msgs c).heap)
          (positions msgs) out) := by
  obtain ⟨f1, f2, f3, f4, f5, f6, f7⟩ :=
    sendOuter_frame id c (positions msgs) { heap := heap, msgCount := 0, log := [] }
  have hcl : ClonesNext c { heap := heap, msgCount := 0, log := [] } ↔ notFalse c = true := by
    simp [ClonesNext]
  simp only [hcl, Nat.zero_add, List.nil_append] at f1 f2 f5 f6
  have hmr : (positions msgs).flatMap positionRefs = messageRefs msgs := rfl
  rw [hmr] at f1 f5 f6
  refine ⟨(sendOuter id c (positions msgs) { heap := heap, msgCount := 0, log := [] }).1, ?_⟩
  have hout : messageRefs
      (.arr (sendOuter id c (positions msgs) { heap := heap, msgCount := 0, log := [] }).1)
      = (sendOuter id c (positions msgs)
          { heap := heap, msgCount := 0, log := [] }).1.flatMap positionRefs := rfl
  rw [sendResults_eq, hout]
  by_cases hpos :
      0 < (sendOuter id c (positions msgs) { heap := heap, msgCount := 0, log := [] }).2.msgCount
  · have hne : messageRefs msgs ≠ [] := by
      intro h
      rw [f1, h] at hpos
      exact Nat.lt_irrefl _ hpos
    simp only [hpos, ↓reduceIte, hne]
    refine ⟨f1, by rw [f2], f4, f5, f6, f3, f7, ?_⟩
    intro hvalid
    exact sendOuter_carries id c heap (positions msgs) _ (extends_refl id heap) hvalid
  · have he : messageRefs msgs = [] := by
      rw [f1] at hpos
      exact List.length_eq_zero.mp (by omega)
    simp only [hpos, ↓reduceIte, he, List.append_nil]
    rw [he] at f1 f5 f6
    refine ⟨f1, f2, f4, f5, f6, f3, f7, ?_⟩
    intro hvalid
    exact sendOuter_carries id c heap (positions msgs) _ (extends_refl id heap)
      (by rw [hmr, he]; exact hvalid)

/-! ## Claims on sendResults -/

theorem sends_log (heap : Heap) (send : Nat) (id : Data) (msgs c : JSVal) (out : List JSVal)
    (hlog : (sendResults heap send id msgs c).log
      = (positions msgs).flatMap positionReports
        ++ (if messageRefs msgs = [] then [] else [.send send (.arr out)])) :
    sends (sendResults heap send id msgs c).log
      = if messageRefs msgs = [] then [] else [(send, .arr out)] := by
  rw [hlog, sends_append, sends_positionReports]
  split <;> simp [sends]

/-- C3. In a call of `sendResults` on a results value that holds a valid
message object (`r0` the first one in iteration order, `rest` the later ones)
and whose clone flag is not `false`, exactly one message is cloned, the first:
one object is allocated, the structure passed to `send` names that fresh object
where the caller named `r0` and the caller's own objects everywhere else, the
clone carries the fields of `r0` with the correlation id assigned while `r0`
itself is left as it was (unless it occurs again later), and no later write to
`r0` changes the clone. With the flag `false` nothing is allocated and every
message object passed to `send` is the caller's own. -/
theorem C3_first_message_cloned_once (heap : Heap) (send : Nat) (id : Data) (msgs c : JSVal)
    (r0 : Nat) (rest : List Nat) (hrefs : messageRefs msgs = r0 :: rest)
    (hvalid : ∀ r ∈ messageRefs msgs, r < heap.length) :
    ∃ out : List JSVal,
      sends (sendResults heap send id msgs c).log = [(send, .arr out)] ∧
      (notFalse c = true →
        messageRefs (.arr out) = heap.length :: rest ∧
        (sendResults heap send id msgs c).heap.length = heap.length + 1 ∧
        (sendResults heap send id msgs c).heap.read heap.length = stamp id (heap.read r0) ∧
        (r0 ∉ rest → (sendResults heap send id msgs c).heap.read r0 = heap.read r0) ∧
        ∀ o : JSObject,
          ((sendResults heap send id msgs c).heap.write r0 o).read heap.length
            = (sendResults heap send id msgs c).heap.read heap.length) ∧
      (notFalse c = false →
        messageRefs (.arr out) = r0 :: rest ∧
        (sendResults heap send id msgs c).heap.length = heap.length) := by
  obtain ⟨out, _, h2, _, h4, h5, _, h7, h8⟩ := sendResults_spec heap send id msgs c
  have hr0 : r0 < heap.length := hvalid r0 (by rw [hrefs]; exact List.mem_cons_self _ _)
  have hflat := carries_flat id heap _ _ _ (h8 hvalid)
  have hs := sends_log heap send id msgs c out h2
  rw [hrefs] at hs h4 h5
  refine ⟨out, by simpa using hs, ?_, ?_⟩
  · intro hc
    simp only [hc, ↓reduceIte, replaceHead, ne_eq, reduceCtorEq, not_false_eq_true, and_self] at h4 h5
    have hout : out.flatMap positionRefs = heap.length :: rest := h4
    have hmr : (positions msgs).flatMap positionRefs = r0 :: rest := hrefs
    rw [hout, hmr] at hflat
    simp only [List.map_cons, List.cons.injEq] at hflat
    refine ⟨h4, h5, hflat.1, ?_, ?_⟩
    · intro hnot
      apply h7 r0 hr0
      rw [h4]
      simp only [List.mem_cons, not_or]
      exact ⟨Nat.ne_of_lt hr0, hnot⟩
    · intro o
      exact read_write_ne _ _ _ _ (Nat.ne_of_lt hr0)
  · intro hc
    simp only [hc, Bool.false_eq_true, ↓reduceIte, false_and, Nat.add_zero] at h4 h5
    exact ⟨h4, h5⟩

/-- C3 at the results value `[m, m]` of the cloning test, default flag: the
structure dispatched is `[[clone], [m]]`. -/
theorem C3_first_message_cloned_once_witness :
    ∃ out : List JSVal,
      sends (sendResults [[("payload", .str "foo")]] 7 (.num 1) (.arr [.obj 0, .obj 0])
        .undefined).log = [(7, .arr out)] ∧
      messageRefs (.arr out) = [1, 0] := by
  obtain ⟨out, h1, h2, _⟩ :=
    C3_first_message_cloned_once [[("payload", .str "foo")]] 7 (.num 1) (.arr [.obj 0, .obj 0])
      .undefined 0 [0] rfl (by decide)
  exact ⟨out, h1, (h2 rfl).1⟩

/-- C4 as stated fails: for the top-level boolean `false` (as for `0` and the
empty string) `sendResults` reports no error at all. -/
theorem C4_counterexample_falsy_scalar_unreported :
    (sendResults [] 7 (.str "id") (.bool false) (.bool false)).log = [] ∧
    (sendResults [] 7 (.str "id") (.num 0) (.bool false)).log = [] ∧
    (sendResults [] 7 (.str "id") (.str "") (.bool false)).log = [] := by
  refine ⟨rfl, rfl, ?_⟩
  simp [sendResults, isNullish, isArray, sendOuter, truthy]

/-- C4, amended. For every body result that is a truthy top-level string,
number or boolean, or a byte buffer, `sendResults` calls no send capability
and makes exactly one error report, which names the type of the value (string,
number, boolean, Buffer); the heap is left as it was. -/
theorem C4_truthy_scalar_reported_once (heap : Heap) (send : Nat) (id : Data) (v c : JSVal)
    (t : String) (ht : scalarTypeName v = some t) (hv : truthy v = true) :
    (sendResults heap send id v c).log = [.error (.nonMessageReturned t)] ∧
    sends (sendResults heap send id v c).log = [] ∧
    (sendResults heap send id v c).msgCount = 0 ∧
    (sendResults heap send id v c).heap = heap := by
  cases v <;> simp [scalarTypeName] at ht <;> subst ht <;>
    simp [sendResults, isNullish, isArray, sendOuter, sendInner, sendEntry, typeOf, isBuffer,
      JSType.name, sends, hv]

/-- C4, amended, at the string `"foo"` of the test. -/
theorem C4_truthy_scalar_reported_once_witness :
    (sendResults [] 7 (.str "id") (.str "foo") (.bool false)).log
      = [.error (.nonMessageReturned "string")] :=
  (C4_truthy_scalar_reported_once [] 7 (.str "id") (.str "foo") (.bool false) "string" rfl
    (by decide)).1

theorem positionReports_of_plain (p : JSVal) (h : plainPosition p = true) :
    positionReports p = [] := by
  cases p <;> simp [plainPosition] at h <;>
    simp [positionReports, truthy, entriesOf, entryReport]
  rename_i es
  intro e he
  have := h e he
  cases e <;> simp at this <;> simp [entryReport]

/-- C5. For a results sequence `ps` whose positions hold `null`, a message
object, or a sequence of message objects and nulls, `sendResults` reports no
error, and when it calls `send` (that is, when `ps` holds a message object) it
does so once, with a structure `out` of as many positions as `ps`, where each
position carries exactly the message objects of the same position of `ps`, in
their order and with the correlation id assigned: a `null` position is left as
it is, and a single object becomes a sequence of one element. For every
results value whatever, the number of messages stamped is the number of valid
message objects it holds. -/
theorem C5_positions_preserved (heap : Heap) (send : Nat) (id : Data) (ps : List JSVal)
    (c : JSVal) (hshape : ∀ p ∈ ps, plainPosition p = true)
    (hvalid : ∀ r ∈ messageRefs (.arr ps), r < heap.length) :
    (∃ out : List JSVal,
      (sendResults heap send id (.arr ps) c).log
        = (if messageRefs (.arr ps) = [] then [] else [.send send (.arr out)]) ∧
      out.length = ps.length ∧
      List.Forall₂ (Carries id heap (sendResults heap send id (.arr ps) c).heap) ps out) ∧
    ∀ msgs : JSVal, (sendResults heap send id msgs c).msgCount = (messageRefs msgs).length := by
  refine ⟨?_, fun msgs => ?_⟩
  · obtain ⟨out, _, h2, h3, _, _, _, _, h8⟩ := sendResults_spec heap send id (.arr ps) c
    have hrep : (positions (.arr ps)).flatMap positionReports = [] := by
      simp only [positions, List.flatMap_eq_nil_iff]
      intro p hp
      exact positionReports_of_plain p (hshape p hp)
    rw [hrep, List.nil_append] at h2
    exact ⟨out, h2, h3, h8 hvalid⟩
  · obtain ⟨_, h1, _⟩ := sendResults_spec heap send id msgs c
    exact h1

/-- C5 at the results value `[[m, null, m], null]` of the test on nulls. -/
theorem C5_positions_preserved_witness :
    ∃ out : List JSVal,
      (sendResults [[("payload", .str "foo")]] 7 (.num 1)
        (.arr [.arr [.obj 0, .null, .obj 0], .null]) (.bool false)).log
        = [.send 7 (.arr out)] ∧
      out.length = 2 := by
  obtain ⟨⟨out, h1, h2, _⟩, _⟩ :=
    C5_positions_preserved [[("payload", .str "foo")]] 7 (.num 1)
      [.arr [.obj 0, .null, .obj 0], .null] (.bool false) (by decide) (by decide)
  exact ⟨out, h1, h2⟩

/-- C6. The function `sendResults` calls the host send capability exactly
once, with a structure that has one position for each position of the results
value, when the results value holds at least one valid message object, and
does not call it otherwise; for a `null` or `undefined` results value it
calls nothing, reports nothing and leaves the heap as it was. -/
theorem C6_send_called_once_iff_message (heap : Heap) (send : Nat) (id : Data)
    (msgs c : JSVal) :
    (messageRefs msgs ≠ [] →
      ∃ out : List JSVal, sends (sendResults heap send id msgs c).log = [(send, .arr out)] ∧
        out.length = (positions msgs).length ∧
        ((∀ r ∈ messageRefs msgs, r < heap.length) →
          List.Forall₂ (Carries id heap (sendResults heap send id msgs c).heap)
            (positions msgs) out)) ∧
    (messageRefs msgs = [] → sends (sendResults heap send id msgs c).log = []) ∧
    (isNullish msgs = true →
      (sendResults heap send id msgs c).log = [] ∧
      (sendResults heap send id msgs c).heap = heap) := by
  obtain ⟨out, _, h2, h3, _, _, _, _, h8⟩ := sendResults_spec heap send id msgs c
  have hs := sends_log heap send id msgs c out h2
  refine ⟨?_, ?_, ?_⟩
  · intro hne
    exact ⟨out, by simpa [hne] using hs, h3, h8⟩
  · intro he
    simpa [he] using hs
  · intro hn
    simp [sendResults, hn]

/-- C6 at the results value `[null, m]`: one call of `send`, two positions. -/
theorem C6_send_called_once_iff_message_witness :
    ∃ out : List JSVal,
      sends (sendResults [[("payload", .str "foo")]] 7 (.num 1) (.arr [.null, .obj 0])
        .undefined).log = [(7, .arr out)] ∧
      out.length = 2 := by
  obtain ⟨out, h1, h2, _⟩ :=
    (C6_send_called_once_iff_message [[("payload", .str "foo")]] 7 (.num 1)
      (.arr [.null, .obj 0]) .undefined).1 (by decide)
  exact ⟨out, h1, h2⟩

theorem forall₂_of_map_eq (f : Nat → JSObject) (g : Nat → JSObject) (l m : List Nat)
    (h : l.map f = m.map g) : List.Forall₂ (fun b a => f a = g b) m l := by
  induction l generalizing m with
  | nil =>
    cases m with
    | nil => exact List.Forall₂.nil
    | cons b m => simp at h
  | cons a l ih =>
    cases m with
    | nil => simp at h
    | cons b m =>
      simp only [List.map_cons, List.cons.injEq] at h
      exact List.Forall₂.cons h.1 (ih m h.2)

/-- C7. After `sendResults(node, send, id, results, flag)` has called `send`
with a structure `out`, the valid message objects of `out` correspond in order
to those of the caller's results value, each of them has `_msgid` equal to
`id` whatever the caller's object carried, and each of its other fields equals
the field of the caller's object. -/
theorem C7_msgid_stamped_fields_kept (heap : Heap) (send : Nat) (id : Data) (msgs c : JSVal)
    (hvalid : ∀ r ∈ messageRefs msgs, r < heap.length) (hne : messageRefs msgs ≠ []) :
    ∃ out : List JSVal,
      sends (sendResults heap send id msgs c).log = [(send, .arr out)] ∧
      List.Forall₂
        (fun r r1 =>
          getField ((sendResults heap send id msgs c).heap.read r1) "_msgid" = id ∧
          ∀ k : String, k ≠ "_msgid" →
            getField ((sendResults heap send id msgs c).heap.read r1) k
              = getField (heap.read r) k)
        (messageRefs msgs) (messageRefs (.arr out)) := by
  obtain ⟨out, _, h2, _, _, _, _, _, h8⟩ := sendResults_spec heap send id msgs c
  have hs := sends_log heap send id msgs c out h2
  have hflat := carries_flat id heap _ _ _ (h8 hvalid)
  refine ⟨out, by simpa [hne] using hs, ?_⟩
  have hf := forall₂_of_map_eq _ _ _ _ hflat
  refine List.Forall₂.imp ?_ hf
  intro r r1 hr
  rw [hr]
  exact ⟨getField_setField_same _ _ _, fun k hk => getField_setField_ne _ _ _ _ hk⟩

/-- C7 at the results value `[[a, b]]` with two distinct objects that carry
other ids. -/
theorem C7_msgid_stamped_fields_kept_witness :
    ∃ out : List JSVal,
      sends (sendResults [[("payload", .num 1), ("_msgid", .num 5)], [("payload", .num 2)]] 7
        (.num 1234) (.arr [.arr [.obj 0, .obj 1]]) (.bool false)).log = [(7, .arr out)] := by
  obtain ⟨out, h1, _⟩ :=
    C7_msgid_stamped_fields_kept [[("payload", .num 1), ("_msgid", .num 5)], [("payload", .num 2)]]
      7 (.num 1234) (.arr [.arr [.obj 0, .obj 1]]) (.bool false) (by decide) (by decide)
  exact ⟨out, h1⟩

theorem setField_getField_self (o : JSObject) (k : String)
    (hk : k ∈ o.map Prod.fst) : setField o k (getField o k) = o := by
  induction o with
  | nil => simp at hk
  | cons kv rest ih =>
    obtain ⟨k1, v1⟩ := kv
    by_cases h : k1 = k
    · simp [setField, getField, h]
    · have hk1 : k ∈ rest.map Prod.fst := by
        simp only [List.map_cons, List.mem_cons] at hk
        rcases hk with hk | hk
        · exact absurd hk.symm h
        · exact hk
      simp [setField, getField, h, ih hk1]

theorem write_read_self (h : Heap) (r : Nat) : h.write r (h.read r) = h := by
  apply List.ext_getElem?
  intro n
  simp only [Heap.write, Heap.read, List.getElem?_set]
  split
  · rename_i hrn
    subst hrn
    split
    · rename_i hr
      simp [List.getD_eq_getElem?_getD, hr]
    · rename_i hr
      simp [List.getElem?_eq_none (Nat.le_of_not_lt hr)]
  · rfl

/-- C8. When the body invoked for the work item `w` resolves with the message
object it was given and has not written to it, the structure delivered to the
send capability of `w` is `[[m]]` with `m` that same object; no object is
allocated, the correlation id assigned is the object's own `_msgid`, and every
field of the object reads as before. When the object has a `_msgid` property
of its own, as every message the host delivers has, the heap as a whole is
what it was. -/
theorem C8_returned_message_round_trip (cfg : Settings) (heap : Heap) (w : WorkItem)
    (converted : String) :
    sends (onBodyResolved cfg heap w (.obj w.msg) converted).2
      = [(w.send, .arr [.arr [.obj w.msg]])] ∧
    (onBodyResolved cfg heap w (.obj w.msg) converted).1.length = heap.length ∧
    (∀ k : String,
      getField ((onBodyResolved cfg heap w (.obj w.msg) converted).1.read w.msg) k
        = getField (heap.read w.msg) k) ∧
    ("_msgid" ∈ (heap.read w.msg).map Prod.fst →
      (onBodyResolved cfg heap w (.obj w.msg) converted).1 = heap) := by
  have hst : sendResults heap w.send (getField (heap.read w.msg) "_msgid") (.obj w.msg)
      (.bool false)
      = { heap := heap.write w.msg
            (setField (heap.read w.msg) "_msgid" (getField (heap.read w.msg) "_msgid")),
          msgCount := 1,
          log := [.send w.send (.arr [.arr [.obj w.msg]])] } := by
    simp [sendResults, isNullish, isArray, sendOuter, sendInner, sendEntry, truthy, typeOf,
      isBuffer, notFalse, stampMsgid, refOf]
  refine ⟨?_, ?_, ?_, ?_⟩
  · simp only [onBodyResolved, hst]
    cases cfg.handleNodeDoneCall <;> cases cfg.needTime <;> cases cfg.hasMetrics <;>
      simp [sends]
  · simp only [onBodyResolved, hst, length_write]
  · intro k
    simp only [onBodyResolved, hst]
    by_cases hr : w.msg < heap.length
    · rw [read_write_same _ _ _ hr]
      by_cases hk : k = "_msgid"
      · rw [hk, getField_setField_same]
      · rw [getField_setField_ne _ _ _ _ hk]
    · have hge : heap.length ≤ w.msg := Nat.le_of_not_lt hr
      have hset : heap.write w.msg
          (setField (heap.read w.msg) "_msgid" (getField (heap.read w.msg) "_msgid")) = heap := by
        simp [Heap.write, List.set_eq_of_length_le hge]
      rw [hset]
  · intro hk
    simp only [onBodyResolved, hst]
    rw [setField_getField_self _ _ hk, write_read_self]

/-! ## The close sequence -/

theorem indexOf_ge (l : List Nat) (id : Nat) : -1 ≤ indexOf l id := by
  induction l with
  | nil => simp [indexOf]
  | cons x rest ih =>
    simp only [indexOf]
    split
    · omega
    · split <;> omega

/-- Removing the element at `indexOf`, when there is one, removes the first
occurrence and nothing else. -/
theorem splice_indexOf (l : List Nat) (id : Nat) :
    (if indexOf l id > -1 then splice1 l (indexOf l id) else l) = l.erase id := by
  induction l with
  | nil => simp [indexOf]
  | cons x rest ih =>
    by_cases hx : x = id
    · subst hx
      simp [indexOf, splice1]
    · have hne : (x == id) = false := by simpa using hx
      simp only [indexOf, hx, ↓reduceIte, List.erase_cons, hne, Bool.false_eq_true]
      by_cases hi : indexOf rest id > -1
      · simp only [hi, ↓reduceIte] at ih ⊢
        have h0 : 0 ≤ indexOf rest id := by omega
        have hpos : indexOf rest id + 1 > -1 := by omega
        simp only [hpos, ↓reduceIte]
        have htn : (indexOf rest id + 1).toNat = (indexOf rest id).toNat + 1 := by omega
        simp only [splice1, htn, List.eraseIdx_cons_succ] at ih ⊢
        rw [ih]
      · simp only [hi, ↓reduceIte] at ih ⊢
        simp only [gt_iff_lt, Int.lt_irrefl, ↓reduceIte]
        rw [← ih]

/-- A sandbox call only adds to the log, never a teardown run, and a handle
that leaves an outstanding set was passed to the platform cancel call. -/
theorem applyOp_log (s : Node) (op : SandboxOp) :
    ∃ e : List Effect, (applyOp s op).log = s.log ++ e ∧ e.filter isRunTeardown = [] ∧
      (∀ h ∈ s.outstandingTimers,
        h ∈ (applyOp s op).outstandingTimers ∨ Effect.platformClearTimeout h ∈ e) ∧
      (∀ h ∈ s.outstandingIntervals,
        h ∈ (applyOp s op).outstandingIntervals ∨ Effect.platformClearInterval h ∈ e) ∧
      (s.clearStatus = true → (applyOp s op).clearStatus = true) := by
  cases op with
  | setTimeout timerId =>
    exact ⟨[], by simp [applyOp], rfl, fun h hh => Or.inl (by simp [applyOp, hh]),
      fun h hh => Or.inl (by simpa [applyOp] using hh), fun h => by simpa [applyOp] using h⟩
  | setInterval timerId =>
    exact ⟨[], by simp [applyOp], rfl, fun h hh => Or.inl (by simpa [applyOp] using hh),
      fun h hh => Or.inl (by simp [applyOp, hh]), fun h => by simpa [applyOp] using h⟩
  | clearTimeout id =>
    refine ⟨[.platformClearTimeout id], by simp [applyOp], by simp [isRunTeardown], ?_,
      fun h hh => Or.inl (by simpa [applyOp] using hh), fun h => by simpa [applyOp] using h⟩
    intro h hh
    by_cases hid : h = id
    · right; simp [hid]
    · left
      simp only [applyOp, splice_indexOf]
      exact (List.mem_erase_of_ne hid).mpr hh
  | clearInterval id =>
    refine ⟨[.platformClearInterval id], by simp [applyOp], by simp [isRunTeardown],
      fun h hh => Or.inl (by simpa [applyOp] using hh), ?_, fun h => by simpa [applyOp] using h⟩
    intro h hh
    by_cases hid : h = id
    · right; simp [hid]
    · left
      simp only [applyOp, splice_indexOf]
      exact (List.mem_erase_of_ne hid).mpr hh
  | status text =>
    exact ⟨[.status text], by simp [applyOp], by simp [isRunTeardown],
      fun h hh => Or.inl (by simpa [applyOp] using hh),
      fun h hh => Or.inl (by simpa [applyOp] using hh), fun _ => by simp [applyOp]⟩
  | error err =>
    exact ⟨[.error (.value err)], by simp [applyOp], by simp [isRunTeardown],
      fun h hh => Or.inl (by simpa [applyOp] using hh),
      fun h hh => Or.inl (by simpa [applyOp] using hh), fun h => by simpa [applyOp] using h⟩
  | nodeSend msgs cloneMsg =>
    simp only [applyOp, nodeSend]
    split
    · exact ⟨[], by simp, rfl, fun h hh => Or.inl hh, fun h hh => Or.inl hh, id⟩
    · exact ⟨[.sendResultsCall .setupSend .generated msgs cloneMsg], rfl,
        by simp [isRunTeardown], fun h hh => Or.inl hh, fun h hh => Or.inl hh, id⟩
    · rename_i w _
      exact ⟨[.sendResultsCall (.cap w.send) (.ofMessage w.msg) msgs cloneMsg], rfl,
        by simp [isRunTeardown], fun h hh => Or.inl hh, fun h hh => Or.inl hh, id⟩

theorem foldl_applyOp_log (ops : List SandboxOp) (s : Node) :
    ∃ e : List Effect, (ops.foldl applyOp s).log = s.log ++ e ∧ e.filter isRunTeardown = [] ∧
      (∀ h ∈ s.outstandingTimers,
        h ∈ (ops.foldl applyOp s).outstandingTimers ∨ Effect.platformClearTimeout h ∈ e) ∧
      (∀ h ∈ s.outstandingIntervals,
        h ∈ (ops.foldl applyOp s).outstandingIntervals ∨ Effect.platformClearInterval h ∈ e) ∧
      (s.clearStatus = true → (ops.foldl applyOp s).clearStatus = true) := by
  induction ops generalizing s with
  | nil => exact ⟨[], by simp, rfl, fun h hh => Or.inl hh, fun h hh => Or.inl hh, id⟩
  | cons op ops ih =>
    obtain ⟨e1, a1, a2, a3, a4, a5⟩ := applyOp_log s op
    obtain ⟨e2, b1, b2, b3, b4, b5⟩ := ih (applyOp s op)
    refine ⟨e1 ++ e2, ?_, ?_, ?_, ?_, fun h => b5 (a5 h)⟩
    · simp only [List.foldl_cons, b1, a1, List.append_assoc]
    · simp [List.filter_append, a2, b2]
    · intro h hh
      rcases a3 h hh with h1 | h1
      · rcases b3 h h1 with h2 | h2
        · exact Or.inl h2
        · exact Or.inr (List.mem_append_right _ h2)
      · exact Or.inr (List.mem_append_left _ h1)
    · intro h hh
      rcases a4 h hh with h1 | h1
      · rcases b4 h h1 with h2 | h2
        · exact Or.inl h2
        · exact Or.inr (List.mem_append_right _ h2)
      · exact Or.inr (List.mem_append_left _ h1)

/-- The pop loop, given at least as many iterations as the array has elements,
empties the array and cancels every element, last one first. -/
theorem popLoop_spec (cancel : Nat → Effect) (n : Nat) (arr : List Nat) (log : List Effect)
    (hn : arr.length ≤ n) :
    popLoop cancel n arr log = ([], log ++ arr.reverse.map cancel) := by
  induction n generalizing arr log with
  | zero =>
    have : arr = [] := List.length_eq_zero.mp (Nat.le_zero.mp hn)
    subst this
    simp [popLoop]
  | succ n ih =>
    rcases List.eq_nil_or_concat arr with h | ⟨init, last, h⟩
    · subst h
      simp [popLoop]
    · subst h
      rw [List.concat_eq_append] at hn ⊢
      have hlen : init.length ≤ n := by
        simp only [List.length_append, List.length_singleton] at hn
        omega
      simp only [popLoop, List.getLast?_concat, List.dropLast_concat]
      rw [ih init _ hlen]
      simp

theorem runTeardown_log (s : Node) :
    ∃ e : List Effect, (runTeardown s).log = s.log ++ e ∧
      (e.filter isRunTeardown).length = (if s.finScript.isSome then 1 else 0) ∧
      (∀ h ∈ s.outstandingTimers,
        h ∈ (runTeardown s).outstandingTimers ∨ Effect.platformClearTimeout h ∈ e) ∧
      (∀ h ∈ s.outstandingIntervals,
        h ∈ (runTeardown s).outstandingIntervals ∨ Effect.platformClearInterval h ∈ e) ∧
      (s.clearStatus = true → (runTeardown s).clearStatus = true) ∧
      (∀ f err, s.finScript = some f → f.throws = some err →
        Effect.error (.value err) ∈ e) := by
  cases hfin : s.finScript with
  | none =>
    have hrt : runTeardown s = s := by simp [runTeardown, hfin]
    rw [hrt]
    exact ⟨[], by simp, by simp, fun h hh => Or.inl hh, fun h hh => Or.inl hh, id,
      fun f err hf => by cases hf⟩
  | some f =>
    obtain ⟨e, a1, a2, a3, a4, a5⟩ :=
      foldl_applyOp_log f.calls { s with log := s.log ++ [.runTeardown] }
    have a1a : (f.calls.foldl applyOp { s with log := s.log ++ [.runTeardown] }).log
        = s.log ++ (.runTeardown :: e) := by
      rw [a1]; simp
    cases hthrow : f.throws with
    | none =>
      have hrt : runTeardown s
          = f.calls.foldl applyOp { s with log := s.log ++ [.runTeardown] } := by
        simp [runTeardown, hfin, hthrow]
      rw [hrt]
      refine ⟨.runTeardown :: e, a1a, ?_, ?_, ?_, a5, ?_⟩
      · simp [List.filter_cons, isRunTeardown, a2]
      · intro h hh
        rcases a3 h hh with h1 | h1
        · exact Or.inl h1
        · exact Or.inr (List.mem_cons_of_mem _ h1)
      · intro h hh
        rcases a4 h hh with h1 | h1
        · exact Or.inl h1
        · exact Or.inr (List.mem_cons_of_mem _ h1)
      · intro f1 err hf ht
        simp only [Option.some.injEq] at hf
        subst hf
        rw [hthrow] at ht
        cases ht
    | some err0 =>
      have hrt : runTeardown s
          = { f.calls.foldl applyOp { s with log := s.log ++ [.runTeardown] } with
              log := (f.calls.foldl applyOp { s with log := s.log ++ [.runTeardown] }).log
                ++ [.error (.value err0)] } := by
        simp [runTeardown, hfin, hthrow]
      rw [hrt]
      refine ⟨.runTeardown :: (e ++ [.error (.value err0)]), ?_, ?_, ?_, ?_, a5, ?_⟩
      · show (f.calls.foldl applyOp { s with log := s.log ++ [.runTeardown] }).log
            ++ [.error (.value err0)] = _
        rw [a1a]; simp
      · simp [List.filter_cons, List.filter_append, isRunTeardown, a2]
      · intro h hh
        rcases a3 h hh with h1 | h1
        · exact Or.inl h1
        · exact Or.inr (List.mem_cons_of_mem _ (List.mem_append_left _ h1))
      · intro h hh
        rcases a4 h hh with h1 | h1
        · exact Or.inl h1
        · exact Or.inr (List.mem_cons_of_mem _ (List.mem_append_left _ h1))
      · intro f1 err hf ht
        simp only [Option.some.injEq] at hf
        subst hf
        rw [hthrow] at ht
        simp only [Option.some.injEq] at ht
        subst ht
        simp

theorem onClose_eq (s : Node) :
    onClose s =
      { runTeardown s with
        outstandingTimers := []
        outstandingIntervals := []
        log := (runTeardown s).log
          ++ (runTeardown s).outstandingTimers.reverse.map .platformClearTimeout
          ++ (runTeardown s).outstandingIntervals.reverse.map .platformClearInterval
          ++ (if (runTeardown s).clearStatus then [.status none] else []) } := by
  simp only [onClose, popLoop_spec _ _ _ _ (Nat.le_refl _)]
  split <;> simp_all

/-- C9. The close handler runs the teardown fragment once when one is
configured and not at all otherwise; when the handler has run, both
outstanding sets are empty, and every handle they held when the handler
started or when the teardown fragment ended was passed to the platform cancel
call of its kind, whether the teardown fragment was absent, returned normally
or threw; an exception of the teardown fragment is reported through
`node.error`, the rest of the sequence still runs, and the status display is
cleared when the status flag is set. -/
theorem C9_close_runs_teardown_once_and_cancels_all (s : Node) :
    ∃ new : List Effect, (onClose s).log = s.log ++ new ∧
      (new.filter isRunTeardown).length = (if s.finScript.isSome then 1 else 0) ∧
      (onClose s).outstandingTimers = [] ∧
      (onClose s).outstandingIntervals = [] ∧
      (∀ h ∈ s.outstandingTimers, Effect.platformClearTimeout h ∈ new) ∧
      (∀ h ∈ s.outstandingIntervals, Effect.platformClearInterval h ∈ new) ∧
      (∀ h ∈ (runTeardown s).outstandingTimers, Effect.platformClearTimeout h ∈ new) ∧
      (∀ h ∈ (runTeardown s).outstandingIntervals, Effect.platformClearInterval h ∈ new) ∧
      (∀ f err, s.finScript = some f → f.throws = some err →
        Effect.error (.value err) ∈ new) ∧
      (s.clearStatus = true → Effect.status none ∈ new) := by
  obtain ⟨e, a1, a2, a3, a4, a5, a6⟩ := runTeardown_log s
  have hT : ∀ h ∈ (runTeardown s).outstandingTimers,
      Effect.platformClearTimeout h
        ∈ e ++ (runTeardown s).outstandingTimers.reverse.map .platformClearTimeout
          ++ (runTeardown s).outstandingIntervals.reverse.map .platformClearInterval
          ++ (if (runTeardown s).clearStatus then [.status none] else []) := by
    intro h hh
    simp only [List.mem_append, List.mem_map, List.mem_reverse]
    exact Or.inl (Or.inl (Or.inr ⟨h, hh, rfl⟩))
  have hI : ∀ h ∈ (runTeardown s).outstandingIntervals,
      Effect.platformClearInterval h
        ∈ e ++ (runTeardown s).outstandingTimers.reverse.map .platformClearTimeout
          ++ (runTeardown s).outstandingIntervals.reverse.map .platformClearInterval
          ++ (if (runTeardown s).clearStatus then [.status none] else []) := by
    intro h hh
    simp only [List.mem_append, List.mem_map, List.mem_reverse]
    exact Or.inl (Or.inr ⟨h, hh, rfl⟩)
  refine ⟨e ++ (runTeardown s).outstandingTimers.reverse.map .platformClearTimeout
      ++ (runTeardown s).outstandingIntervals.reverse.map .platformClearInterval
      ++ (if (runTeardown s).clearStatus then [.status none] else []),
    ?_, ?_, ?_, ?_, ?_, ?_, hT, hI, ?_, ?_⟩
  · rw [onClose_eq]
    simp only [a1, List.append_assoc]
  · have hf1 : ∀ l : List Nat, (l.map Effect.platformClearTimeout).filter isRunTeardown = [] := by
      intro l
      induction l with
      | nil => rfl
      | cons x l ih => simp [List.filter_cons, isRunTeardown]
    have hf2 : ∀ l : List Nat,
        (l.map Effect.platformClearInterval).filter isRunTeardown = [] := by
      intro l
      induction l with
      | nil => rfl
      | cons x l ih => simp [List.filter_cons, isRunTeardown]
    have hf3 : (if (runTeardown s).clearStatus then [Effect.status none] else []).filter
        isRunTeardown = [] := by
      split <;> simp [isRunTeardown]
    simp only [List.filter_append, List.length_append, hf1, hf2, hf3, List.length_nil,
      Nat.add_zero, a2]
  · rw [onClose_eq]
  · rw [onClose_eq]
  · intro h hh
    rcases a3 h hh with h1 | h1
    · exact hT h h1
    · simp only [List.mem_append]
      exact Or.inl (Or.inl (Or.inl h1))
  · intro h hh
    rcases a4 h hh with h1 | h1
    · exact hI h h1
    · simp only [List.mem_append]
      exact Or.inl (Or.inl (Or.inl h1))
  · intro f err hf ht
    simp only [List.mem_append]
    exact Or.inl (Or.inl (Or.inl (a6 f err hf ht)))
  · intro hc
    simp [a5 hc]

/-! ## The shared `node.send` -/

theorem slotTracks_processMessage (s : Node) (w : WorkItem) :
    SlotTracks (processMessage s w) := by
  intro w1 h
  simp only [processMessage, List.getLast?_concat, Option.some.injEq] at h
  simp [processMessage, h]

theorem slotTracks_of_frame (s s1 : Node) (hb : s1.bodyCalls = s.bodyCalls)
    (hs : s1.sendSlot = s.sendSlot) (h : SlotTracks s) : SlotTracks s1 := by
  intro w hw
  rw [hb] at hw
  rw [hs]
  exact h w hw

theorem slotTracks_onInput (s : Node) (w : WorkItem) (h : SlotTracks s) :
    SlotTracks (onInput s w) := by
  unfold onInput
  split
  · exact slotTracks_of_frame s _ rfl rfl h
  · split
    · exact slotTracks_processMessage s w
    · exact h

theorem slotTracks_syncStep (s : Node) (a : SyncAct) (h : SlotTracks s) :
    SlotTracks (syncStep s a) := by
  cases a with
  | call op =>
    obtain ⟨_, _, g3, _, _, g6, _⟩ := applyOp_frame s op
    exact slotTracks_of_frame s _ g3 g6 h
  | input w => exact slotTracks_onInput s w h

theorem slotTracks_foldl_syncStep (acts : List SyncAct) (s : Node) (h : SlotTracks s) :
    SlotTracks (acts.foldl syncStep s) := by
  induction acts generalizing s with
  | nil => exact h
  | cons a acts ih => exact ih _ (slotTracks_syncStep s a h)

theorem slotTracks_forEachMsg (msgs : List WorkItem) (sched : List (List SyncAct)) (s : Node)
    (h : SlotTracks s) : SlotTracks (forEachMsg msgs sched s).2 := by
  induction msgs generalizing sched s with
  | nil => exact h
  | cons w rest ih =>
    simp only [forEachMsg]
    exact ih _ _ (slotTracks_foldl_syncStep _ _ (slotTracks_processMessage s w))

theorem slotTracks_drainLoop (fuel : Nat) (msgs : List WorkItem) (sched : List (List SyncAct))
    (s s1 : Node) (h : SlotTracks s) (hd : drainLoop fuel msgs sched s = some s1) :
    SlotTracks s1 := by
  induction fuel generalizing msgs sched s with
  | zero => simp [drainLoop] at hd
  | succ fuel ih =>
    simp only [drainLoop] at hd
    split at hd
    · refine ih _ _ _ ?_ hd
      exact slotTracks_of_frame (forEachMsg msgs sched { s with passes := s.passes + 1 }).2 _
        rfl rfl
        (slotTracks_forEachMsg msgs sched _ (slotTracks_of_frame s _ rfl rfl h))
    · simp only [Option.some.injEq] at hd
      rw [← hd]; exact h

theorem slotTracks_step (s s1 : Node) (e : Event) (h : SlotTracks s) (hs : step s e = some s1) :
    SlotTracks s1 := by
  cases e with
  | input w =>
    simp only [step, Option.some.injEq] at hs
    rw [← hs]; exact slotTracks_onInput s w h
  | setupResolved sched =>
    simp only [step] at hs
    split at hs
    · simp only [onSetupResolved] at hs
      split at hs
      · rename_i s2 hd
        simp only [Option.some.injEq] at hs
        rw [← hs]
        refine slotTracks_of_frame s2 _ rfl rfl (slotTracks_drainLoop _ _ _ _ s2 ?_ hd)
        exact slotTracks_of_frame s _ rfl rfl h
      · cases hs
    · simp only [Option.some.injEq] at hs
      rw [← hs]; exact h
  | setupRejected error =>
    simp only [step] at hs
    split at hs
    · simp only [Option.some.injEq] at hs
      rw [← hs]; exact slotTracks_of_frame s _ rfl rfl h
    · simp only [Option.some.injEq] at hs
      rw [← hs]; exact h
  | close =>
    simp only [step, Option.some.injEq] at hs
    obtain ⟨_, _, g3, _, _, g6, _⟩ := onClose_frame s
    rw [← hs]; exact slotTracks_of_frame s _ g3 g6 h
  | call op =>
    simp only [step, Option.some.injEq] at hs
    obtain ⟨_, _, g3, _, _, g6, _⟩ := applyOp_frame s op
    rw [← hs]; exact slotTracks_of_frame s _ g3 g6 h

theorem slotTracks_run (es : List Event) (s s1 : Node) (h : SlotTracks s)
    (hr : run s es = some s1) : SlotTracks s1 := by
  induction es generalizing s with
  | nil =>
    simp only [run, Option.some.injEq] at hr
    rw [← hr]; exact h
  | cons e es ih =>
    simp only [run] at hr
    split at hr
    · rename_i s2 hs
      exact ih s2 (slotTracks_step s s2 e h hs) hr
    · cases hr

/-- C10 as stated fails. After setup has resolved, the body is invoked for a
first message (send capability 11) and, while that invocation is suspended,
for a second one (send capability 12). A call of `node.send` made afterwards,
by whichever invocation, is forwarded to `sendResults` with the correlation id
and the send capability of the second message, not of the first. -/
theorem C10_counterexample_suspended_invocation_uses_later_binding :
    ∃ s, run (Node.init false none)
        [.setupResolved [], .input ⟨1, 11, 21⟩, .input ⟨2, 12, 22⟩] = some s ∧
      s.bodyCalls = [⟨1, 11, 21⟩, ⟨2, 12, 22⟩] ∧
      (applyOp s (.nodeSend (.obj 1) .undefined)).log
        = s.log ++ [.sendResultsCall (.cap 12) (.ofMessage 2) (.obj 1) .undefined] ∧
      (applyOp s (.nodeSend (.obj 1) .undefined)).log
        ≠ s.log ++ [.sendResultsCall (.cap 11) (.ofMessage 1) (.obj 1) .undefined] := by
  refine ⟨_, rfl, rfl, rfl, ?_⟩
  simp [applyOp, nodeSend, processMessage, onInput, Node.init]

/-- C10, amended. In every state an instance can reach, a call of `node.send`
is forwarded to `sendResults` with the correlation id and the send capability
of the message whose body invocation was started last, whichever invocation
makes the call; these are the caller's own as long as no other body invocation
has been started since the caller's. -/
theorem C10_node_send_uses_latest_invocation (hasIni : Bool) (fin : Option Fragment)
    (es : List Event) (s : Node) (w : WorkItem) (msgs cloneMsg : JSVal)
    (hrun : run (Node.init hasIni fin) es = some s)
    (hlast : s.bodyCalls.getLast? = some w) :
    (applyOp s (.nodeSend msgs cloneMsg)).log
      = s.log ++ [.sendResultsCall (.cap w.send) (.ofMessage w.msg) msgs cloneMsg] := by
  have hinit : SlotTracks (Node.init hasIni fin) := by
    intro w1 h
    simp [Node.init] at h
  have hslot := slotTracks_run es _ s hinit hrun w hlast
  simp [applyOp, nodeSend, hslot]

/-- C10, amended, on the trace of two overlapping invocations. -/
theorem C10_node_send_uses_latest_invocation_witness :
    (applyOp
        { Node.init false none with
          state := .RESOLVED
          setup := .fulfilled
          sendSlot := .body ⟨2, 12, 22⟩
          doneSlot := some 22
          bodyCalls := [⟨1, 11, 21⟩, ⟨2, 12, 22⟩] }
        (.nodeSend (.obj 1) .undefined)).log
      = ({ Node.init false none with
          state := .RESOLVED
          setup := .fulfilled
          sendSlot := .body ⟨2, 12, 22⟩
          doneSlot := some 22
          bodyCalls := [⟨1, 11, 21⟩, ⟨2, 12, 22⟩] } : Node).log
        ++ [.sendResultsCall (.cap 12) (.ofMessage 2) (.obj 1) .undefined] :=
  C10_node_send_uses_latest_invocation false none
    [.setupResolved [], .input ⟨1, 11, 21⟩, .input ⟨2, 12, 22⟩] _ ⟨2, 12, 22⟩ (.obj 1)
    .undefined rfl rfl

/-! ## Lifecycle: after settlement -/

/-- Once the setup promise has settled and the queue is empty, an event leaves
the promise state, the lifecycle state and the empty queue as they are. -/
theorem step_settled (s : Node) (e : Event) (h : Coherent s) (hs : s.setup ≠ .pending)
    (hq : s.messages = []) :
    ∃ s1, step s e = some s1 ∧ Coherent s1 ∧ s1.setup = s.setup ∧ s1.state = s.state ∧
      s1.messages = [] ∧ (s.state = .ERROR → s1.bodyCalls = s.bodyCalls) := by
  obtain ⟨hp, hf, hr⟩ := h
  cases e with
  | input w =>
    cases hsetup : s.setup with
    | pending => exact absurd hsetup hs
    | fulfilled =>
      have h1 := hf hsetup
      refine ⟨processMessage s w, by simp [step, onInput, h1], ?_, hsetup, rfl, hq, ?_⟩
      · simp [Coherent, processMessage, hsetup, h1]
      · intro he; rw [h1] at he; cases he
    | rejected =>
      obtain ⟨h1, h2⟩ := hr hsetup
      refine ⟨s, by simp [step, onInput, h1], ⟨hp, hf, hr⟩, hsetup, rfl, hq, fun _ => rfl⟩
  | setupResolved sched =>
    exact ⟨s, by simp [step, hs], ⟨hp, hf, hr⟩, rfl, rfl, hq, fun _ => rfl⟩
  | setupRejected error =>
    exact ⟨s, by simp [step, hs], ⟨hp, hf, hr⟩, rfl, rfl, hq, fun _ => rfl⟩
  | close =>
    obtain ⟨g1, g2, g3, g4, _, _, _⟩ := onClose_frame s
    refine ⟨onClose s, rfl, ?_, g4, g1, by rw [g2]; exact hq, fun _ => g3⟩
    simp only [Coherent, g1, g3, g4]; exact ⟨hp, hf, hr⟩
  | call op =>
    obtain ⟨g1, g2, g3, g4, _, _, _⟩ := applyOp_frame s op
    refine ⟨applyOp s op, rfl, ?_, g4, g1, by rw [g2]; exact hq, fun _ => g3⟩
    simp only [Coherent, g1, g3, g4]; exact ⟨hp, hf, hr⟩

theorem run_settled (es : List Event) (s : Node) (h : Coherent s) (hs : s.setup ≠ .pending)
    (hq : s.messages = []) :
    ∃ s1, run s es = some s1 ∧ Coherent s1 ∧ s1.setup = s.setup ∧ s1.state = s.state ∧
      s1.messages = [] ∧ (s.state = .ERROR → s1.bodyCalls = s.bodyCalls) := by
  induction es generalizing s with
  | nil => exact ⟨s, rfl, h, rfl, rfl, hq, fun _ => rfl⟩
  | cons e es ih =>
    obtain ⟨s1, a1, a2, a3, a4, a5, a6⟩ := step_settled s e h hs hq
    obtain ⟨s2, b1, b2, b3, b4, b5, b6⟩ := ih s1 a2 (by rw [a3]; exact hs) a5
    refine ⟨s2, by simp [run, a1, b1], b2, b3.trans a3, b4.trans a4, b5, ?_⟩
    intro he
    rw [b6 (by rw [a4]; exact he), a6 he]

/-- After settlement the queue of a reachable instance is empty. -/
theorem step_queue (s s1 : Node) (e : Event) (h : Coherent s)
    (hq : s.setup ≠ .pending → s.messages = []) (hstep : step s e = some s1) :
    s1.setup ≠ .pending → s1.messages = [] := by
  intro hs1
  by_cases hs : s.setup = .pending
  · obtain ⟨hp, _, _⟩ := h
    obtain ⟨h1, h2⟩ := hp hs
    cases e with
    | input w =>
      simp only [step, Option.some.injEq] at hstep
      rw [← hstep] at hs1
      simp [onInput, h1, hs] at hs1
    | setupResolved sched =>
      obtain ⟨s2, processed, g1, g2, g3, _⟩ :=
        onSetupResolved_spec sched { s with setup := .fulfilled } h1
      simp only [step, hs, ↓reduceIte, g1, Option.some.injEq] at hstep
      rw [← hstep]; exact g3
    | setupRejected error =>
      simp only [step, hs, ↓reduceIte, Option.some.injEq] at hstep
      rw [← hstep]; rfl
    | close =>
      simp only [step, Option.some.injEq] at hstep
      obtain ⟨_, _, _, g4, _⟩ := onClose_frame s
      rw [← hstep, g4] at hs1
      exact absurd hs hs1
    | call op =>
      simp only [step, Option.some.injEq] at hstep
      obtain ⟨_, _, _, g4, _⟩ := applyOp_frame s op
      rw [← hstep, g4] at hs1
      exact absurd hs hs1
  · obtain ⟨s2, a1, _, _, _, a5, _⟩ := step_settled s e h hs (hq hs)
    rw [a1] at hstep
    simp only [Option.some.injEq] at hstep
    rw [← hstep]; exact a5

theorem run_reachable (hasIni : Bool) (fin : Option Fragment) (es : List Event) (s : Node)
    (hrun : run (Node.init hasIni fin) es = some s) :
    Coherent s ∧ (s.setup ≠ .pending → s.messages = []) := by
  have key : ∀ (es : List Event) (a b : Node), Coherent a →
      (a.setup ≠ .pending → a.messages = []) → run a es = some b →
      Coherent b ∧ (b.setup ≠ .pending → b.messages = []) := by
    intro es
    induction es with
    | nil =>
      intro a b ha hq hab
      simp only [run, Option.some.injEq] at hab
      rw [← hab]; exact ⟨ha, hq⟩
    | cons e es ih =>
      intro a b ha hq hab
      obtain ⟨a1, k1, k2, _⟩ := step_coherent a e ha
      simp only [run, k1] at hab
      exact ih a1 b k2 (step_queue a a1 e ha hq k1) hab
  exact key es _ s (coherent_init hasIni fin) (by simp [Node.init]) hrun

/-- C12. When the setup promise of an instance rejects, the continuation
empties the pending queue, sets the state to Failed and reports the failure
through `node.error`, once: these are all its effects. No body invocation has
taken place, and none takes place afterwards, whatever events follow: the
state stays Failed and the queue stays empty. -/
theorem C12_setup_rejection_discards_queue (hasIni : Bool) (fin : Option Fragment)
    (es0 : List Event) (s : Node) (error : JSVal)
    (hrun : run (Node.init hasIni fin) es0 = some s) (hp : s.setup = .pending) :
    ∃ s1, step s (.setupRejected error) = some s1 ∧
      s1.messages = [] ∧ s1.state = .ERROR ∧ s1.bodyCalls = [] ∧
      s1.log = s.log ++ [.error (.value error)] ∧
      ∀ es, ∃ s2, run s1 es = some s2 ∧
        s2.state = .ERROR ∧ s2.bodyCalls = [] ∧ s2.messages = [] := by
  obtain ⟨hc, _⟩ := run_reachable hasIni fin es0 s hrun
  obtain ⟨h1, h2⟩ := hc.1 hp
  have hc1 : Coherent (onSetupRejected error { s with setup := .rejected }) := by
    simp [Coherent, onSetupRejected, h2]
  refine ⟨onSetupRejected error { s with setup := .rejected }, by simp [step, hp], rfl, rfl,
    h2, rfl, ?_⟩
  intro es
  obtain ⟨s2, b1, _, _, b4, b5, b6⟩ :=
    run_settled es (onSetupRejected error { s with setup := .rejected }) hc1
      (by simp [onSetupRejected]) rfl
  exact ⟨s2, b1, b4, (b6 rfl).trans h2, b5⟩

/-- C12 on an instance with two queued messages. -/
theorem C12_setup_rejection_discards_queue_witness :
    ∃ s1, step { Node.init false none with messages := [⟨1, 11, 21⟩, ⟨2, 12, 22⟩] }
        (.setupRejected (.str "boom")) = some s1 ∧
      s1.messages = [] ∧ s1.state = .ERROR ∧ s1.bodyCalls = [] :=
  match C12_setup_rejection_discards_queue false none [.input ⟨1, 11, 21⟩, .input ⟨2, 12, 22⟩]
    _ (.str "boom") rfl rfl with
  | ⟨s1, h1, h2, h3, h4, _⟩ => ⟨s1, h1, h2, h3, h4⟩

/-- C13. Ready and Failed are terminal: from a reachable state that is Ready or
Failed, every sequence of events (inputs, close, further settlements, sandbox
calls) can be run and leaves the state what it was. In Ready an input invokes
the body at once and the queue stays empty; in Failed an input changes
nothing at all: no body invocation, no queueing, no report. -/
theorem C13_ready_and_failed_are_terminal (hasIni : Bool) (fin : Option Fragment)
    (es0 : List Event) (s : Node) (hrun : run (Node.init hasIni fin) es0 = some s)
    (hterm : s.state = .RESOLVED ∨ s.state = .ERROR) :
    (∀ es, ∃ s1, run s es = some s1 ∧ s1.state = s.state) ∧
    (s.state = .RESOLVED → ∀ w,
      step s (.input w) = some (processMessage s w) ∧
      (processMessage s w).bodyCalls = s.bodyCalls ++ [w] ∧
      (processMessage s w).messages = [] ∧
      (processMessage s w).log = s.log) ∧
    (s.state = .ERROR → ∀ w, step s (.input w) = some s) := by
  obtain ⟨hc, hq⟩ := run_reachable hasIni fin es0 s hrun
  have hs : s.setup ≠ .pending := by
    intro hp
    have := (hc.1 hp).1
    rcases hterm with h | h <;> rw [this] at h <;> cases h
  refine ⟨?_, ?_, ?_⟩
  · intro es
    obtain ⟨s1, b1, _, _, b4, _⟩ := run_settled es s hc hs (hq hs)
    exact ⟨s1, b1, b4⟩
  · intro h w
    exact ⟨by simp [step, onInput, h], rfl, hq hs, rfl⟩
  · intro h w
    simp [step, onInput, h]

/-- C13 on the state reached when setup has resolved. -/
theorem C13_ready_and_failed_are_terminal_witness :
    ∃ s1, run { Node.init false none with state := .RESOLVED, setup := .fulfilled }
        [.setupRejected (.str "late"), .close, .input ⟨1, 11, 21⟩] = some s1 ∧
      s1.state = .RESOLVED :=
  (C13_ready_and_failed_are_terminal false none [.setupResolved []] _ rfl (Or.inl rfl)).1
    [.setupRejected (.str "late"), .close, .input ⟨1, 11, 21⟩]

/-! ## Calls of done -/

theorem dones_append (l m : List Effect) : dones (l ++ m) = dones l ++ dones m := by
  induction l with
  | nil => simp [dones]
  | cons e l ih => cases e <;> simp [dones, ih]

theorem dones_filterMap_entryReport (es : List JSVal) : dones (es.filterMap entryReport) = [] := by
  induction es with
  | nil => simp [dones]
  | cons e es ih =>
    cases e <;> simp [List.filterMap_cons, entryReport, dones, ih]

theorem dones_positionReports (ps : List JSVal) : dones (ps.flatMap positionReports) = [] := by
  induction ps with
  | nil => simp [dones]
  | cons p ps ih =>
    simp only [List.flatMap_cons, dones_append, ih, List.append_nil, positionReports]
    split
    · exact dones_filterMap_entryReport _
    · simp [dones]

/-- The function `sendResults` calls no done capability. -/
theorem dones_sendResults (heap : Heap) (send : Nat) (id : Data) (msgs c : JSVal) :
    dones (sendResults heap send id msgs c).log = [] := by
  obtain ⟨out, _, h2, _⟩ := sendResults_spec heap send id msgs c
  rw [h2, dones_append, dones_positionReports]
  split <;> simp [dones]

theorem handleNodeDoneCall_eq (mentionsDone callsDone : Bool) :
    handleNodeDoneCall mentionsDone callsDone = true := by
  simp [handleNodeDoneCall]

/-- When the body resolves, the continuation hands the results to
`sendResults`, then calls `done` without argument, once. -/
theorem onBodyResolved_done (mentionsDone callsDone needTime hasMetrics : Bool) (heap : Heap)
    (w : WorkItem) (results : JSVal) (converted : String) :
    (∃ rest : List Effect,
      (onBodyResolved (settingsOf mentionsDone callsDone needTime hasMetrics) heap w results
        converted).2
        = (sendResults heap w.send (getField (heap.read w.msg) "_msgid") results
            (.bool false)).log ++ [.done w.done none] ++ rest) ∧
    dones (onBodyResolved (settingsOf mentionsDone callsDone needTime hasMetrics) heap w results
      converted).2 = [(w.done, none)] := by
  have hd := dones_sendResults heap w.send (getField (heap.read w.msg) "_msgid") results
    (.bool false)
  simp only [onBodyResolved, settingsOf, handleNodeDoneCall_eq, ↓reduceIte]
  cases needTime <;> cases hasMetrics <;>
    simp [dones_append, hd, dones]

/-! ## Positions in the compiled body wrapper -/

theorem advance_line_pos (cs : List Char) : 1 ≤ (cs.foldl advance (1, 1)).1 := by
  induction cs using List.reverseRecOn with
  | nil => simp
  | append_singleton cs c ih =>
    simp only [List.foldl_append, List.foldl_cons, List.foldl_nil, advance]
    split
    · exact Nat.le_add_left 1 _
    · exact ih

/-- Reading on from the position `(l, c)` instead of `(1, 1)` moves the lines
by `l - 1` and the columns of the first line by `c - 1`. -/
theorem foldl_advance_from (cs : List Char) (l c : Nat) (hl : 1 ≤ l) (hc : 1 ≤ c) :
    cs.foldl advance (l, c)
      = ((cs.foldl advance (1, 1)).1 + (l - 1),
         if (cs.foldl advance (1, 1)).1 = 1 then (cs.foldl advance (1, 1)).2 + (c - 1)
         else (cs.foldl advance (1, 1)).2) := by
  induction cs using List.reverseRecOn with
  | nil =>
    simp only [List.foldl_nil, ↓reduceIte, Prod.mk.injEq]
    omega
  | append_singleton cs x ih =>
    have hpos := advance_line_pos cs
    simp only [List.foldl_append, List.foldl_cons, List.foldl_nil, ih, advance]
    by_cases hx : x = '\n'
    · simp only [hx, ↓reduceIte, Prod.mk.injEq]
      refine ⟨by omega, ?_⟩
      have hne : ¬ ((cs.foldl advance (1, 1)).1 + 1 = 1) := by omega
      rw [if_neg hne]
    · simp only [hx, ↓reduceIte, Prod.mk.injEq, true_and]
      split <;> omega

set_option maxRecDepth 100000 in
/-- The wrapper head ends on line 4, before column 5. -/
theorem wrapperHead_end : wrapperHead.data.foldl advance (1, 1) = (4, 5) := by
  decide

/-- A character of the body fragment lies three lines further down in the
compiled source than in the fragment, in the same column, except on the first
line of the fragment, where it lies four columns further right. -/
theorem functionText_position (func : String) (i : Nat) (hi : i ≤ func.length) :
    positionOf (functionText func) (wrapperHead.length + i)
      = ((positionOf func i).1 + 3,
         if (positionOf func i).1 = 1 then (positionOf func i).2 + 4
         else (positionOf func i).2) := by
  have htake : (functionText func).data.take (wrapperHead.length + i)
      = wrapperHead.data ++ func.data.take i := by
    have hlen : wrapperHead.length = wrapperHead.data.length := rfl
    have hi1 : i ≤ func.data.length := hi
    simp only [functionText, String.data_append, List.append_assoc, hlen]
    rw [List.take_append, List.take_append_of_le_length hi1]
  simp only [positionOf, htake, List.foldl_append, wrapperHead_end]
  rw [foldl_advance_from _ 4 5 (by omega) (by omega)]

/-! ## Claims on the settlement of the body promise -/

/-- C11 as stated fails. When the body rejects with an object that has no
stack and that `JSON.stringify` cannot serialise (a cyclic structure), the
continuation raises and `done` is not called at all; when the body rejects
with `undefined`, `done` is called without any text. -/
theorem C11_counterexample_done_not_called :
    onBodyRejected ⟨1, 11, 21⟩ (.object .undefined "[object Object]" .raises) = none ∧
    onBodyRejected ⟨1, 11, 21⟩ .undefined = some [.done 21 none] :=
  ⟨rfl, rfl⟩

/-- C11, amended. For a message processed in Ready state: when the body
resolves, the results are handed to `sendResults` and then `done` is called,
exactly once and without argument. When the body rejects with a string, `done`
is called exactly once with that string; when it rejects with a value without
stack that `JSON.stringify` turns into a text, exactly once with that text;
when it rejects with a value whose stack has a part after the text
`at results`, exactly once with a text. The continuation of a rejection
changes nothing but the log of the instance: the state stays Ready and the
next input is passed to the body. -/
theorem C11_done_called_once (mentionsDone callsDone needTime hasMetrics : Bool) (heap : Heap)
    (w : WorkItem) (results : JSVal) (converted : String) (s : Node) :
    ((∃ rest : List Effect,
        (onBodyResolved (settingsOf mentionsDone callsDone needTime hasMetrics) heap w results
          converted).2
          = (sendResults heap w.send (getField (heap.read w.msg) "_msgid") results
              (.bool false)).log ++ [.done w.done none] ++ rest) ∧
      dones (onBodyResolved (settingsOf mentionsDone callsDone needTime hasMetrics) heap w
        results converted).2 = [(w.done, none)]) ∧
    (∀ t : String, onBodyRejected w (.str t) = some [.done w.done (some t)]) ∧
    (∀ (err : Thrown) (t : String), truthy err.stack = false → err.isString = false →
      jsonStringify err = .text t → onBodyRejected w err = some [.done w.done (some t)]) ∧
    (∀ (stack toStr : String) (json : Stringified) (frame : String), stack ≠ "" →
      (jsSplit stack "at results")[1]? = some frame →
      ∃ text, onBodyRejected w (.object (.str stack) toStr json)
        = some [.done w.done (some text)]) ∧
    (∀ (err : Thrown) (s1 : Node), s.state = .RESOLVED → bodyRejected s w err = some s1 →
      s1.state = .RESOLVED ∧ s1.bodyCalls = s.bodyCalls ∧
      ∀ w2, step s1 (.input w2) = some (processMessage s1 w2)) := by
  refine ⟨onBodyResolved_done mentionsDone callsDone needTime hasMetrics heap w results
    converted, ?_, ?_, ?_, ?_⟩
  · intro t
    simp [onBodyRejected, Thrown.stack, truthy, Thrown.isString, Thrown.toStr]
  · intro err t h1 h2 h3
    simp [onBodyRejected, h1, h2, h3]
  · intro stack toStr json frame hne hf
    have ht : truthy (.str stack) = true := by simp [truthy, hne]
    simp only [onBodyRejected, Thrown.truthy, Thrown.stack, ht, Bool.and_self, ↓reduceIte, hf]
    exact ⟨_, rfl⟩
  · intro err s1 hs hb
    simp only [bodyRejected, Option.map_eq_some'] at hb
    obtain ⟨effects, _, h2⟩ := hb
    subst h2
    exact ⟨hs, rfl, fun w2 => by simp [step, onInput, hs]⟩

/-- C14: the code misses the claim when the name of the node holds a closing
parenthesis. For the body `var a = 1;` / `retunr` the platform reports the
fault in the frame of the wrapper at compiled line 5, column 1. With a node
without name `done` receives the error text followed by ` (line 2, col 1)`;
with the node named `fn (v2)` the frame is cut at the parenthesis of the name
and `done` receives ` (line NaN, col n1 [fn (v2)`. -/
theorem C14_position_lost_when_name_has_parenthesis :
    resultsFrame (vmFilename "" "n1" "fn (v2)") 5 1
      = "    at results (Function node:n1 [fn (v2)]:5:1)" ∧
    onBodyRejected ⟨1, 11, 21⟩
        (.object
          (.str ("ReferenceError: retunr is not defined\n"
            ++ resultsFrame (vmFilename "" "n1" "fn (v2)") 5 1))
          "ReferenceError: retunr is not defined" (.text "\x7b\x7d"))
      = some [.done 21
          (some "ReferenceError: retunr is not defined (line NaN, col n1 [fn (v2)")] ∧
    onBodyRejected ⟨1, 11, 21⟩
        (.object
          (.str ("ReferenceError: retunr is not defined\n"
            ++ resultsFrame (vmFilename "" "n1" "") 5 1))
          "ReferenceError: retunr is not defined" (.text "\x7b\x7d"))
      = some [.done 21 (some "ReferenceError: retunr is not defined (line 2, col 1)")] ∧
    positionOf (functionText "var a = 1;\nretunr") (wrapperHead.length + 11) = (5, 1) := by
  refine ⟨by decide, by rfl, by rfl, ?_⟩
  rw [functionText_position _ _ (by decide)]
  decide

/-- C15: the code misses the claim. A rejection value whose stack has no frame
of the wrapper (an error created in a timer callback) makes the continuation
raise: `split` is called on `undefined`, and `done` is never called. A stack
whose wrapper frame has no line and column makes `done` receive the error text
with a suffix ` (line NaN, col ...)`, not the text as it is. -/
theorem C15_missing_frame_raises :
    onBodyRejected ⟨1, 11, 21⟩
        (.object (.str "Error: boom\n    at Timeout._onTimeout (Function node:n1:4:60)")
          "Error: boom" (.text "\x7b\x7d"))
      = none ∧
    onBodyRejected ⟨1, 11, 21⟩
        (.object (.str "Error: boom\n    at results (<anonymous>)") "Error: boom"
          (.text "\x7b\x7d"))
      = some [.done 21 (some "Error: boom (line NaN, col  (<anonymous>)")] :=
  ⟨by rfl, by rfl⟩

/-- C16: the code misses the claim on the first line of the fragment. For
every body fragment and every character on its first line, the compiled source
holds that character four columns further right, and the continuation passes
on the column of the compiled source: for the body `retunr`, a fault in line 1,
column 1, the frame reads `4:5` and `done` receives ` (line 1, col 5)`. On the
other lines of the fragment the two columns agree. -/
theorem C16_first_line_column_shifted (func : String) (i : Nat) (hi : i ≤ func.length) :
    ((positionOf func i).1 = 1 →
      (positionOf (functionText func) (wrapperHead.length + i)).2
        = (positionOf func i).2 + 4) ∧
    ((positionOf func i).1 ≠ 1 →
      (positionOf (functionText func) (wrapperHead.length + i)).2 = (positionOf func i).2) ∧
    positionOf "retunr" 0 = (1, 1) ∧
    positionOf (functionText "retunr") (wrapperHead.length + 0) = (4, 5) ∧
    onBodyRejected ⟨1, 11, 21⟩
        (.object
          (.str ("ReferenceError: retunr is not defined\n"
            ++ resultsFrame (vmFilename "" "n1" "") 4 5))
          "ReferenceError: retunr is not defined" (.text "\x7b\x7d"))
      = some [.done 21 (some "ReferenceError: retunr is not defined (line 1, col 5)")] := by
  refine ⟨?_, ?_, by decide, ?_, by rfl⟩
  · intro h
    rw [functionText_position func i hi]
    simp [h]
  · intro h
    rw [functionText_position func i hi]
    simp [h]
  · rw [functionText_position _ _ (by decide)]
    decide

/-- C16 on the body `retunr`, fault at its first character. -/
theorem C16_first_line_column_shifted_witness :
    (positionOf (functionText "retunr") (wrapperHead.length + 0)).2
      = (positionOf "retunr" 0).2 + 4 :=
  (C16_first_line_column_shifted "retunr" 0 (by decide)).1 (by decide)

/-- C17 as stated fails: when the body throws `undefined`, `done` is called
with `undefined`, as for a success, not with the text `undefined`. -/
theorem C17_counterexample_thrown_undefined :
    onBodyRejected ⟨1, 11, 21⟩ .undefined = some [.done 21 none] ∧
    onBodyRejected ⟨1, 11, 21⟩ .undefined ≠ some [.done 21 (some "undefined")] := by
  refine ⟨rfl, ?_⟩
  simp [onBodyRejected, Thrown.truthy, Thrown.isString, jsonStringify]

/-- C17, amended. When the body throws a string, `done` is called once with
the string itself; when it throws a number, once with its decimal text; when
it throws a boolean or `null`, once with the text `true`, `false` or `null`. -/
theorem C17_thrown_primitive (w : WorkItem) :
    (∀ t : String, onBodyRejected w (.str t) = some [.done w.done (some t)]) ∧
    (∀ n : Int, onBodyRejected w (.num n) = some [.done w.done (some (toString n))]) ∧
    onBodyRejected w (.bool true) = some [.done w.done (some "true")] ∧
    onBodyRejected w (.bool false) = some [.done w.done (some "false")] ∧
    onBodyRejected w .null = some [.done w.done (some "null")] := by
  refine ⟨?_, ?_, ?_, ?_, ?_⟩
  · intro t
    simp [onBodyRejected, Thrown.stack, truthy, Thrown.isString, Thrown.toStr]
  · intro n
    simp [onBodyRejected, Thrown.stack, truthy, Thrown.isString, jsonStringify]
  · simp [onBodyRejected, Thrown.stack, truthy, Thrown.isString, jsonStringify]
  · simp [onBodyRejected, Thrown.stack, truthy, Thrown.isString, jsonStringify, Thrown.truthy]
  · simp [onBodyRejected, Thrown.stack, truthy, Thrown.isString, jsonStringify, Thrown.truthy]

/-- C18 as stated fails: when the body throws an object without stack whose
serialisation raises (a cyclic structure), the continuation raises with it and
`done` is not called; there is no placeholder text. -/
theorem C18_counterexample_cyclic_object :
    onBodyRejected ⟨1, 11, 21⟩ (.object .undefined "[object Object]" .raises) = none :=
  rfl

/-- C18, amended. When the body throws an object that has no stack and that
`JSON.stringify` turns into a text, `done` is called once with that text, the
JSON form of the object. -/
theorem C18_thrown_object_serialised (w : WorkItem) (stack : JSVal) (toStr t : String)
    (hstack : truthy stack = false) :
    onBodyRejected w (.object stack toStr (.text t)) = some [.done w.done (some t)] := by
  simp [onBodyRejected, Thrown.stack, hstack, Thrown.isString, jsonStringify]

/-- C18, amended, on the object of the test, whose JSON form is the text
`\x7b"a":1\x7d`. -/
theorem C18_thrown_object_serialised_witness :
    onBodyRejected ⟨1, 11, 21⟩ (.object .undefined "[object Object]" (.text "\x7b\"a\":1\x7d"))
      = some [.done 21 (some "\x7b\"a\":1\x7d")] :=
  C18_thrown_object_serialised ⟨1, 11, 21⟩ .undefined "[object Object]" "\x7b\"a\":1\x7d" rfl

/-- A truthy scalar or a byte buffer as results value: one error report that
names its type, and nothing else. -/
theorem scalar_result_log (heap : Heap) (send : Nat) (id : Data) (v c : JSVal) (t : String)
    (ht : scalarTypeName v = some t) (hv : truthy v = true) :
    (sendResults heap send id v c).log = [.error (.nonMessageReturned t)] := by
  cases v <;> simp [scalarTypeName] at ht <;> subst ht <;>
    simp [sendResults, isNullish, isArray, sendOuter, sendInner, sendEntry, typeOf, isBuffer,
      JSType.name, hv]

/-- C19 as stated fails: when the body returns the string `foo`, the invalid
result is reported through `node.error` and `done` is then called without
argument, not with an error value. -/
theorem C19_counterexample_done_without_error :
    (onBodyResolved (settingsOf false false false false) [] ⟨1, 11, 21⟩ (.str "foo") "").2
      = [.error (.nonMessageReturned "string"), .done 21 none] :=
  rfl

/-- C19, amended. When the body fragment returns a truthy top-level string,
number or boolean, or a byte buffer, the invalid result is reported through
`node.error`, naming its type, and the completion of the message is then
signalled without error: `done` is called exactly once, with no argument. -/
theorem C19_invalid_result_done_without_error (mentionsDone callsDone needTime hasMetrics : Bool)
    (heap : Heap) (w : WorkItem) (v : JSVal) (t converted : String)
    (ht : scalarTypeName v = some t) (hv : truthy v = true) :
    (∃ rest : List Effect,
      (onBodyResolved (settingsOf mentionsDone callsDone needTime hasMetrics) heap w v
        converted).2
        = [.error (.nonMessageReturned t), .done w.done none] ++ rest) ∧
    dones (onBodyResolved (settingsOf mentionsDone callsDone needTime hasMetrics) heap w v
      converted).2 = [(w.done, none)] := by
  obtain ⟨⟨rest, h1⟩, h2⟩ :=
    onBodyResolved_done mentionsDone callsDone needTime hasMetrics heap w v converted
  have hlog := scalar_result_log heap w.send (getField (heap.read w.msg) "_msgid") v
    (.bool false) t ht hv
  rw [hlog] at h1
  exact ⟨⟨rest, by rw [h1]; rfl⟩, h2⟩

/-- C19, amended, on the body result `foo` of the test. -/
theorem C19_invalid_result_done_without_error_witness :
    dones (onBodyResolved (settingsOf false false false false) [] ⟨1, 11, 21⟩ (.str "foo")
      "").2 = [(21, none)] :=
  (C19_invalid_result_done_without_error false false false false [] ⟨1, 11, 21⟩ (.str "foo")
    "string" "" rfl (by decide)).2

/-! ## The sandbox function node.on -/

theorem isInputName_iff (x : Option JSVal) :
    isInputName x = true ↔ x = some (.str "input") := by
  cases x with
  | none => simp [isInputName]
  | some v => cases v <;> simp [isInputName]

/-- C20. The sandbox function `node.on` raises an error and calls nothing
exactly when its first argument is the string `input`; with any other first
argument, or none, it raises nothing and forwards the call, with the same
arguments, to `node.on` of the host, and does nothing else. -/
theorem C20_node_on_rejects_input_only (s : Node) (args : List JSVal) :
    (args.head? = some (.str "input") →
      sandboxOn s args = .error "function.error.inputListener") ∧
    (args.head? ≠ some (.str "input") →
      sandboxOn s args = .ok { s with log := s.log ++ [.on args] }) ∧
    ((∃ text, sandboxOn s args = .error text) ↔ args.head? = some (.str "input")) := by
  refine ⟨?_, ?_, ?_⟩
  · intro h
    simp [sandboxOn, (isInputName_iff _).mpr h]
  · intro h
    have hn : isInputName args.head? = false := by
      cases hb : isInputName args.head? with
      | false => rfl
      | true => exact absurd ((isInputName_iff _).mp hb) h
    simp [sandboxOn, hn]
  · constructor
    · intro ⟨text, ht⟩
      by_cases hb : isInputName args.head? = true
      · exact (isInputName_iff _).mp hb
      · simp [sandboxOn, hb] at ht
    · intro h
      refine ⟨"function.error.inputListener", ?_⟩
      simp [sandboxOn, (isInputName_iff _).mpr h]

/-- C20 on the calls `node.on("input", h)` and `node.on("close", h)`. -/
theorem C20_node_on_rejects_input_only_witness :
    sandboxOn (Node.init false none) [.str "input", .obj 0]
      = .error "function.error.inputListener" ∧
    sandboxOn (Node.init false none) [.str "close", .obj 0]
      = .ok { Node.init false none with log := [.on [.str "close", .obj 0]] } :=
  ⟨(C20_node_on_rejects_input_only (Node.init false none) [.str "input", .obj 0]).1 rfl,
   (C20_node_on_rejects_input_only (Node.init false none) [.str "close", .obj 0]).2.1
     (by simp)⟩

/-! ## The method split -/

theorem splitGo_nil (sep : List Char) (skip : Nat) (acc : List Char) :
    splitGo sep [] skip acc = [acc.reverse] := by
  cases skip <;> rfl

theorem splitGo_cons_succ (sep : List Char) (c : Char) (cs : List Char) (k : Nat)
    (acc : List Char) : splitGo sep (c :: cs) (k + 1) acc = splitGo sep cs k acc := rfl

theorem splitGo_cons_zero (sep : List Char) (c : Char) (cs : List Char) (acc : List Char) :
    splitGo sep (c :: cs) 0 acc
      = if sep.isPrefixOf (c :: cs) then acc.reverse :: splitGo sep cs (sep.length - 1) []
        else splitGo sep cs 0 (c :: acc) := rfl

/-- The pieces found with a piece already begun are those found from scratch,
the first one preceded by what was begun. -/
theorem splitGo_acc (sep : List Char) (r : List Char) (skip : Nat) (acc : List Char) :
    ∃ h t, splitGo sep r skip [] = h :: t ∧ splitGo sep r skip acc = (acc.reverse ++ h) :: t := by
  induction r generalizing skip acc with
  | nil => exact ⟨[], [], by simp [splitGo_nil], by simp [splitGo_nil]⟩
  | cons c cs ih =>
    cases skip with
    | succ k =>
      obtain ⟨h, t, h1, h2⟩ := ih k acc
      exact ⟨h, t, by rw [splitGo_cons_succ, h1], by rw [splitGo_cons_succ, h2]⟩
    | zero =>
      by_cases hp : sep.isPrefixOf (c :: cs) = true
      · refine ⟨[], splitGo sep cs (sep.length - 1) [], ?_, ?_⟩
        · rw [splitGo_cons_zero, if_pos hp]; rfl
        · rw [splitGo_cons_zero, if_pos hp, List.append_nil]
      · obtain ⟨h, t, h1, h2⟩ := ih 0 (c :: acc)
        obtain ⟨h', t', h1', h2'⟩ := ih 0 [c]
        rw [h1] at h1'
        simp only [List.cons.injEq] at h1'
        refine ⟨c :: h, t, ?_, ?_⟩
        · rw [splitGo_cons_zero, if_neg hp, h2', ← h1'.1, ← h1'.2]
          simp
        · rw [splitGo_cons_zero, if_neg hp, h2]
          simp

/-- Passing over the rest of a separator. -/
theorem splitGo_skip (sep x r acc : List Char) :
    splitGo sep (x ++ r) x.length acc = splitGo sep r 0 acc := by
  induction x with
  | nil => rfl
  | cons c cs ih =>
    rw [List.cons_append, List.length_cons, splitGo_cons_succ, ih]

/-- Where no occurrence of the separator starts, the current piece grows. -/
theorem splitGo_noMatch (sep a r acc : List Char)
    (h : ∀ k, k < a.length → sep.isPrefixOf ((a ++ r).drop k) = false) :
    splitGo sep (a ++ r) 0 acc = splitGo sep r 0 (a.reverse ++ acc) := by
  induction a generalizing acc with
  | nil => rfl
  | cons c cs ih =>
    have h0 : ¬ (sep.isPrefixOf (c :: (cs ++ r)) = true) := by
      have := h 0 (by simp)
      simp only [List.drop_zero, List.cons_append] at this
      rw [this]; simp
    have hrest : ∀ k, k < cs.length → sep.isPrefixOf ((cs ++ r).drop k) = false := by
      intro k hk
      have := h (k + 1) (by simp only [List.length_cons]; omega)
      simpa using this
    rw [List.cons_append, splitGo_cons_zero, if_neg h0, ih (c :: acc) hrest]
    simp

theorem isPrefixOf_self_append (l r : List Char) : l.isPrefixOf (l ++ r) = true := by
  induction l with
  | nil => simp [List.isPrefixOf]
  | cons x xs ih => simp [List.isPrefixOf, ih]

/-- At an occurrence of the separator the current piece ends. -/
theorem splitGo_match (c : Char) (tl r acc : List Char) :
    splitGo (c :: tl) ((c :: tl) ++ r) 0 acc = acc.reverse :: splitGo (c :: tl) r 0 [] := by
  have hp : (c :: tl).isPrefixOf (c :: (tl ++ r)) = true := isPrefixOf_self_append (c :: tl) r
  rw [List.cons_append, splitGo_cons_zero, if_pos hp]
  have hlen : (c :: tl).length - 1 = tl.length := by simp
  rw [hlen, splitGo_skip]

theorem isPrefixOf_single (c d : Char) (cs : List Char) :
    [c].isPrefixOf (d :: cs) = (c == d) := by
  simp [List.isPrefixOf]

/-- Splitting at a single character, piece by piece. -/
theorem splitGo_single_append (c : Char) (x y acc : List Char) :
    splitGo [c] (x ++ c :: y) 0 acc = splitGo [c] x 0 acc ++ splitGo [c] y 0 [] := by
  induction x generalizing acc with
  | nil =>
    rw [List.nil_append, splitGo_cons_zero, isPrefixOf_single, splitGo_nil]
    simp
  | cons d ds ih =>
    rw [List.cons_append, splitGo_cons_zero, splitGo_cons_zero, isPrefixOf_single,
      isPrefixOf_single]
    by_cases hd : (c == d) = true
    · simp only [hd, ↓reduceIte, List.length_singleton, Nat.sub_self, List.cons_append, ih]
    · simp only [hd, Bool.false_eq_true, ↓reduceIte, ih]

theorem splitGo_single_none (c : Char) (y acc : List Char) (h : c ∉ y) :
    splitGo [c] y 0 acc = [acc.reverse ++ y] := by
  induction y generalizing acc with
  | nil => simp [splitGo_nil]
  | cons d ds ih =>
    have hd : ¬ ((c == d) = true) := by
      have : c ≠ d := fun e => h (by simp [e])
      simpa using this
    have hds : c ∉ ds := fun e => h (List.mem_cons_of_mem _ e)
    rw [splitGo_cons_zero, isPrefixOf_single, if_neg hd, ih _ hds]
    simp

theorem jsIndex_last2 (xs : List String) (x y : String) :
    jsIndex (xs ++ [x, y]) (((xs ++ [x, y]).length : Int) - 2) = some x := by
  have h1 : (((xs ++ [x, y]).length : Int) - 2) = (xs.length : Int) := by
    simp only [List.length_append, List.length_cons, List.length_nil, Nat.cast_add]
    omega
  have h2 : ¬ ((xs.length : Int) < 0) := by omega
  rw [h1]
  simp only [jsIndex, h2, ↓reduceIte, Int.toNat_ofNat]
  rw [List.getElem?_append_right (Nat.le_refl _)]
  simp

theorem jsIndex_last1 (xs : List String) (x y : String) :
    jsIndex (xs ++ [x, y]) (((xs ++ [x, y]).length : Int) - 1) = some y := by
  have h1 : (((xs ++ [x, y]).length : Int) - 1) = ((xs.length + 1 : Nat) : Int) := by
    simp only [List.length_append, List.length_cons, List.length_nil, Nat.cast_add]
    omega
  have h2 : ¬ (((xs.length + 1 : Nat) : Int) < 0) := by omega
  rw [h1]
  simp only [jsIndex, h2, ↓reduceIte, Int.toNat_ofNat]
  rw [List.getElem?_append_right (Nat.le_succ _)]
  simp

/-- The second piece of a stack split at the text `at results`, when the first
occurrence of that text is followed by `frame`, a closing parenthesis and
`post`, and the text does not occur again before that parenthesis. -/
theorem frame_piece (marker pre frame post : List Char) (hm : marker ≠ [])
    (hfirst : ∀ k, k < pre.length →
      marker.isPrefixOf ((pre ++ (marker ++ (frame ++ ')' :: post))).drop k) = false)
    (hnext : ∀ k, k < (frame ++ [')']).length →
      marker.isPrefixOf (((frame ++ [')']) ++ post).drop k) = false) :
    ∃ h, (splitGo marker (pre ++ (marker ++ (frame ++ ')' :: post))) 0 [])[1]?
      = some (frame ++ ')' :: h) := by
  obtain ⟨c, tl, rfl⟩ := List.exists_cons_of_ne_nil hm
  obtain ⟨h, t, _, h2⟩ := splitGo_acc (c :: tl) post 0 ((frame ++ [')']).reverse ++ [])
  refine ⟨h, ?_⟩
  have hsplit : frame ++ ')' :: post = (frame ++ [')']) ++ post := by simp
  rw [splitGo_noMatch _ _ _ _ hfirst, splitGo_match, hsplit, splitGo_noMatch _ _ _ _ hnext, h2]
  simp

/-- The pieces of a frame text split at the colon end with the line and the
column. -/
theorem frame_fields (x ln col : List Char) (hln : ':' ∉ ln) (hcol : ':' ∉ col) :
    ∃ ps : List (List Char), splitGo [':'] (x ++ ':' :: (ln ++ ':' :: col)) 0 []
      = ps ++ [ln, col] := by
  refine ⟨splitGo [':'] x 0 [], ?_⟩
  rw [splitGo_single_append, splitGo_single_append, splitGo_single_none _ _ _ hln,
    splitGo_single_none _ _ _ hcol]
  simp

/-- The line and column of the wrapper frame are recovered, and the line is
reduced by 3, when the frame `at results (file:ln:col)` is the first
occurrence of the text `at results` in the stack, that text does not occur
again before the closing parenthesis of the frame, the file name holds no
closing parenthesis, and `ln` and `col` hold neither colon nor parenthesis. -/
theorem frame_position_reported (w : WorkItem) (toStr pre file ln col post : String)
    (json : Stringified) (n : Int)
    (hfirst : ∀ k, k < pre.data.length →
      "at results".data.isPrefixOf
        ((pre.data ++ ("at results".data ++ ((" (".data ++ file.data ++ ':' :: (ln.data
          ++ ':' :: col.data)) ++ ')' :: post.data))).drop k) = false)
    (hnext : ∀ k, k < ((" (".data ++ file.data ++ ':' :: (ln.data ++ ':' :: col.data))
        ++ [')']).length →
      "at results".data.isPrefixOf
        ((((" (".data ++ file.data ++ ':' :: (ln.data ++ ':' :: col.data)) ++ [')'])
          ++ post.data).drop k) = false)
    (hfile : ')' ∉ file.data) (hln : ')' ∉ ln.data ∧ ':' ∉ ln.data)
    (hcol : ')' ∉ col.data ∧ ':' ∉ col.data) (hnum : toNumber ln = some n) :
    onBodyRejected w
        (.object
          (.str (pre ++ "at results" ++ " (" ++ file ++ ":" ++ ln ++ ":" ++ col ++ ")" ++ post))
          toStr json)
      = some [.done w.done
          (some (toStr ++ " (line " ++ toString (n - 3) ++ ", col " ++ col ++ ")"))] := by
  have hdata : (pre ++ "at results" ++ " (" ++ file ++ ":" ++ ln ++ ":" ++ col ++ ")" ++ post).data
      = pre.data ++ ("at results".data ++ ((" (".data ++ file.data ++ ':' :: (ln.data
          ++ ':' :: col.data)) ++ ')' :: post.data)) := by
    simp only [String.data_append]
    have h1 : ":".data = [':'] := rfl
    have h2 : ")".data = [')'] := rfl
    simp [h1, h2]
  have hne : (pre ++ "at results" ++ " (" ++ file ++ ":" ++ ln ++ ":" ++ col ++ ")" ++ post)
      ≠ "" := by
    intro h
    have := congrArg String.data h
    rw [hdata] at this
    simp at this
  have ht : truthy (.str (pre ++ "at results" ++ " (" ++ file ++ ":" ++ ln ++ ":" ++ col ++ ")"
      ++ post)) = true := by
    simp [truthy, hne]
  obtain ⟨h, hpiece⟩ := frame_piece "at results".data pre.data
    (" (".data ++ file.data ++ ':' :: (ln.data ++ ':' :: col.data)) post.data (by decide)
    hfirst hnext
  have hS : ')' ∉ (" (".data ++ file.data ++ ':' :: (ln.data ++ ':' :: col.data)) := by
    simp only [List.mem_append, List.mem_cons, not_or]
    refine ⟨⟨by decide, hfile⟩, by decide, hln.1, by decide, hcol.1⟩
  obtain ⟨ps, hfields⟩ := frame_fields (" (".data ++ file.data) ln.data col.data hln.2 hcol.2
  have hsplit1 : (jsSplit (pre ++ "at results" ++ " (" ++ file ++ ":" ++ ln ++ ":" ++ col ++ ")"
      ++ post) "at results")[1]?
      = some (String.mk ((" (".data ++ file.data ++ ':' :: (ln.data ++ ':' :: col.data))
          ++ ')' :: h)) := by
    have he : "at results".data.isEmpty = false := by decide
    simp only [jsSplit, he, Bool.false_eq_true, ↓reduceIte, List.getElem?_map, hdata, hpiece,
      Option.map_some']
  have hsplit2 : (jsSplit (String.mk ((" (".data ++ file.data ++ ':' :: (ln.data
      ++ ':' :: col.data)) ++ ')' :: h)) ")").headD ""
      = String.mk (" (".data ++ file.data ++ ':' :: (ln.data ++ ':' :: col.data)) := by
    have he : ")".data.isEmpty = false := by decide
    have hd : ")".data = [')'] := rfl
    simp only [jsSplit, he, Bool.false_eq_true, ↓reduceIte, hd, splitGo_single_append,
      splitGo_single_none _ _ _ hS]
    simp
  have hsplit3 : jsSplit (String.mk (" (".data ++ file.data ++ ':' :: (ln.data
      ++ ':' :: col.data))) ":" = ps.map String.mk ++ [ln, col] := by
    have he : ":".data.isEmpty = false := by decide
    have hd : ":".data = [':'] := rfl
    simp only [jsSplit, he, Bool.false_eq_true, ↓reduceIte, hd, hfields, List.map_append,
      List.map_cons, List.map_nil]
  simp only [onBodyRejected, Thrown.truthy, Thrown.stack, ht, Bool.and_self, ↓reduceIte, hsplit1,
    hsplit2, hsplit3, jsIndex_last2, jsIndex_last1, Option.some_bind, hnum, Option.map_some',
    Option.getD_some, showNumber, Thrown.toStr]

set_option maxRecDepth 100000 in
/-- The frame of the script error test, in a node without name: the position
5:1 of the compiled source is reported as line 2, column 1. -/
theorem frame_position_reported_example :
    onBodyRejected ⟨1, 11, 21⟩
        (.object
          (.str ("ReferenceError: retunr is not defined\n    " ++ "at results" ++ " ("
            ++ "Function node:n1" ++ ":" ++ "5" ++ ":" ++ "1" ++ ")" ++ ""))
          "ReferenceError: retunr is not defined" (.text "\x7b\x7d"))
      = some [.done 21
          (some ("ReferenceError: retunr is not defined" ++ " (line " ++ toString ((5 : Int) - 3)
            ++ ", col " ++ "1" ++ ")"))] :=
  frame_position_reported ⟨1, 11, 21⟩ "ReferenceError: retunr is not defined"
    "ReferenceError: retunr is not defined\n    " "Function node:n1" "5" "1" "" (.text "\x7b\x7d") 5
    (by decide) (by decide) (by decide) (by decide) (by decide) (by decide)

/-! ## The timer registry -/

/-- The sandbox `clearTimeout` removes the first occurrence of the handle from
the outstanding one-shot set, cancels it on the platform, and touches nothing
else. -/
theorem applyOp_clearTimeout (s : Node) (id : Nat) :
    applyOp s (.clearTimeout id)
      = { s with
          log := s.log ++ [.platformClearTimeout id]
          outstandingTimers := s.outstandingTimers.erase id } := by
  simp only [applyOp, splice_indexOf]

/-- The sandbox `clearInterval` removes the first occurrence of the handle from
the outstanding repeating set, cancels it on the platform, and touches nothing
else. -/
theorem applyOp_clearInterval (s : Node) (id : Nat) :
    applyOp s (.clearInterval id)
      = { s with
          log := s.log ++ [.platformClearInterval id]
          outstandingIntervals := s.outstandingIntervals.erase id } := by
  simp only [applyOp, splice_indexOf]

/-- In a list without repetition, removing the first occurrence of an element
removes the element: what is left is the list filtered, and a second removal
changes nothing. -/
theorem erase_of_nodup (l : List Nat) (id : Nat) (hd : l.Nodup) :
    l.erase id = l.filter (fun h => h ≠ id) ∧ id ∉ l.erase id ∧
      (l.erase id).erase id = l.erase id ∧ (l.erase id).Nodup := by
  have hnot : id ∉ l.erase id := fun h => (List.Nodup.mem_erase_iff hd).mp h |>.1 rfl
  refine ⟨?_, hnot, List.erase_of_not_mem hnot, hd.erase id⟩
  rw [List.Nodup.erase_eq_filter hd]
  congr 1
  funext h
  by_cases hh : h = id <;> simp [hh]

/-- The handles stay pairwise distinct under a sandbox call, as long as a
timer creator registers a handle that is not outstanding yet (the platform
returns a new handle for each timer). -/
theorem applyOp_nodup (s : Node) (op : SandboxOp)
    (ht : s.outstandingTimers.Nodup) (hi : s.outstandingIntervals.Nodup)
    (hnewT : ∀ t, op = .setTimeout t → t ∉ s.outstandingTimers)
    (hnewI : ∀ t, op = .setInterval t → t ∉ s.outstandingIntervals) :
    (applyOp s op).outstandingTimers.Nodup ∧ (applyOp s op).outstandingIntervals.Nodup := by
  cases op with
  | setTimeout t =>
    refine ⟨?_, hi⟩
    show (s.outstandingTimers ++ [t]).Nodup
    rw [List.nodup_append]
    exact ⟨ht, List.nodup_singleton t, by
      intro a ha hb
      simp only [List.mem_singleton] at hb
      subst hb
      exact hnewT a rfl ha⟩
  | setInterval t =>
    refine ⟨ht, ?_⟩
    show (s.outstandingIntervals ++ [t]).Nodup
    rw [List.nodup_append]
    exact ⟨hi, List.nodup_singleton t, by
      intro a ha hb
      simp only [List.mem_singleton] at hb
      subst hb
      exact hnewI a rfl ha⟩
  | clearTimeout id =>
    rw [applyOp_clearTimeout]
    exact ⟨ht.erase id, hi⟩
  | clearInterval id =>
    rw [applyOp_clearInterval]
    exact ⟨ht, hi.erase id⟩
  | status text => exact ⟨ht, hi⟩
  | error err => exact ⟨ht, hi⟩
  | nodeSend msgs cloneMsg =>
    simp only [applyOp, nodeSend]
    split <;> exact ⟨ht, hi⟩

/-- C21. When a one-shot timer created through the sandbox `setTimeout`
fires, the wrapper first calls the sandbox `clearTimeout` on its own handle and
only then the user callback: in the instance in which the user callback starts,
the handle is not in the outstanding one-shot set any more, every other handle
of that set is still there in the same order, and the outstanding repeating set
is as it was. The handles of the set are pairwise distinct: the platform
returns a new handle for each timer. -/
theorem C21_handle_removed_before_callback (s : Node) (timerId : Nat) (func : Callback)
    (hd : s.outstandingTimers.Nodup) :
    timeoutCallback s timerId func
      = reportCaught (applyCallback (timeoutCallbackEntry s timerId) func) ∧
    timerId ∉ (timeoutCallbackEntry s timerId).outstandingTimers ∧
    (timeoutCallbackEntry s timerId).outstandingTimers
      = s.outstandingTimers.filter (fun h => h ≠ timerId) ∧
    (∀ h, h ≠ timerId →
      (h ∈ (timeoutCallbackEntry s timerId).outstandingTimers ↔ h ∈ s.outstandingTimers)) ∧
    (timeoutCallbackEntry s timerId).outstandingIntervals = s.outstandingIntervals ∧
    (timeoutCallbackEntry s timerId).log = s.log ++ [.platformClearTimeout timerId] := by
  obtain ⟨h1, h2, _, _⟩ := erase_of_nodup s.outstandingTimers timerId hd
  have he : (timeoutCallbackEntry s timerId).outstandingTimers
      = s.outstandingTimers.erase timerId := by
    simp only [timeoutCallbackEntry, applyOp_clearTimeout]
  refine ⟨rfl, by rw [he]; exact h2, by rw [he]; exact h1, ?_, ?_, ?_⟩
  · intro h hne
    rw [he]
    exact List.mem_erase_of_ne hne
  · simp only [timeoutCallbackEntry, applyOp_clearTimeout]
  · simp only [timeoutCallbackEntry, applyOp_clearTimeout]

/-- The timer 7 fires while the timers 5, 7 and 9 and the interval 3 are
outstanding: the user callback starts with the timers 5 and 9. -/
theorem C21_handle_removed_before_callback_witness :
    timeoutCallbackEntry
        { Node.init false none with outstandingTimers := [5, 7, 9], outstandingIntervals := [3] } 7
      = { Node.init false none with
          outstandingTimers := [5, 9]
          outstandingIntervals := [3]
          log := [.platformClearTimeout 7] } ∧
    (7 : Nat) ∉ (timeoutCallbackEntry
        { Node.init false none with outstandingTimers := [5, 7, 9], outstandingIntervals := [3] }
        7).outstandingTimers :=
  ⟨rfl,
    (C21_handle_removed_before_callback
      { Node.init false none with outstandingTimers := [5, 7, 9], outstandingIntervals := [3] } 7
      (.function ⟨[], none⟩) (by decide)).2.1⟩

/-- C22. The function that the sandbox `setTimeout` or `setInterval` hands to
the platform never raises, whatever was passed as callback: when the user
callback raises (or is not a function, so that calling it raises), the
exception is reported through `node.error`, once, after whatever the callback
did, and the wrapper returns normally; when the user callback returns, the
wrapper adds nothing to what the callback did. -/
theorem C22_timer_callback_never_raises (s : Node) (timerId : Nat) (func : Callback) :
    (timeoutCallback s timerId func).raised = none ∧
    (intervalCallback s func).raised = none ∧
    timeoutCallback s timerId func
      = reportCaught (applyCallback (timeoutCallbackEntry s timerId) func) ∧
    intervalCallback s func = reportCaught (applyCallback s func) ∧
    (∀ s0 : Node, (applyCallback s0 func).raised = none →
      reportCaught (applyCallback s0 func) = applyCallback s0 func) ∧
    (∀ (s0 : Node) (err : JSVal), (applyCallback s0 func).raised = some err →
      (reportCaught (applyCallback s0 func)).node
        = { (applyCallback s0 func).node with
            log := (applyCallback s0 func).node.log ++ [.error (.value err)] } ∧
      errors (reportCaught (applyCallback s0 func)).node.log
        = errors (applyCallback s0 func).node.log ++ [.value err]) := by
  have key : ∀ o : Outcome, (reportCaught o).raised = none := by
    intro o
    unfold reportCaught
    split
    · assumption
    · rfl
  have herr : ∀ (l : List Effect) (r : Report), errors (l ++ [.error r]) = errors l ++ [r] := by
    intro l r
    induction l with
    | nil => rfl
    | cons e l ih => cases e <;> simp [errors, ih]
  refine ⟨key _, key _, rfl, rfl, ?_, ?_⟩
  · intro s0 h
    simp [reportCaught, h]
  · intro s0 err h
    have hr : reportCaught (applyCallback s0 func)
        = { node := { (applyCallback s0 func).node with
                      log := (applyCallback s0 func).node.log ++ [.error (.value err)] }
            raised := none } := by
      simp [reportCaught, h]
    rw [hr]
    exact ⟨rfl, herr _ _⟩

/-- C23. The sandbox `clearTimeout(id)` and `clearInterval(id)` cancel the
handle on the platform and take it out of their outstanding set: every other
handle stays, in the same order, and the other set is not touched; when the
handle is not in the set the set is unchanged; nothing is raised or reported
in either case, and a second call leaves the set as the first one left it. The
handles of a set are pairwise distinct: the platform returns a new handle for
each timer. -/
theorem C23_clear_removes_exactly_the_handle (s : Node) (id : Nat)
    (ht : s.outstandingTimers.Nodup) (hi : s.outstandingIntervals.Nodup) :
    ((applyOp s (.clearTimeout id)).outstandingTimers
        = s.outstandingTimers.filter (fun h => h ≠ id) ∧
      (applyOp s (.clearTimeout id)).outstandingIntervals = s.outstandingIntervals ∧
      (applyOp s (.clearTimeout id)).log = s.log ++ [.platformClearTimeout id] ∧
      (id ∉ s.outstandingTimers →
        (applyOp s (.clearTimeout id)).outstandingTimers = s.outstandingTimers) ∧
      (applyOp (applyOp s (.clearTimeout id)) (.clearTimeout id)).outstandingTimers
        = (applyOp s (.clearTimeout id)).outstandingTimers) ∧
    ((applyOp s (.clearInterval id)).outstandingIntervals
        = s.outstandingIntervals.filter (fun h => h ≠ id) ∧
      (applyOp s (.clearInterval id)).outstandingTimers = s.outstandingTimers ∧
      (applyOp s (.clearInterval id)).log = s.log ++ [.platformClearInterval id] ∧
      (id ∉ s.outstandingIntervals →
        (applyOp s (.clearInterval id)).outstandingIntervals = s.outstandingIntervals) ∧
      (applyOp (applyOp s (.clearInterval id)) (.clearInterval id)).outstandingIntervals
        = (applyOp s (.clearInterval id)).outstandingIntervals) := by
  obtain ⟨t1, _, t3, _⟩ := erase_of_nodup s.outstandingTimers id ht
  obtain ⟨i1, _, i3, _⟩ := erase_of_nodup s.outstandingIntervals id hi
  refine ⟨⟨?_, ?_, ?_, ?_, ?_⟩, ⟨?_, ?_, ?_, ?_, ?_⟩⟩
  · simp only [applyOp_clearTimeout]; exact t1
  · simp only [applyOp_clearTimeout]
  · simp only [applyOp_clearTimeout]
  · intro hn
    simp only [applyOp_clearTimeout]
    exact List.erase_of_not_mem hn
  · simp only [applyOp_clearTimeout]; exact t3
  · simp only [applyOp_clearInterval]; exact i1
  · simp only [applyOp_clearInterval]
  · simp only [applyOp_clearInterval]
  · intro hn
    simp only [applyOp_clearInterval]
    exact List.erase_of_not_mem hn
  · simp only [applyOp_clearInterval]; exact i3

/-- With the timers 5, 7 and 9 outstanding, clearing 7 leaves 5 and 9, clearing
7 again or clearing the unknown handle 8 leaves them as they are. -/
theorem C23_clear_removes_exactly_the_handle_witness :
    (applyOp { Node.init false none with outstandingTimers := [5, 7, 9] }
      (.clearTimeout 7)).outstandingTimers = [5, 9] ∧
    (applyOp (applyOp { Node.init false none with outstandingTimers := [5, 7, 9] }
      (.clearTimeout 7)) (.clearTimeout 7)).outstandingTimers = [5, 9] ∧
    (applyOp { Node.init false none with outstandingTimers := [5, 7, 9] }
      (.clearTimeout 8)).outstandingTimers = [5, 7, 9] ∧
    (applyOp { Node.init false none with outstandingTimers := [5, 7, 9] }
      (.clearTimeout 7)).outstandingTimers
      = ([5, 7, 9] : List Nat).filter (fun h => h ≠ 7) :=
  ⟨by decide, by decide, by decide,
    (C23_clear_removes_exactly_the_handle
      { Node.init false none with outstandingTimers := [5, 7, 9] } 7 (by decide) (by decide)).1.1⟩

/-! ## Invariants of traces -/

theorem kept_refl (s : Node) : Kept s s := ⟨rfl, rfl, rfl, rfl⟩

theorem kept_onInput (s : Node) (w : WorkItem) : Kept s (onInput s w) := by
  unfold onInput
  split
  · exact ⟨rfl, rfl, rfl, rfl⟩
  · split
    · exact ⟨rfl, rfl, rfl, rfl⟩
    · exact kept_refl s

theorem mem_callsOf (acts : List SyncAct) (op : SandboxOp) :
    op ∈ callsOf acts ↔ SyncAct.call op ∈ acts := by
  induction acts with
  | nil => simp [callsOf]
  | cons a acts ih =>
    cases a with
    | call op1 => simp [callsOf, ih]
    | input w => simp [callsOf, ih]

theorem foldl_applyOp_keeps (P : Node → Prop) (Q : SandboxOp → Prop)
    (hop : ∀ s op, Q op → P s → P (applyOp s op))
    (ops : List SandboxOp) (s : Node) (hq : ∀ op ∈ ops, Q op) (h : P s) :
    P (ops.foldl applyOp s) := by
  induction ops generalizing s with
  | nil => exact h
  | cons op ops ih =>
    simp only [List.foldl_cons]
    exact ih (applyOp s op) (fun o ho => hq o (List.mem_cons_of_mem _ ho))
      (hop s op (hq op (List.mem_cons_self _ _)) h)

theorem foldl_syncStep_keeps (P : Node → Prop) (Q : SandboxOp → Prop) (hP : Respects P)
    (hop : ∀ s op, Q op → P s → P (applyOp s op))
    (acts : List SyncAct) (s : Node) (hq : ∀ op ∈ callsOf acts, Q op) (h : P s) :
    P (acts.foldl syncStep s) := by
  induction acts generalizing s with
  | nil => exact h
  | cons a acts ih =>
    simp only [List.foldl_cons]
    cases a with
    | call op =>
      exact ih (applyOp s op) (fun o ho => hq o (by simp [callsOf, ho]))
        (hop s op (hq op (by simp [callsOf])) h)
    | input w =>
      exact ih (onInput s w) (fun o ho => hq o (by simpa [callsOf] using ho))
        (hP s _ (kept_onInput s w) h)

theorem forEachMsg_keeps (P : Node → Prop) (Q : SandboxOp → Prop) (hP : Respects P)
    (hop : ∀ s op, Q op → P s → P (applyOp s op))
    (msgs : List WorkItem) (sched : List (List SyncAct)) (s : Node)
    (hq : ∀ op ∈ sched.flatMap callsOf, Q op) (h : P s) :
    P (forEachMsg msgs sched s).2 ∧ (forEachMsg msgs sched s).1 = sched.drop msgs.length := by
  induction msgs generalizing sched s with
  | nil => exact ⟨h, by simp [forEachMsg]⟩
  | cons w rest ih =>
    simp only [forEachMsg]
    have hpm : P (processMessage s w) := hP s _ ⟨rfl, rfl, rfl, rfl⟩ h
    have hhead : ∀ op ∈ callsOf (sched.headD []), Q op := by
      intro op ho
      cases sched with
      | nil => simp [callsOf] at ho
      | cons a sched => exact hq op (by simp only [List.flatMap_cons, List.mem_append]; exact Or.inl ho)
    have htail : ∀ op ∈ sched.tail.flatMap callsOf, Q op := by
      intro op ho
      cases sched with
      | nil => simp at ho
      | cons a sched => exact hq op (by simp only [List.flatMap_cons, List.mem_append]; exact Or.inr ho)
    obtain ⟨h1, h2⟩ := ih sched.tail _ htail
      (foldl_syncStep_keeps P Q hP hop (sched.headD []) (processMessage s w) hhead hpm)
    refine ⟨h1, ?_⟩
    rw [h2]
    cases sched <;> simp

theorem drainLoop_keeps (P : Node → Prop) (Q : SandboxOp → Prop) (hP : Respects P)
    (hop : ∀ s op, Q op → P s → P (applyOp s op))
    (fuel : Nat) (msgs : List WorkItem) (sched : List (List SyncAct)) (s s1 : Node)
    (hq : ∀ op ∈ sched.flatMap callsOf, Q op) (h : P s)
    (hrun : drainLoop fuel msgs sched s = some s1) : P s1 := by
  induction fuel generalizing msgs sched s with
  | zero => simp [drainLoop] at hrun
  | succ fuel ih =>
    simp only [drainLoop] at hrun
    split at hrun
    · obtain ⟨h1, h2⟩ := forEachMsg_keeps P Q hP hop msgs sched { s with passes := s.passes + 1 } hq
        (hP s _ ⟨rfl, rfl, rfl, rfl⟩ h)
      generalize forEachMsg msgs sched { s with passes := s.passes + 1 } = r at hrun h1 h2
      have hq1 : ∀ op ∈ r.1.flatMap callsOf, Q op := by
        intro op ho
        rw [h2] at ho
        simp only [List.mem_flatMap] at ho
        obtain ⟨acts, ha, hoa⟩ := ho
        exact hq op (List.mem_flatMap.mpr ⟨acts, List.mem_of_mem_drop ha, hoa⟩)
      exact ih r.2.messages r.1 { r.2 with messages := [] } hq1
        (hP r.2 _ ⟨rfl, rfl, rfl, rfl⟩ h1) hrun
    · simp only [Option.some.injEq] at hrun
      rw [← hrun]; exact h

/-- A property that only depends on the outstanding sets, the status flag and
the teardown script, that the close handler keeps and that the sandbox calls of
an event keep, holds after the event when it held before. -/
theorem step_keeps (P : Node → Prop) (Q : SandboxOp → Prop) (hP : Respects P)
    (hop : ∀ s op, Q op → P s → P (applyOp s op)) (hclose : ∀ s, P s → P (onClose s))
    (s s1 : Node) (e : Event) (hq : ∀ op ∈ e.calls, Q op) (h : P s)
    (hstep : step s e = some s1) : P s1 := by
  cases e with
  | input w =>
    simp only [step, Option.some.injEq] at hstep
    rw [← hstep]; exact hP s _ (kept_onInput s w) h
  | setupResolved sched =>
    simp only [step] at hstep
    split at hstep
    · simp only [onSetupResolved] at hstep
      split at hstep
      · rename_i s2 hd
        simp only [Option.some.injEq] at hstep
        rw [← hstep]
        exact hP s2 _ ⟨rfl, rfl, rfl, rfl⟩
          (drainLoop_keeps P Q hP hop _ _ sched
            { s with setup := .fulfilled, messages := [] } s2 hq
            (hP s _ ⟨rfl, rfl, rfl, rfl⟩ h) hd)
      · cases hstep
    · simp only [Option.some.injEq] at hstep
      rw [← hstep]; exact h
  | setupRejected error =>
    simp only [step] at hstep
    split at hstep
    · simp only [Option.some.injEq] at hstep
      rw [← hstep]; exact hP s _ ⟨rfl, rfl, rfl, rfl⟩ h
    · simp only [Option.some.injEq] at hstep
      rw [← hstep]; exact h
  | close =>
    simp only [step, Option.some.injEq] at hstep
    rw [← hstep]; exact hclose s h
  | call op =>
    simp only [step, Option.some.injEq] at hstep
    rw [← hstep]; exact hop s op (hq op (by simp [Event.calls])) h

theorem bodyRejected_kept (s : Node) (w : WorkItem) (err : Thrown) :
    Kept s ((bodyRejected s w err).getD s) ∧
    ((bodyRejected s w err).getD s).state = s.state ∧
    ((bodyRejected s w err).getD s).setup = s.setup ∧
    ((bodyRejected s w err).getD s).bodyCalls = s.bodyCalls ∧
    ((bodyRejected s w err).getD s).messages = s.messages := by
  unfold bodyRejected
  cases onBodyRejected w err with
  | none => exact ⟨kept_refl s, rfl, rfl, rfl, rfl⟩
  | some effects => exact ⟨⟨rfl, rfl, rfl, rfl⟩, rfl, rfl, rfl, rfl⟩

theorem occur_keeps (P : Node → Prop) (Q : SandboxOp → Prop) (hP : Respects P)
    (hop : ∀ s op, Q op → P s → P (applyOp s op)) (hclose : ∀ s, P s → P (onClose s))
    (cfg : Settings) (s s1 : Node) (o : Occurrence) (hq : ∀ op ∈ o.calls, Q op) (h : P s)
    (hstep : occur cfg s o = some s1) : P s1 := by
  cases o with
  | event e => exact step_keeps P Q hP hop hclose s s1 e hq h hstep
  | resolved heap w results converted =>
    simp only [occur, Option.some.injEq] at hstep
    rw [← hstep]; exact hP s _ ⟨rfl, rfl, rfl, rfl⟩ h
  | rejected w err =>
    simp only [occur, Option.some.injEq] at hstep
    rw [← hstep]; exact hP s _ (bodyRejected_kept s w err).1 h

theorem occurAll_keeps (P : Node → Prop) (Q : SandboxOp → Prop) (hP : Respects P)
    (hop : ∀ s op, Q op → P s → P (applyOp s op)) (hclose : ∀ s, P s → P (onClose s))
    (cfg : Settings) (os : List Occurrence) (s s1 : Node)
    (hq : ∀ o ∈ os, ∀ op ∈ o.calls, Q op) (h : P s)
    (hrun : occurAll cfg s os = some s1) : P s1 := by
  induction os generalizing s with
  | nil =>
    simp only [occurAll, Option.some.injEq] at hrun
    rw [← hrun]; exact h
  | cons o os ih =>
    simp only [occurAll] at hrun
    split at hrun
    · rename_i s2 hs2
      exact ih s2 (fun o1 ho1 => hq o1 (List.mem_cons_of_mem _ ho1))
        (occur_keeps P Q hP hop hclose cfg s s2 o (hq o (List.mem_cons_self _ _)) h hs2) hrun
    · cases hrun

/-- An occurrence is defined on an instance whose lifecycle state follows the
state of its setup promise, and leads to such an instance. -/
theorem occur_coherent (cfg : Settings) (s : Node) (o : Occurrence) (h : Coherent s) :
    ∃ s1, occur cfg s o = some s1 ∧ Coherent s1 := by
  cases o with
  | event e =>
    obtain ⟨s1, h1, h2, _⟩ := step_coherent s e h
    exact ⟨s1, h1, h2⟩
  | resolved heap w results converted => exact ⟨_, rfl, h⟩
  | rejected w err =>
    obtain ⟨_, g1, g2, g3, _⟩ := bodyRejected_kept s w err
    refine ⟨_, rfl, ?_⟩
    simp only [Coherent, g1, g2, g3]
    exact h

theorem occurAll_coherent (cfg : Settings) (os : List Occurrence) (s : Node) (h : Coherent s) :
    ∃ s1, occurAll cfg s os = some s1 ∧ Coherent s1 := by
  induction os generalizing s with
  | nil => exact ⟨s, rfl, h⟩
  | cons o os ih =>
    obtain ⟨s1, h1, h2⟩ := occur_coherent cfg s o h
    obtain ⟨s2, g1, g2⟩ := ih s1 h2
    exact ⟨s2, by simp [occurAll, h1, g1], g2⟩

theorem onClose_coherent (s : Node) (h : Coherent s) : Coherent (onClose s) := by
  obtain ⟨g1, _, g3, g4, _⟩ := onClose_frame s
  simp only [Coherent, g1, g3, g4]
  exact h

/-- C24 as stated fails: a body invocation that is still running when the
instance is closed calls the sandbox `setTimeout` afterwards; the handle 7 it
registers stays in the outstanding one-shot set, and nothing cancels it. -/
theorem C24_counterexample_timer_created_after_close :
    (run (Node.init false none)
        [.setupResolved [], .input ⟨1, 11, 21⟩, .close, .call (.setTimeout 7)]).map
      (fun s => (s.outstandingTimers, s.outstandingIntervals))
      = some ([7], []) := by
  decide

/-- C24, amended. When the close handler has run, both outstanding sets are
empty, and they stay empty in every state reached afterwards as long as no
sandbox `setTimeout` or `setInterval` call follows the close handler; a timer
that user code creates after the close handler has run is registered like any
other. -/
theorem C24_sets_empty_after_close (cfg : Settings) (hasIni : Bool) (fin : Option Fragment)
    (before after : List Occurrence) (s : Node)
    (hrun : occurAll cfg (Node.init hasIni fin) before = some s)
    (hq : ∀ o ∈ after, ∀ op ∈ o.calls, op.createsTimer = false) :
    (onClose s).outstandingTimers = [] ∧ (onClose s).outstandingIntervals = [] ∧
    (∃ s1, occurAll cfg (onClose s) after = some s1 ∧
      s1.outstandingTimers = [] ∧ s1.outstandingIntervals = []) ∧
    (∀ s1 t, s1.outstandingTimers = [] →
      (applyOp s1 (.setTimeout t)).outstandingTimers = [t]) ∧
    (∀ s1 t, s1.outstandingIntervals = [] →
      (applyOp s1 (.setInterval t)).outstandingIntervals = [t]) := by
  have hc : (onClose s).outstandingTimers = [] ∧ (onClose s).outstandingIntervals = [] := by
    rw [onClose_eq]; exact ⟨rfl, rfl⟩
  obtain ⟨s0, k1, k2⟩ := occurAll_coherent cfg before _ (coherent_init hasIni fin)
  rw [hrun] at k1
  simp only [Option.some.injEq] at k1
  subst k1
  obtain ⟨s1, h1, _⟩ := occurAll_coherent cfg after (onClose s) (onClose_coherent s k2)
  refine ⟨hc.1, hc.2, ⟨s1, h1, ?_⟩, ?_, ?_⟩
  · refine occurAll_keeps (fun n => n.outstandingTimers = [] ∧ n.outstandingIntervals = [])
      (fun op => op.createsTimer = false) ?_ ?_ ?_ cfg after (onClose s) s1 hq hc h1
    · intro a b hk hab
      obtain ⟨k1, k2, _, _⟩ := hk
      exact ⟨k1.trans hab.1, k2.trans hab.2⟩
    · intro a op hop hab
      cases op with
      | setTimeout t => simp [SandboxOp.createsTimer] at hop
      | setInterval t => simp [SandboxOp.createsTimer] at hop
      | clearTimeout id => rw [applyOp_clearTimeout]; simp [hab.1, hab.2]
      | clearInterval id => rw [applyOp_clearInterval]; simp [hab.1, hab.2]
      | status text => exact hab
      | error err => exact hab
      | nodeSend msgs cloneMsg =>
        simp only [applyOp, nodeSend]
        split <;> exact hab
    · intro a _
      rw [onClose_eq]; exact ⟨rfl, rfl⟩
  · intro a t ha
    simp [applyOp, ha]
  · intro a t ha
    simp [applyOp, ha]

/-- An instance processes a message, is closed with a timer and an interval
outstanding, and a late input and a late `clearTimeout` follow: both sets are
empty. -/
theorem C24_sets_empty_after_close_witness :
    ∃ s1, occurAll ⟨true, false, false⟩
        (onClose { Node.init false none with
          state := .RESOLVED, setup := .fulfilled, outstandingTimers := [5], outstandingIntervals := [6] })
        [.event (.input ⟨1, 11, 21⟩), .event (.call (.clearTimeout 5))] = some s1 ∧
      s1.outstandingTimers = [] ∧ s1.outstandingIntervals = [] :=
  (C24_sets_empty_after_close ⟨true, false, false⟩ false none
    [.event (.setupResolved []), .event (.call (.setTimeout 5)), .event (.call (.setInterval 6))]
    [.event (.input ⟨1, 11, 21⟩), .event (.call (.clearTimeout 5))]
    { Node.init false none with
      state := .RESOLVED, setup := .fulfilled, outstandingTimers := [5], outstandingIntervals := [6] }
    (by rfl) (by decide)).2.2.1

/-! ## The status flag -/

/-- A sandbox call other than the status setter leaves the status flag as it
is; the status setter sets it. -/
theorem applyOp_clearStatus (s : Node) (op : SandboxOp) :
    (applyOp s op).clearStatus = (s.clearStatus || op.isStatus) := by
  cases op with
  | nodeSend msgs cloneMsg =>
    simp only [applyOp, nodeSend, SandboxOp.isStatus, Bool.or_false]
    split <;> rfl
  | _ => simp [applyOp, SandboxOp.isStatus]

/-- A teardown fragment that does not call the status setter leaves the status
flag as it is. -/
theorem runTeardown_clearStatus (s : Node)
    (hq : ∀ f, s.finScript = some f → ∀ op ∈ f.calls, op.isStatus = false) :
    (runTeardown s).clearStatus = s.clearStatus := by
  cases hfin : s.finScript with
  | none => simp [runTeardown, hfin]
  | some f =>
    have h1 : (f.calls.foldl applyOp { s with log := s.log ++ [.runTeardown] }).clearStatus
        = s.clearStatus :=
      foldl_applyOp_keeps (fun n => n.clearStatus = s.clearStatus)
        (fun op => op.isStatus = false)
        (fun a op hop ha => by
          show (applyOp a op).clearStatus = s.clearStatus
          rw [applyOp_clearStatus, hop, Bool.or_false]; exact ha)
        f.calls _ (hq f hfin) rfl
    cases hthrow : f.throws with
    | none =>
      have hrt : runTeardown s
          = f.calls.foldl applyOp { s with log := s.log ++ [.runTeardown] } := by
        simp [runTeardown, hfin, hthrow]
      rw [hrt]; exact h1
    | some err0 =>
      have hrt : runTeardown s
          = { f.calls.foldl applyOp { s with log := s.log ++ [.runTeardown] } with
              log := (f.calls.foldl applyOp { s with log := s.log ++ [.runTeardown] }).log
                ++ [.error (.value err0)] } := by
        simp [runTeardown, hfin, hthrow]
      rw [hrt]; exact h1

/-- Once set, the status flag stays set. -/
theorem occurAll_clearStatus (cfg : Settings) (os : List Occurrence) (s s1 : Node)
    (h : s.clearStatus = true) (hrun : occurAll cfg s os = some s1) : s1.clearStatus = true := by
  refine occurAll_keeps (fun n => n.clearStatus = true) (fun _ => True) ?_ ?_ ?_ cfg os s s1
    (fun _ _ _ _ => trivial) h hrun
  · intro a b hk ha
    exact hk.2.2.1.trans ha
  · intro a op _ ha
    rw [applyOp_clearStatus, ha, Bool.true_or]
  · intro a ha
    obtain ⟨_, _, _, _, _, a5, _⟩ := runTeardown_log a
    rw [onClose_eq]
    exact a5 ha

/-- C28 as stated fails: with the duration display switched on, the engine
shows the duration of a body invocation through `node.status`; the close
sequence that follows makes no status call, so the display is not cleared. -/
theorem C28_counterexample_duration_display_not_cleared :
    (occurAll ⟨true, true, false⟩ (Node.init false none)
        [.event (.setupResolved []), .event (.input ⟨0, 11, 21⟩),
          .resolved [[]] ⟨0, 11, 21⟩ .undefined "0.12", .event .close]).map
      (fun s => s.log)
      = some [.done 21 none, .status (some "0.12")] :=
  rfl

/-- C28, amended. The close sequence calls `status` with the empty object
once, as its last call, exactly when the status flag is set at the end of the
teardown fragment, and makes no status call of its own otherwise. The flag is
set by the sandbox status setter and by nothing else: it is clear as long as
neither the fragments nor the teardown fragment called the setter, and it
stays set once user code has called the setter. The engine's own duration
display calls `node.status` without setting the flag, so a status that only the
engine displayed is not cleared. -/
theorem C28_status_cleared_iff_setter_called (cfg : Settings) (hasIni : Bool)
    (fin : Option Fragment) (os : List Occurrence) (s : Node)
    (hrun : occurAll cfg (Node.init hasIni fin) os = some s) :
    (onClose s).log
      = (runTeardown s).log
        ++ (runTeardown s).outstandingTimers.reverse.map .platformClearTimeout
        ++ (runTeardown s).outstandingIntervals.reverse.map .platformClearInterval
        ++ (if (runTeardown s).clearStatus then [.status none] else []) ∧
    ((∀ o ∈ os, ∀ op ∈ o.calls, op.isStatus = false) →
      (∀ f, fin = some f → ∀ op ∈ f.calls, op.isStatus = false) →
      (runTeardown s).clearStatus = false) ∧
    ((∃ text, Occurrence.event (.call (.status text)) ∈ os) →
      (runTeardown s).clearStatus = true) ∧
    (∀ heap w results converted, cfg.needTime = true →
      Effect.status (some converted) ∈ (bodyResolved cfg heap s w results converted).log ∧
      (bodyResolved cfg heap s w results converted).clearStatus = s.clearStatus) := by
  refine ⟨by rw [onClose_eq], ?_, ?_, ?_⟩
  · intro hq hfin
    have hinv : s.clearStatus = false ∧ s.finScript = fin := by
      refine occurAll_keeps (fun n => n.clearStatus = false ∧ n.finScript = fin)
        (fun op => op.isStatus = false) ?_ ?_ ?_ cfg os _ s hq ⟨rfl, rfl⟩ hrun
      · intro a b hk ha
        exact ⟨hk.2.2.1.trans ha.1, hk.2.2.2.trans ha.2⟩
      · intro a op hop ha
        refine ⟨by rw [applyOp_clearStatus, hop, Bool.or_false]; exact ha.1, ?_⟩
        exact (applyOp_frame a op).2.2.2.2.2.2.trans ha.2
      · intro a ha
        refine ⟨?_, (onClose_frame a).2.2.2.2.2.2.trans ha.2⟩
        rw [onClose_eq]
        show (runTeardown a).clearStatus = false
        rw [runTeardown_clearStatus a (fun f hf => hfin f (ha.2.symm.trans hf))]
        exact ha.1
    rw [runTeardown_clearStatus s (fun f hf => hfin f (hinv.2.symm.trans hf))]
    exact hinv.1
  · intro hex
    obtain ⟨text, hmem⟩ := hex
    have hset : s.clearStatus = true := by
      have key : ∀ (os : List Occurrence) (a : Node),
          Occurrence.event (.call (.status text)) ∈ os → occurAll cfg a os = some s →
          s.clearStatus = true := by
        intro os
        induction os with
        | nil => intro a hm; simp at hm
        | cons o os ih =>
          intro a hm ha
          simp only [occurAll] at ha
          split at ha
          · rename_i a1 ha1
            rcases List.mem_cons.mp hm with h0 | h0
            · subst h0
              simp only [occur, step, Option.some.injEq] at ha1
              refine occurAll_clearStatus cfg os a1 s ?_ ha
              rw [← ha1, applyOp_clearStatus]
              simp [SandboxOp.isStatus]
            · exact ih a1 h0 ha
          · cases ha
      exact key os _ hmem hrun
    obtain ⟨_, _, _, _, _, a5, _⟩ := runTeardown_log s
    exact a5 hset
  · intro heap w results converted hneed
    refine ⟨?_, rfl⟩
    simp only [bodyResolved, onBodyResolved, hneed, Bool.true_or, ↓reduceIte, List.mem_append,
      List.mem_singleton, or_true]

/-- An instance whose body called the sandbox status setter once: the close
sequence ends with the call that clears the display. -/
theorem C28_status_cleared_iff_setter_called_witness :
    (onClose { Node.init false none with
        state := .RESOLVED, setup := .fulfilled, clearStatus := true,
        log := [.status (some "busy")] }).log
      = [.status (some "busy"), .status none] ∧
    (runTeardown { Node.init false none with
        state := .RESOLVED, setup := .fulfilled, clearStatus := true,
        log := [.status (some "busy")] }).clearStatus = true :=
  ⟨rfl,
    (C28_status_cleared_iff_setter_called ⟨true, false, false⟩ false none
      [.event (.setupResolved []), .event (.call (.status (some "busy")))]
      { Node.init false none with
        state := .RESOLVED, setup := .fulfilled, clearStatus := true,
        log := [.status (some "busy")] }
      rfl).2.2.1 ⟨some "busy", by simp⟩⟩

/-! ## The variable handleNodeDoneCall -/

/-- The body fragment `node.done();`, whose source holds a call `node.done()`:
the variable `handleNodeDoneCall` is true all the same, and the engine calls
`done` after the body returns. -/
theorem done_called_despite_call_in_source :
    handleNodeDoneCall true true = true ∧
    (onBodyResolved (settingsOf true true false false) [[]] ⟨0, 11, 21⟩ .undefined "").2
      = [.done 21 none] :=
  ⟨rfl, rfl⟩

/-- C29: the code misses the claim for a body fragment whose source holds a
call `node.done()`. The comment above the scan says that such a fragment is
trusted to signal completion itself, but in function2 the scan is behind
`false &&` and never runs: whether or not the source holds such a call, the
variable `handleNodeDoneCall` is true and the engine calls `done`, once and
without argument, after the body returns. For a source without such a call
this is what the claim says. -/
theorem C29_done_called_whatever_the_source (mentionsDone callsDone needTime hasMetrics : Bool)
    (heap : Heap) (w : WorkItem) (results : JSVal) (converted : String) :
    handleNodeDoneCall mentionsDone callsDone = true ∧
    (settingsOf mentionsDone callsDone needTime hasMetrics).handleNodeDoneCall = true ∧
    Effect.done w.done none
      ∈ (onBodyResolved (settingsOf mentionsDone callsDone needTime hasMetrics) heap w results
          converted).2 ∧
    dones (onBodyResolved (settingsOf mentionsDone callsDone needTime hasMetrics) heap w results
      converted).2 = [(w.done, none)] := by
  obtain ⟨⟨rest, h1⟩, h2⟩ :=
    onBodyResolved_done mentionsDone callsDone needTime hasMetrics heap w results converted
  refine ⟨handleNodeDoneCall_eq mentionsDone callsDone,
    handleNodeDoneCall_eq mentionsDone callsDone, ?_, h2⟩
  rw [h1]
  simp

/-! ## The type name of an invalid result -/

/-- The type names that the error reports of `sendResults` carry. -/
theorem entryReport_type (v : JSVal) (t : String)
    (h : entryReport v = some (.error (.nonMessageReturned t))) :
    (v matches .bool _) ∧ t = "boolean" ∨ (v matches .num _) ∧ t = "number" ∨
    (v matches .str _) ∧ t = "string" ∨ (v matches .buffer _) ∧ t = "Buffer" ∨
    (v matches .arr _) ∧ t = "Array" := by
  cases v <;> simp [entryReport] at h <;> simp [h.symm]

/-- C27: the code misses the claim for Date objects. A Date object passes the
test for a message object, so it is stamped and dispatched like a message and
no error is reported for it; the type name `Date` that `sendResults` holds for
it is never used: whatever the results value, every report of an invalid
result names one of `boolean`, `number`, `string`, `Buffer` and `Array`, as
the claim says for these. -/
theorem C27_date_result_sent_unreported :
    (sendResults [[]] 11 (.str "id") (.date 0) (.bool false)).log
      = [.send 11 (.arr [.arr [.date 0]])] ∧
    (sendResults [[]] 11 (.str "id") (.date 0) (.bool false)).heap
      = [[("_msgid", .str "id")]] ∧
    (∀ (heap : Heap) (send : Nat) (id : Data) (msgs c : JSVal),
      Effect.error (.nonMessageReturned "Date") ∉ (sendResults heap send id msgs c).log) ∧
    (∀ (heap : Heap) (send : Nat) (id : Data) (msgs c : JSVal) (t : String),
      Effect.error (.nonMessageReturned t) ∈ (sendResults heap send id msgs c).log →
      t ∈ ["boolean", "number", "string", "Buffer", "Array"]) ∧
    (∀ (st : SendState) (id : Data) (c : JSVal),
      ((sendEntry id c st (.bool true)).2.log = st.log ++ [.error (.nonMessageReturned "boolean")]) ∧
      ((sendEntry id c st (.num 1)).2.log = st.log ++ [.error (.nonMessageReturned "number")]) ∧
      ((sendEntry id c st (.str "a")).2.log = st.log ++ [.error (.nonMessageReturned "string")]) ∧
      ((sendEntry id c st (.buffer [1])).2.log = st.log ++ [.error (.nonMessageReturned "Buffer")]) ∧
      ((sendEntry id c st (.arr [])).2.log = st.log ++ [.error (.nonMessageReturned "Array")]) ∧
      ((sendEntry id c st (.date 0)).2.log = st.log)) := by
  have key : ∀ (heap : Heap) (send : Nat) (id : Data) (msgs c : JSVal) (t : String),
      Effect.error (.nonMessageReturned t) ∈ (sendResults heap send id msgs c).log →
      ∃ v, entryReport v = some (.error (.nonMessageReturned t)) := by
    intro heap send id msgs c t hmem
    obtain ⟨out, _, h2, _⟩ := sendResults_spec heap send id msgs c
    rw [h2, List.mem_append] at hmem
    rcases hmem with h | h
    · simp only [List.mem_flatMap, positionReports] at h
      obtain ⟨p, _, hp⟩ := h
      split at hp
      · simp only [List.mem_filterMap] at hp
        obtain ⟨v, _, hv⟩ := hp
        exact ⟨v, hv⟩
      · simp at hp
    · split at h <;> simp at h
  refine ⟨rfl, rfl, ?_, ?_, ?_⟩
  · intro heap send id msgs c hmem
    obtain ⟨v, hv⟩ := key heap send id msgs c "Date" hmem
    rcases entryReport_type v "Date" hv with h | h | h | h | h <;> exact absurd h.2 (by decide)
  · intro heap send id msgs c t hmem
    obtain ⟨v, hv⟩ := key heap send id msgs c t hmem
    rcases entryReport_type v t hv with h | h | h | h | h <;> simp [h.2]
  · intro st id c
    simp [sendEntry, isNullish, typeOf, isBuffer, isArray, JSType.name]

/-! ## The position of a compile-time error -/

theorem takeWhile_append_stop (p : Char → Bool) (a b : List Char) (x : Char)
    (ha : ∀ c ∈ a, p c = true) (hx : p x = false) :
    (a ++ x :: b).takeWhile p = a ∧ (a ++ x :: b).dropWhile p = x :: b := by
  induction a with
  | nil => simp [List.takeWhile, List.dropWhile, hx]
  | cons c a ih =>
    have hc : p c = true := ha c (List.mem_cons_self _ _)
    obtain ⟨h1, h2⟩ := ih (fun d hd => ha d (List.mem_cons_of_mem _ hd))
    simp [List.takeWhile, List.dropWhile, hc, h1, h2]

/-- The expression of `updateErrorInfo` on a text made of a run without colon,
a colon, a second run without colon, a colon, a run of digits and a rest that
starts with a line feed: the three groups are the three runs. -/
theorem execPosition_runs (f i l r : List Char)
    (hf : f ≠ [] ∧ ∀ c ∈ f, c ≠ ':') (hi : i ≠ [] ∧ ∀ c ∈ i, c ≠ ':')
    (hl : l ≠ [] ∧ ∀ c ∈ l, c.isDigit = true) :
    execPosition (String.mk (f ++ ':' :: (i ++ ':' :: (l ++ '\n' :: r))))
      = some (String.mk f, String.mk i, String.mk l) := by
  obtain ⟨f1, f2⟩ := takeWhile_append_stop (fun c => c != ':') f (i ++ ':' :: (l ++ '\n' :: r)) ':'
    (fun c hc => by simpa using hf.2 c hc) (by simp)
  obtain ⟨i1, i2⟩ := takeWhile_append_stop (fun c => c != ':') i (l ++ '\n' :: r) ':'
    (fun c hc => by simpa using hi.2 c hc) (by simp)
  obtain ⟨l1, _⟩ := takeWhile_append_stop Char.isDigit l r '\n' hl.2 (by decide)
  simp only [execPosition, f1, f2, i1, i2, l1]
  have e1 : f.isEmpty = false := by cases f <;> simp_all
  have e2 : i.isEmpty = false := by cases i <;> simp_all
  have e3 : l.isEmpty = false := by cases l <;> simp_all
  simp [e1, e2, e3]

/-- What `updateErrorInfo` makes of an error whose stack starts with
`<first>:<second>:<digits>` and a line feed: it appends the phase label that
the first run selects and the value of the digits less one. -/
theorem updateErrorInfo_runs (f i l r : String) (n : Nat) (message : String)
    (hf : f.data ≠ [] ∧ ∀ c ∈ f.data, c ≠ ':') (hi : i.data ≠ [] ∧ ∀ c ∈ i.data, c ≠ ':')
    (hl : l.data ≠ [] ∧ ∀ c ∈ l.data, c.isDigit = true) (hn : digitsValue l.data = some n) :
    (updateErrorInfo ⟨some (f ++ ":" ++ i ++ ":" ++ l ++ "\n" ++ r), message⟩).message
      = message ++ " ("
          ++ (if containsChars "cleanup".data f.data then "cleanup:"
              else if containsChars "setup".data f.data then "setup:" else "body:")
          ++ "line " ++ toString ((n : Int) - 1) ++ ")" := by
  have hdata : f ++ ":" ++ i ++ ":" ++ l ++ "\n" ++ r
      = String.mk (f.data ++ ':' :: (i.data ++ ':' :: (l.data ++ '\n' :: r.data))) := by
    apply String.ext
    simp [String.data_append]
  have hne : ¬ (f ++ ":" ++ i ++ ":" ++ l ++ "\n" ++ r = "") := by
    intro h
    have h1 := congrArg String.data h
    rw [hdata] at h1
    cases hfd : f.data with
    | nil => exact hf.1 hfd
    | cons c cs => rw [hfd] at h1; cases h1
  have hex := execPosition_runs f.data i.data l.data r.data hf hi hl
  rw [← hdata] at hex
  simp only [updateErrorInfo, hne, ↓reduceIte, hex, hn, Option.getD_some]

/-- A character of a fragment placed after `head` lies `l - 1` lines further
down in the whole text than in the fragment, `(l, c)` being the position at
which `head` ends. -/
theorem wrapped_position (head frag tail : String) (l c : Nat) (hl : 1 ≤ l) (hc : 1 ≤ c)
    (hend : head.data.foldl advance (1, 1) = (l, c)) (i : Nat) (hi : i ≤ frag.length) :
    positionOf (head ++ frag ++ tail) (head.length + i)
      = ((positionOf frag i).1 + (l - 1),
         if (positionOf frag i).1 = 1 then (positionOf frag i).2 + (c - 1)
         else (positionOf frag i).2) := by
  have htake : (head ++ frag ++ tail).data.take (head.length + i)
      = head.data ++ frag.data.take i := by
    have hlen : head.length = head.data.length := rfl
    have hi1 : i ≤ frag.data.length := hi
    simp only [String.data_append, List.append_assoc, hlen]
    rw [List.take_append, List.take_append_of_le_length hi1]
  simp only [positionOf, htake, List.foldl_append, hend]
  rw [foldl_advance_from _ l c hl hc]

set_option maxRecDepth 100000 in
/-- The head of the setup wrapper ends on line 4. -/
theorem iniHead_end : iniHead.data.foldl advance (1, 1) = (4, 29) := by
  decide

/-- The head of the teardown wrapper ends on line 2. -/
theorem finHead_end : finHead.data.foldl advance (1, 1) = (2, 1) := by
  decide

/-- The file name of a script, cut at its first colon: the two runs are not
empty and hold no colon when the node id is not empty and neither the id nor
the name holds a colon. -/
theorem vmFilename_runs (kind id name : String) (hid : id.data ≠ [] ∧ ':' ∉ id.data)
    (hname : ':' ∉ name.data) :
    vmFilename kind id name
      = ("Function node" ++ kind) ++ ":"
          ++ (id ++ (if name != "" then " [" ++ name ++ "]" else "")) ∧
    (id ++ (if name != "" then " [" ++ name ++ "]" else "")).data ≠ [] ∧
    ∀ c ∈ (id ++ (if name != "" then " [" ++ name ++ "]" else "")).data, c ≠ ':' := by
  refine ⟨by simp [vmFilename, String.append_assoc], ?_, ?_⟩
  · intro h
    simp only [String.data_append, List.append_eq_nil] at h
    exact hid.1 h.1
  · intro c hc hcc
    subst hcc
    simp only [String.data_append, List.mem_append] at hc
    rcases hc with h | h
    · exact hid.2 h
    · split at h
      · simp only [String.data_append, List.mem_append] at h
        rcases h with (h | h) | h
        · revert h; decide
        · exact hname h
        · revert h; decide
      · revert h; decide

/-- C30: the code misses the claim for the body and the setup fragment. For a
syntax error whose stack starts with the file name of the script, a colon and
the line `n`, `updateErrorInfo` appends the phase label of the script and the
line `n - 1`, for each of the three phases. In the compiled text the teardown
fragment starts on line 2, so `n - 1` is the line within the fragment for the
teardown phase; the body and the setup fragment start on line 4, so for them
`n - 1` is the line within the fragment plus 2. A fault on line 1 of the body
fragment is reported as `body:line 3`. -/
theorem C30_compile_error_line_off_by_two (id name ln rest message : String) (n : Nat)
    (hid : id.data ≠ [] ∧ ':' ∉ id.data) (hname : ':' ∉ name.data)
    (hln : ln.data ≠ [] ∧ ∀ c ∈ ln.data, c.isDigit = true)
    (hn : digitsValue ln.data = some n) :
    (updateErrorInfo ⟨some (vmFilename "" id name ++ ":" ++ ln ++ "\n" ++ rest), message⟩).message
      = message ++ " (body:line " ++ toString ((n : Int) - 1) ++ ")" ∧
    (updateErrorInfo
        ⟨some (vmFilename " setup" id name ++ ":" ++ ln ++ "\n" ++ rest), message⟩).message
      = message ++ " (setup:line " ++ toString ((n : Int) - 1) ++ ")" ∧
    (updateErrorInfo
        ⟨some (vmFilename " cleanup" id name ++ ":" ++ ln ++ "\n" ++ rest), message⟩).message
      = message ++ " (cleanup:line " ++ toString ((n : Int) - 1) ++ ")" ∧
    (∀ (func : String) (i : Nat), i ≤ func.length →
      (positionOf (functionText func) (wrapperHead.length + i)).1 = (positionOf func i).1 + 3) ∧
    (∀ (ini : String) (i : Nat), i ≤ ini.length →
      (positionOf (iniText ini) (iniHead.length + i)).1 = (positionOf ini i).1 + 3) ∧
    (∀ (fin : String) (i : Nat), i ≤ fin.length →
      (positionOf (finText fin) (finHead.length + i)).1 = (positionOf fin i).1 + 1) ∧
    positionOf "@" 0 = (1, 1) ∧
    (positionOf (functionText "@") (wrapperHead.length + 0)).1 = 4 ∧
    (updateErrorInfo
        ⟨some (syntaxErrorStack (vmFilename "" "n1" "") 4
            "    @\n    ^\n\nSyntaxError: Invalid or unexpected token"),
          "Invalid or unexpected token"⟩).message
      = "Invalid or unexpected token (body:line 3)" := by
  have key : ∀ kind : String,
      (("Function node" ++ kind).data ≠ [] ∧ ∀ c ∈ ("Function node" ++ kind).data, c ≠ ':') →
      (updateErrorInfo
          ⟨some (vmFilename kind id name ++ ":" ++ ln ++ "\n" ++ rest), message⟩).message
        = message ++ " ("
            ++ (if containsChars "cleanup".data ("Function node" ++ kind).data then "cleanup:"
                else if containsChars "setup".data ("Function node" ++ kind).data then "setup:"
                else "body:")
            ++ "line " ++ toString ((n : Int) - 1) ++ ")" := by
    intro kind hkind
    obtain ⟨h1, h2, h3⟩ := vmFilename_runs kind id name hid hname
    rw [h1]
    exact updateErrorInfo_runs ("Function node" ++ kind) _ ln rest n message hkind ⟨h2, h3⟩ hln hn
  have hassoc : ∀ kind t : String,
      message ++ " (" ++ kind ++ "line " ++ t ++ ")"
        = message ++ (" (" ++ kind ++ "line ") ++ t ++ ")" := by
    intro kind t
    simp [String.append_assoc]
  refine ⟨?_, ?_, ?_, ?_, ?_, ?_, by decide, ?_, by rfl⟩
  · have c1 : containsChars "cleanup".data ("Function node" ++ "").data = false := by decide
    have c2 : containsChars "setup".data ("Function node" ++ "").data = false := by decide
    have c3 : (" (" ++ "body:" ++ "line " : String) = " (body:line " := by decide
    rw [key "" (by decide), c1, c2]
    simp only [Bool.false_eq_true, ↓reduceIte]
    rw [hassoc, c3]
  · have c1 : containsChars "cleanup".data ("Function node" ++ " setup").data = false := by
      decide
    have c2 : containsChars "setup".data ("Function node" ++ " setup").data = true := by decide
    have c3 : (" (" ++ "setup:" ++ "line " : String) = " (setup:line " := by decide
    rw [key " setup" (by decide), c1, c2]
    simp only [Bool.false_eq_true, ↓reduceIte]
    rw [hassoc, c3]
  · have c1 : containsChars "cleanup".data ("Function node" ++ " cleanup").data = true := by
      decide
    have c3 : (" (" ++ "cleanup:" ++ "line " : String) = " (cleanup:line " := by decide
    rw [key " cleanup" (by decide), c1]
    simp only [↓reduceIte]
    rw [hassoc, c3]
  · intro func i hi
    rw [functionText_position func i hi]
  · intro ini i hi
    have h := wrapped_position iniHead ini "\n                        \x7d)();" 4 29 (by omega)
      (by omega) iniHead_end i hi
    simp only [iniText, h]
  · intro fin i hi
    have h := wrapped_position finHead fin "\n\x7d)();" 2 1 (by omega) (by omega) finHead_end i hi
    simp only [finText, h]
  · rw [functionText_position _ _ (by decide)]
    decide

/-- C30 on a node `n1` without name whose script fails to compile at line 4
of the compiled text: the three phases report line 3. -/
theorem C30_compile_error_line_off_by_two_witness :
    (updateErrorInfo ⟨some (vmFilename "" "n1" "" ++ ":" ++ "4" ++ "\n" ++ "@"), "bad"⟩).message
      = "bad" ++ " (body:line " ++ toString (((4 : Nat) : Int) - 1) ++ ")" :=
  (C30_compile_error_line_off_by_two "n1" "" "4" "@" "bad" 4 (by decide) (by decide) (by decide)
    (by decide)).1

/-- The expression of `updateErrorInfo` is not tied to the first line of the
stack: a stack that starts with the name of the error and not with a file name
is matched through a later frame, and the message is changed. -/
theorem updateErrorInfo_later_frame :
    (updateErrorInfo
        ⟨some "SyntaxError: Invalid or unexpected token\n    at new Script (vm.js:100:7)",
          "Invalid or unexpected token"⟩).message
      = "Invalid or unexpected token (body:line 99)" := by
  rfl

/-! ## Construction: compile errors and module loading -/

theorem errors_append (l m : List Effect) : errors (l ++ m) = errors l ++ errors m := by
  induction l with
  | nil => simp [errors]
  | cons e l ih => cases e <;> simp [errors, ih]

/-- The continuation of the module loading on a fresh instance whose three
fragments compile leaves the instance from which the lifecycle starts. -/
theorem onModulesLoaded_fresh (f : Fragments) (hasIni : Bool) (fin : Option Fragment)
    (h : (compileScripts f).2 = .ok (hasIni, fin)) :
    (onModulesLoaded f Instance.fresh).node = Node.init hasIni fin ∧
    (onModulesLoaded f Instance.fresh).closeHandler = true := by
  cases hasIni <;> simp [onModulesLoaded, h, Instance.fresh, Node.init]

/-- While no handler of `close` is registered and the state is `RESOLVING`,
the host events delivered to an instance only add the inputs to the queue. -/
theorem hostStep_queueing (es : List HostEvent) (i : Instance) (hc : i.closeHandler = false)
    (hs : i.node.state = .RESOLVING) :
    es.foldl hostStep i
      = { i with node := { i.node with messages := i.node.messages ++ hostInputs es } } := by
  induction es generalizing i with
  | nil => simp [hostInputs]
  | cons e es ih =>
    cases e with
    | input w =>
      have h1 : hostStep i (.input w)
          = { i with node := { i.node with messages := i.node.messages ++ [w] } } := by
        simp [hostStep, onInput, hs]
      rw [List.foldl_cons, h1,
        ih { i with node := { i.node with messages := i.node.messages ++ [w] } } hc hs]
      simp [hostInputs]
    | close =>
      have h1 : hostStep i .close = i := by simp [hostStep, hc]
      rw [List.foldl_cons, h1, ih i hc hs]
      simp [hostInputs]

/-- C25: the code misses the claim on what becomes of the instance. When one
of the three fragments fails to compile, the failure is reported through
`node.error` once, nothing is raised, no fragment is run and no handler of
`close` is registered, as claimed; but the state is left `RESOLVING`, not
Failed, and the handler of `input` keeps every message delivered before or
afterwards in the pending queue, which nothing empties. -/
theorem C25_compile_failure_keeps_queueing (f : Fragments) (err : JSError)
    (before after : List HostEvent) (hfail : (compileScripts f).2 = .error err) :
    errors (after.foldl hostStep
        (onModulesLoaded f (before.foldl hostStep Instance.fresh))).node.log
      = [.exception (updateErrorInfo err).message] ∧
    (after.foldl hostStep
        (onModulesLoaded f (before.foldl hostStep Instance.fresh))).node.log
      = [.error (.exception (updateErrorInfo err).message)] ∧
    (after.foldl hostStep
        (onModulesLoaded f (before.foldl hostStep Instance.fresh))).node.bodyCalls = [] ∧
    (after.foldl hostStep
        (onModulesLoaded f (before.foldl hostStep Instance.fresh))).setupStarted = false ∧
    (after.foldl hostStep
        (onModulesLoaded f (before.foldl hostStep Instance.fresh))).closeHandler = false ∧
    (after.foldl hostStep
        (onModulesLoaded f (before.foldl hostStep Instance.fresh))).node.state = .RESOLVING ∧
    (after.foldl hostStep
        (onModulesLoaded f (before.foldl hostStep Instance.fresh))).node.messages
      = hostInputs before ++ hostInputs after := by
  have h0 := hostStep_queueing before Instance.fresh rfl rfl
  have h1 : onModulesLoaded f (before.foldl hostStep Instance.fresh)
      = { Instance.fresh with
          node := { Instance.fresh.node with
                    messages := hostInputs before
                    log := [.error (.exception (updateErrorInfo err).message)] }
          compileCalls := (compileScripts f).1 } := by
    rw [h0]
    simp [onModulesLoaded, hfail, Instance.fresh, Node.init]
  rw [h1, hostStep_queueing after _ rfl rfl]
  exact ⟨rfl, rfl, rfl, rfl, rfl, rfl, rfl⟩

/-- A node whose body fragment does not compile, and two messages delivered
afterwards, with a close in between: both messages sit in the queue. -/
theorem C25_compile_failure_keeps_queueing_witness :
    (([HostEvent.input ⟨1, 11, 21⟩, .close, .input ⟨2, 12, 22⟩] : List HostEvent).foldl hostStep
        (onModulesLoaded
          ⟨none,
            .error ⟨some (syntaxErrorStack (vmFilename "" "n1" "") 4 "    @"),
              "Invalid or unexpected token"⟩,
            none⟩
          (([] : List HostEvent).foldl hostStep Instance.fresh))).node.messages
      = hostInputs [] ++ hostInputs [.input ⟨1, 11, 21⟩, .close, .input ⟨2, 12, 22⟩] :=
  (C25_compile_failure_keeps_queueing
    ⟨none,
      .error ⟨some (syntaxErrorStack (vmFilename "" "n1" "") 4 "    @"),
        "Invalid or unexpected token"⟩,
      none⟩
    ⟨some (syntaxErrorStack (vmFilename "" "n1" "") 4 "    @"), "Invalid or unexpected token"⟩
    [] [.input ⟨1, 11, 21⟩, .close, .input ⟨2, 12, 22⟩] rfl).2.2.2.2.2.2

/-- What the settlement of the imports reports: one `moduleLoadError` for
each import that fails, and one `externalModuleLoadError` when `Promise.all`
had not rejected before and an import fails. -/
theorem settleImports_spec (imp : String → Option String) (specs : List String)
    (rejected : Bool) :
    (errors (settleImports imp specs rejected)).length
      = (specs.filter fun spec => (imp spec).isSome).length
        + (if rejected = false ∧ (specs.filter fun spec => (imp spec).isSome) ≠ [] then 1
           else 0) ∧
    ((errors (settleImports imp specs rejected)).filter
        Report.isExternalModuleLoadError).length
      = (if rejected = false ∧ (specs.filter fun spec => (imp spec).isSome) ≠ [] then 1
         else 0) ∧
    (∀ spec ∈ specs, ∀ error, imp spec = some error →
      Effect.error (.moduleLoadError none error) ∈ settleImports imp specs rejected) ∧
    (settleImports imp specs rejected).length
      = (errors (settleImports imp specs rejected)).length := by
  induction specs generalizing rejected with
  | nil => simp [settleImports, errors]
  | cons spec rest ih =>
    cases himp : imp spec with
    | none =>
      obtain ⟨h1, h2, h3, h4⟩ := ih rejected
      simp only [settleImports, himp, List.filter_cons, Option.isSome_none, Bool.false_eq_true,
        ↓reduceIte]
      refine ⟨h1, h2, ?_, h4⟩
      intro s hs error he
      rcases List.mem_cons.mp hs with h | h
      · subst h
        rw [himp] at he
        cases he
      · exact h3 s h error he
    | some e =>
      obtain ⟨h1, h2, h3, h4⟩ := ih true
      simp only [Bool.true_eq_false, false_and, ↓reduceIte, Nat.add_zero] at h1 h2
      have hset : settleImports imp (spec :: rest) rejected
          = [.error (.moduleLoadError none e)]
            ++ (if rejected then [] else [.error .externalModuleLoadError])
            ++ settleImports imp rest true := by
        simp [settleImports, himp]
      rw [hset]
      refine ⟨?_, ?_, ?_, ?_⟩
      · cases rejected <;>
          simp [errors_append, errors, h1, List.filter_cons, himp]
      · cases rejected <;>
          simp [errors_append, errors, h2, List.filter_cons, himp,
            Report.isExternalModuleLoadError]
      · intro s hs error he
        rcases List.mem_cons.mp hs with h | h
        · subst h
          rw [himp] at he
          simp only [Option.some.injEq] at he
          subst he
          simp
        · simp only [List.mem_append]
          exact Or.inr (h3 s h error he)
      · cases rejected <;> simp [errors_append, errors, h4]

/-- C26 as stated fails: when the only import of an instance fails,
`node.error` is called twice, first with the message on the module and then
with the message on the instance. -/
theorem C26_counterexample_failure_reported_twice :
    (registerLibs true [⟨some "lib", some "missing"⟩]).toOption.map (fun st => st.loading)
      = some ["missing"] ∧
    (errors (afterLoad (fun _ => some "Error: Cannot find module") ⟨none, .ok (), none⟩
        ["missing"] Instance.fresh).node.log).length = 2 ∧
    (afterLoad (fun _ => some "Error: Cannot find module") ⟨none, .ok (), none⟩
        ["missing"] Instance.fresh).node.log
      = [.error (.moduleLoadError none "Error: Cannot find module"),
          .error .externalModuleLoadError] :=
  ⟨rfl, rfl, rfl⟩

/-- C26, amended. When the import of an auxiliary module fails, the
continuation that compiles and starts the fragments is skipped: no fragment is
compiled or run and no handler of `close` is registered. The failure is
surfaced through `node.error` once for each import that fails, with the
message on the module, and once more for the instance as a whole, with the
message `externalModuleLoadError`; nothing else is reported. -/
theorem C26_module_failure_refuses_instance (imp : String → Option String) (f : Fragments)
    (specs : List String) (i : Instance) (hfail : ∃ spec ∈ specs, imp spec ≠ none) :
    (afterLoad imp f specs i).compileCalls = i.compileCalls ∧
    (afterLoad imp f specs i).setupStarted = i.setupStarted ∧
    (afterLoad imp f specs i).closeHandler = i.closeHandler ∧
    (afterLoad imp f specs i).node
      = { i.node with log := i.node.log ++ settleImports imp specs false } ∧
    (settleImports imp specs false).length
      = (specs.filter fun spec => (imp spec).isSome).length + 1 ∧
    (errors (settleImports imp specs false)).length
      = (specs.filter fun spec => (imp spec).isSome).length + 1 ∧
    ((errors (settleImports imp specs false)).filter Report.isExternalModuleLoadError).length
      = 1 ∧
    (∀ spec ∈ specs, ∀ error, imp spec = some error →
      Effect.error (.moduleLoadError none error) ∈ settleImports imp specs false) := by
  obtain ⟨spec, hmem, hne⟩ := hfail
  have hall : specs.all (fun spec => (imp spec).isNone) = false := by
    rw [Bool.eq_false_iff]
    intro h
    rw [List.all_eq_true] at h
    have := h spec hmem
    cases himp : imp spec with
    | none => exact hne himp
    | some e => simp [himp] at this
  have hsome : (specs.filter fun spec => (imp spec).isSome) ≠ [] := by
    intro h
    have hm : spec ∈ specs.filter fun spec => (imp spec).isSome := by
      rw [List.mem_filter]
      refine ⟨hmem, ?_⟩
      cases himp : imp spec with
      | none => exact absurd himp hne
      | some e => rfl
    rw [h] at hm
    cases hm
  obtain ⟨h1, h2, h3, h4⟩ := settleImports_spec imp specs false
  simp only [hsome, ne_eq, not_false_eq_true, and_self, ↓reduceIte] at h1 h2
  refine ⟨?_, ?_, ?_, ?_, ?_, h1, h2, h3⟩
  · simp [afterLoad, hall]
  · simp [afterLoad, hall]
  · simp [afterLoad, hall]
  · simp [afterLoad, hall]
  · rw [h4, h1]

/-- Three imports of which the first and the last fail: three reports on
modules and one on the instance, and nothing compiled. -/
theorem C26_module_failure_refuses_instance_witness :
    (afterLoad (fun s => if s = "fs" then none else some "Error: Cannot find module")
        ⟨none, .ok (), none⟩ ["a", "fs", "b"] Instance.fresh).compileCalls = 0 ∧
    (errors (settleImports (fun s => if s = "fs" then none else some "Error: Cannot find module")
        ["a", "fs", "b"] false)).length
      = ((["a", "fs", "b"] : List String).filter fun spec =>
          ((fun s => if s = "fs" then none else some "Error: Cannot find module") spec).isSome).length
        + 1 :=
  ⟨(C26_module_failure_refuses_instance
      (fun s => if s = "fs" then none else some "Error: Cannot find module")
      ⟨none, .ok (), none⟩ ["a", "fs", "b"] Instance.fresh ⟨"a", by decide, by decide⟩).1,
    rfl⟩

/-- As long as the platform returns new handles, the handles of each
outstanding set are pairwise distinct after any sequence of sandbox calls. -/
theorem foldl_applyOp_nodup (ops : List SandboxOp) (s : Node)
    (ht : s.outstandingTimers.Nodup) (hi : s.outstandingIntervals.Nodup)
    (hfresh : FreshCalls s ops) :
    (ops.foldl applyOp s).outstandingTimers.Nodup ∧
    (ops.foldl applyOp s).outstandingIntervals.Nodup := by
  induction ops generalizing s with
  | nil => exact ⟨ht, hi⟩
  | cons op ops ih =>
    obtain ⟨h1, h2, h3⟩ := hfresh
    obtain ⟨g1, g2⟩ := applyOp_nodup s op ht hi h1 h2
    exact ih (applyOp s op) g1 g2 h3

end Function2
